import Mathlib

/-!
Verification of the ORIGINIUM storage engine (github.com/B1NARY-GR0UP/originium).

Shallow embedding of the Go sources into Lean 4.  Go strings are byte
sequences and are modelled as `List Nat`; machine integers are modelled as
`Nat`/`Int` with explicit `% 2^w` where overflow matters.  Fallible Go code
(errors, runtime panics) is modelled with `Option`/`Except`.
-/

namespace Originium

/-- Str models a Go string / byte slice as its list of byte values. -/
abbrev Str := List Nat

/-- strCmp models Go strings.Compare / cmp.Compare / bytes.Compare:
bytewise lexicographic comparison returning -1, 0 or 1. -/
def strCmp : Str → Str → Int
  | [], [] => 0
  | [], _ :: _ => -1
  | _ :: _, [] => 1
  | a :: as, b :: bs => if a < b then -1 else if b < a then 1 else strCmp as bs

/-- Entry models types.Entry (src/types/types.go): versioned key, value,
tombstone flag, and the int64 commit version. -/
structure Entry where
  Key : Str
  Value : Str
  Tombstone : Bool
  Version : Int
  deriving DecidableEq, Repr

/-- lastIndexAt models strings.LastIndex(key, "@"): the index of the last
occurrence of the byte 64 ('@'), or none when absent (Go returns -1). -/
def lastIndexAt : Str → Option Nat
  | [] => none
  | c :: rest =>
    match lastIndexAt rest with
    | some i => some (i + 1)
    | none => if c = 64 then some 0 else none

/-- decDigitsAux produces the decimal digit bytes of n, most significant
first; the fuel argument (any value ≥ n works) keeps it structural. -/
def decDigitsAux : Nat → Nat → List Nat
  | 0, _ => []
  | fuel + 1, n => if n = 0 then [] else decDigitsAux fuel (n / 10) ++ [n % 10 + 48]

/-- formatUint models strconv.FormatUint(ts, 10): the decimal digit bytes of
a natural number, most significant first ("0" for zero). -/
def formatUint (n : Nat) : Str :=
  if n = 0 then [48] else decDigitsAux n n

/-- KeyWithTs models types.KeyWithTs: key + "@" + decimal digits of ts. -/
def KeyWithTs (key : Str) (ts : Nat) : Str := key ++ 64 :: formatUint ts

/-- parseUint models strconv.ParseUint(s, 10, 64): some value for a nonempty
all-digit string whose value fits in 64 bits, none (an error) otherwise. -/
def parseUint (s : Str) : Option Nat :=
  if s = [] then none
  else if s.all (fun c => 48 ≤ c ∧ c ≤ 57) then
    let v := s.foldl (fun a c => a * 10 + (c - 48)) 0
    if v < 2 ^ 64 then some v else none
  else none

/-- tsStart is the position right after the last '@' of a key
(strings.LastIndex(key, "@") + 1; 0 when there is no '@'). -/
def tsStart (k : Str) : Nat :=
  match lastIndexAt k with
  | some i => i + 1
  | none => 0

/-- ParseTs models types.ParseTs: 0 for the empty key, otherwise the parsed
decimal suffix after the last '@' (0 when parsing fails). -/
def ParseTs (k : Str) : Nat :=
  if k = [] then 0
  else
    match parseUint (k.drop (tsStart k)) with
    | some t => t
    | none => 0

/-- ParseKeyGo models types.ParseKey = key[:strings.LastIndex(key, "@")].
When the key has no '@', Go slices with a negative bound and panics at
run time; that panic is modelled as none. -/
def ParseKeyGo (k : Str) : Option Str :=
  (lastIndexAt k).map fun i => k.take i

/-- userPart is the user-key part of a versioned key: the bytes before the
last '@'.  On keys without '@' it returns the whole key; the faithful
panicking behaviour of types.ParseKey is ParseKeyGo, and every theorem that
relies on userPart restricts itself to keys that do contain '@', where the
two agree. -/
def userPart (k : Str) : Str :=
  k.take ((lastIndexAt k).getD k.length)

/-- CompareKeysT models CompareKeys of src/types/types.go (lines 75-89):
compare user parts bytewise, tie-broken by timestamp descending.  This
version has no guard for keys lacking '@': there types.ParseKey panics,
modelled as none. -/
def CompareKeysT (k1 k2 : Str) : Option Int :=
  match ParseKeyGo k1, ParseKeyGo k2 with
  | some u1, some u2 =>
    some
      (if strCmp u1 u2 ≠ 0 then strCmp u1 u2
       else if ParseTs k1 < ParseTs k2 then 1
       else if ParseTs k2 < ParseTs k1 then -1
       else 0)
  | _, _ => none

/-- CompareKeys models CompareKeys of pkg/types (src/unnamed/part_012 lines
53-71): identical to CompareKeysT on keys containing '@', with an explicit
fallback to plain bytewise comparison when either key lacks '@'. -/
def CompareKeys (k1 k2 : Str) : Int :=
  if lastIndexAt k1 = none ∨ lastIndexAt k2 = none then strCmp k1 k2
  else if strCmp (userPart k1) (userPart k2) ≠ 0 then strCmp (userPart k1) (userPart k2)
  else if ParseTs k1 < ParseTs k2 then 1
  else if ParseTs k2 < ParseTs k1 then -1
  else 0

/-- IsSameKeyV models types.IsSameKey restricted to versioned keys:
equality of the user parts.  (Go would panic via ParseKey on a key without
'@'; all uses below are on versioned keys.) -/
def IsSameKeyV (k1 k2 : Str) : Bool := userPart k1 = userPart k2

/-! Basic facts about strCmp. -/

theorem strCmp_self (a : Str) : strCmp a a = 0 := by
  induction a with
  | nil => rfl
  | cons c rest ih => simp [strCmp, ih]

theorem strCmp_cases (a b : Str) : strCmp a b = -1 ∨ strCmp a b = 0 ∨ strCmp a b = 1 := by
  induction a generalizing b with
  | nil => cases b <;> simp [strCmp]
  | cons c rest ih =>
    cases b with
    | nil => simp [strCmp]
    | cons d bs =>
      by_cases h1 : c < d
      · simp [strCmp, h1]
      · by_cases h2 : d < c
        · simp [strCmp, h1, h2]
        · simpa [strCmp, h1, h2] using ih bs

theorem strCmp_eq_zero_iff {a b : Str} : strCmp a b = 0 ↔ a = b := by
  constructor
  · intro h
    induction a generalizing b with
    | nil => cases b with
      | nil => rfl
      | cons d bs => simp [strCmp] at h
    | cons c rest ih =>
      cases b with
      | nil => simp [strCmp] at h
      | cons d bs =>
        by_cases h1 : c < d
        · simp [strCmp, h1] at h
        · by_cases h2 : d < c
          · simp [strCmp, h1, h2] at h
          · have : c = d := Nat.le_antisymm (Nat.le_of_not_lt h2) (Nat.le_of_not_lt h1)
            subst this
            simp [strCmp, h1, h2] at h
            exact congrArg (c :: ·) (ih h)
  · intro h; subst h; exact strCmp_self a

theorem strCmp_antisymm (a b : Str) : strCmp a b = -strCmp b a := by
  induction a generalizing b with
  | nil => cases b <;> simp [strCmp]
  | cons c rest ih =>
    cases b with
    | nil => simp [strCmp]
    | cons d bs =>
      by_cases h1 : c < d
      · have h2 : ¬ d < c := Nat.lt_asymm h1
        simp [strCmp, h1, h2]
      · by_cases h2 : d < c
        · simp [strCmp, h1, h2]
        · simpa [strCmp, h1, h2] using ih bs

theorem strCmp_lt_trans {a b c : Str} (hab : strCmp a b < 0) (hbc : strCmp b c < 0) :
    strCmp a c < 0 := by
  induction a generalizing b c with
  | nil =>
    cases b with
    | nil => simp [strCmp] at hab
    | cons d bs =>
      cases c with
      | nil => simp [strCmp] at hbc
      | cons e cs => simp [strCmp]
  | cons x as ih =>
    cases b with
    | nil => simp [strCmp] at hab
    | cons y bs =>
      cases c with
      | nil => simp [strCmp] at hbc
      | cons z cs =>
        simp only [strCmp] at hab hbc ⊢
        by_cases hxy : x < y
        · by_cases hyz : y < z
          · simp [Nat.lt_trans hxy hyz]
          · by_cases hzy : z < y
            · simp [hyz, hzy] at hbc
            · have : y = z := Nat.le_antisymm (Nat.le_of_not_lt hzy) (Nat.le_of_not_lt hyz)
              subst this
              simp [hxy]
        · by_cases hyx : y < x
          · simp [hxy, hyx] at hab
          · have hexy : x = y := Nat.le_antisymm (Nat.le_of_not_lt hyx) (Nat.le_of_not_lt hxy)
            subst hexy
            simp only [hxy, if_neg (lt_irrefl x), if_neg hxy] at hab ⊢
            by_cases hyz : x < z
            · simp [hyz]
            · by_cases hzy : z < x
              · simp [hyz, hzy] at hbc
              · have : x = z := Nat.le_antisymm (Nat.le_of_not_lt hzy) (Nat.le_of_not_lt hyz)
                subst this
                simp only [if_neg (lt_irrefl x)] at hbc ⊢
                exact ih hab hbc

theorem strCmp_le_trans {a b c : Str} (hab : strCmp a b ≤ 0) (hbc : strCmp b c ≤ 0) :
    strCmp a c ≤ 0 := by
  rcases lt_or_eq_of_le hab with h1 | h1
  · rcases lt_or_eq_of_le hbc with h2 | h2
    · exact le_of_lt (strCmp_lt_trans h1 h2)
    · have : b = c := strCmp_eq_zero_iff.mp h2
      subst this; exact le_of_lt h1
  · have : a = b := strCmp_eq_zero_iff.mp h1
    subst this; exact hbc

theorem strCmp_lt_of_lt_of_le {a b c : Str} (hab : strCmp a b < 0) (hbc : strCmp b c ≤ 0) :
    strCmp a c < 0 := by
  rcases lt_or_eq_of_le hbc with h2 | h2
  · exact strCmp_lt_trans hab h2
  · have : b = c := strCmp_eq_zero_iff.mp h2
    subst this; exact hab

theorem strCmp_lt_of_le_of_lt {a b c : Str} (hab : strCmp a b ≤ 0) (hbc : strCmp b c < 0) :
    strCmp a c < 0 := by
  rcases lt_or_eq_of_le hab with h1 | h1
  · exact strCmp_lt_trans h1 hbc
  · have : a = b := strCmp_eq_zero_iff.mp h1
    subst this; exact hbc

theorem strCmp_total (a b : Str) : strCmp a b ≤ 0 ∨ strCmp b a ≤ 0 := by
  rcases strCmp_cases a b with h | h | h
  · left; omega
  · left; omega
  · right; rw [strCmp_antisymm b a, h]; omega

end Originium

namespace Originium

/-! Facts about versioned keys built by KeyWithTs. -/

theorem lastIndexAt_eq_none_iff {l : Str} : lastIndexAt l = none ↔ 64 ∉ l := by
  induction l with
  | nil => simp [lastIndexAt]
  | cons c rest ih =>
    simp only [lastIndexAt]
    rw [List.mem_cons]
    cases h : lastIndexAt rest with
    | some i =>
      have hmem : 64 ∈ rest := by
        by_contra hn
        rw [ih.mpr hn] at h
        cases h
      simp [hmem]
    | none =>
      have hnm : 64 ∉ rest := ih.mp h
      by_cases hc : c = 64
      · subst hc; simp
      · have hc2 : ¬ (64 : Nat) = c := fun hh => hc hh.symm
        simp [hc, hnm, hc2]

theorem decDigitsAux_eq {fuel n : Nat} (h : n ≤ fuel) :
    decDigitsAux fuel n = (Nat.digits 10 n).reverse.map (· + 48) := by
  induction fuel generalizing n with
  | zero =>
    have : n = 0 := Nat.le_zero.mp h
    subst this
    simp [decDigitsAux]
  | succ fuel ih =>
    by_cases h0 : n = 0
    · subst h0
      simp [decDigitsAux]
    · have hstep : Nat.digits 10 n = n % 10 :: Nat.digits 10 (n / 10) :=
        Nat.digits_def' (by norm_num) (Nat.pos_of_ne_zero h0)
    
      have hdiv : n / 10 ≤ fuel := by
        have h1 : n / 10 < n := Nat.div_lt_self (Nat.pos_of_ne_zero h0) (by norm_num)
        omega
      simp only [decDigitsAux, h0, if_false]
      rw [ih hdiv, hstep]
      simp

theorem formatUint_eq_digits (n : Nat) :
    formatUint n = if n = 0 then [48] else (Nat.digits 10 n).reverse.map (· + 48) := by
  unfold formatUint
  by_cases h0 : n = 0
  · simp [h0]
  · rw [if_neg h0, if_neg h0, decDigitsAux_eq (le_refl n)]

theorem formatUint_digit {n : Nat} {c : Nat} (h : c ∈ formatUint n) : 48 ≤ c ∧ c ≤ 57 := by
  rw [formatUint_eq_digits] at h
  by_cases h0 : n = 0
  · simp [h0] at h; omega
  · simp only [h0, if_false, List.mem_map, List.mem_reverse] at h
    obtain ⟨d, hd, hdc⟩ := h
    have : d < 10 := Nat.digits_lt_base (by norm_num) hd
    omega

theorem formatUint_ne_nil (n : Nat) : formatUint n ≠ [] := by
  rw [formatUint_eq_digits]
  by_cases h0 : n = 0
  · simp [h0]
  · simp only [h0, if_false, ne_eq, List.map_eq_nil_iff, List.reverse_eq_nil_iff]
    exact Nat.digits_ne_nil_iff_ne_zero.mpr h0

theorem lastIndexAt_append_no64 (l1 l2 : Str) (h2 : 64 ∉ l2) :
    lastIndexAt (l1 ++ 64 :: l2) = some l1.length := by
  induction l1 with
  | nil =>
    simp only [List.nil_append, lastIndexAt]
    rw [lastIndexAt_eq_none_iff.mpr h2]
    simp
  | cons c rest ih =>
    simp only [List.cons_append, lastIndexAt, List.append_eq]
    rw [ih]
    simp

theorem lastIndexAt_keyWithTs (k : Str) (ts : Nat) :
    lastIndexAt (KeyWithTs k ts) = some k.length := by
  apply lastIndexAt_append_no64
  intro h
  obtain ⟨_, h2⟩ := formatUint_digit h
  omega

theorem userPart_keyWithTs (k : Str) (ts : Nat) : userPart (KeyWithTs k ts) = k := by
  unfold userPart
  rw [lastIndexAt_keyWithTs]
  simp only [Option.getD_some, KeyWithTs]
  exact List.take_left k _

theorem foldl_digits_val (l : List Nat) (a : Nat) :
    l.foldl (fun a c => a * 10 + (c - 48)) a =
      a * 10 ^ l.length + Nat.ofDigits 10 ((l.map (· - 48)).reverse) := by
  induction l generalizing a with
  | nil => simp [Nat.ofDigits]
  | cons c rest ih =>
    simp only [List.foldl_cons, List.map_cons, List.reverse_cons, List.length_cons]
    rw [ih, Nat.ofDigits_append]
    simp [Nat.ofDigits]
    ring

theorem formatUint_val (n : Nat) :
    (formatUint n).foldl (fun a c => a * 10 + (c - 48)) 0 = n := by
  rw [formatUint_eq_digits]
  by_cases h0 : n = 0
  · simp [h0]
  · simp only [h0, if_false]
    rw [foldl_digits_val]
    simp only [zero_mul, zero_add, List.map_reverse, List.reverse_reverse, List.map_map]
    have hcomp : ((fun x => x - 48) ∘ (fun x : Nat => x + 48)) = id := by
      funext d; simp
    rw [hcomp, List.map_id, Nat.ofDigits_digits]

theorem parseUint_formatUint {n : Nat} (h : n < 2 ^ 64) : parseUint (formatUint n) = some n := by
  have hne : ¬ (formatUint n = []) := formatUint_ne_nil n
  have hdig : (formatUint n).all (fun c => 48 ≤ c ∧ c ≤ 57) = true := by
    rw [List.all_eq_true]
    intro c hc
    simpa using formatUint_digit hc
  unfold parseUint
  rw [if_neg hne]
  simp only [List.all_eq_true] at hdig
  simp [formatUint_val, h]
  exact ⟨fun x hx => by simpa using hdig x hx, h⟩

theorem parseTs_keyWithTs (k : Str) {ts : Nat} (h : ts < 2 ^ 64) :
    ParseTs (KeyWithTs k ts) = ts := by
  have hne : KeyWithTs k ts ≠ [] := by simp [KeyWithTs]
  unfold ParseTs
  rw [if_neg hne]
  have hstart : tsStart (KeyWithTs k ts) = k.length + 1 := by
    simp [tsStart, lastIndexAt_keyWithTs]
  rw [hstart]
  have hdrop : (KeyWithTs k ts).drop (k.length + 1) = formatUint ts := by
    simp only [KeyWithTs]
    rw [List.append_cons]
    have hlen : k.length + 1 = (k ++ [64]).length := by simp
    rw [hlen, List.drop_left]
  rw [hdrop, parseUint_formatUint h]

/-- compareKeysT_agrees: on keys that both contain '@', the unguarded
comparator of src/types/types.go computes exactly the guarded comparator of
pkg/types. -/
theorem compareKeysT_agrees {k1 k2 : Str} (h1 : lastIndexAt k1 ≠ none)
    (h2 : lastIndexAt k2 ≠ none) : CompareKeysT k1 k2 = some (CompareKeys k1 k2) := by
  obtain ⟨i, hi⟩ := Option.ne_none_iff_exists'.mp h1
  obtain ⟨j, hj⟩ := Option.ne_none_iff_exists'.mp h2
  simp only [CompareKeysT, ParseKeyGo, hi, hj, Option.map_some', CompareKeys, userPart,
    Option.getD_some]
  simp [hi, hj]

end Originium

namespace Originium

/-!
Claim C4: behaviour of the versioned-key comparator.

The repository contains two generations of the comparator.  The older
pkg/types version (src/unnamed/part_012, embedded as CompareKeys) guards
against keys lacking '@' and falls back to plain bytewise comparison.  The
newer types version (src/types/types.go, embedded as CompareKeysT) has no
guard: ParseKey slices with the -1 returned by strings.LastIndex and Go
panics at run time (modelled as none).  The newer comparator is the one
used by pkg/kway, the memtable path and the table codecs.
-/

/-- C4 counterexample: the claim says compare(a, b) equals plain bytewise
comparison when either key lacks '@'; at a = "a", b = "b" the comparator of
src/types/types.go panics (none) instead of returning the bytewise result,
so the claim fails on that comparator. -/
theorem C4_counterexample :
    ¬ (CompareKeysT [97] [98] = some (strCmp [97] [98])) := by decide

/-- C4 amended: the full claimed behaviour (bytewise fallback without '@';
user-part comparison with timestamp-descending tie-break with '@') holds
for the pkg/types comparator; the types/types.go comparator agrees with it
on keys that both contain '@' but panics when either lacks '@'. -/
theorem C4_compareKeys_spec :
    (∀ a b : Str, lastIndexAt a = none ∨ lastIndexAt b = none →
      CompareKeys a b = strCmp a b ∧ CompareKeysT a b = none) ∧
    (∀ a b : Str, lastIndexAt a ≠ none → lastIndexAt b ≠ none →
      CompareKeysT a b = some (CompareKeys a b) ∧
      (userPart a ≠ userPart b → CompareKeys a b = strCmp (userPart a) (userPart b)) ∧
      (userPart a = userPart b →
        ((CompareKeys a b = -1 ↔ ParseTs b < ParseTs a) ∧
         (CompareKeys a b = 0 ↔ ParseTs a = ParseTs b) ∧
         (CompareKeys a b = 1 ↔ ParseTs a < ParseTs b)))) := by
  constructor
  · intro a b h
    refine ⟨by simp [CompareKeys, h], ?_⟩
    rcases h with h | h
    · simp [CompareKeysT, ParseKeyGo, h]
    · unfold CompareKeysT ParseKeyGo
      rw [h]
      cases lastIndexAt a <;> simp
  · intro a b ha hb
    have hg : ¬ (lastIndexAt a = none ∨ lastIndexAt b = none) := by
      intro h; rcases h with h | h; exact ha h; exact hb h
    refine ⟨compareKeysT_agrees ha hb, ?_, ?_⟩
    · intro hne
      have : strCmp (userPart a) (userPart b) ≠ 0 :=
        fun h0 => hne (strCmp_eq_zero_iff.mp h0)
      simp [CompareKeys, hg, this]
    · intro heq
      have h0 : strCmp (userPart a) (userPart b) = 0 := by
        rw [heq]; exact strCmp_self _
      unfold CompareKeys
      rw [if_neg hg, h0]
      simp only [ne_eq, not_true_eq_false, if_false, not_false_eq_true]
      rcases Nat.lt_trichotomy (ParseTs a) (ParseTs b) with hlt | heqt | hgt
      · rw [if_pos hlt]
        refine ⟨?_, ?_, ?_⟩ <;> constructor <;> intro h <;> omega
      · rw [if_neg (by omega), if_neg (by omega)]
        refine ⟨?_, ?_, ?_⟩ <;> constructor <;> intro h <;> omega
      · rw [if_neg (by omega), if_pos hgt]
        refine ⟨?_, ?_, ?_⟩ <;> constructor <;> intro h <;> omega

/-- C4 witness: the amended comparator claim evaluated at "a"/"b" (bytewise
fallback of the pkg/types comparator) and at "k@2"/"k@1" (agreement of the
two comparators and timestamp-descending order). -/
theorem C4_compareKeys_spec_witness :
    CompareKeys [97] [98] = strCmp [97] [98] ∧
    CompareKeysT [107, 64, 50] [107, 64, 49] = some (CompareKeys [107, 64, 50] [107, 64, 49]) ∧
    CompareKeys [107, 64, 50] [107, 64, 49] = -1 := by
  refine ⟨(C4_compareKeys_spec.1 [97] [98] (Or.inl (by decide))).1,
          (C4_compareKeys_spec.2 [107, 64, 50] [107, 64, 49] (by decide) (by decide)).1,
          ?_⟩
  exact (((C4_compareKeys_spec.2 [107, 64, 50] [107, 64, 49] (by decide) (by decide)).2.2
    (by decide)).1).mpr (by decide)

end Originium

namespace Originium

/-! SSTable footer codec (src/table/footer.go). -/

/-- BlockHandle models table.BlockHandle: offset and length as uint64. -/
structure BlockHandle where
  Offset : Nat
  Length : Nat
  deriving DecidableEq, Repr

/-- Footer models table.Footer: meta handle, index handle and magic. -/
structure Footer where
  MetaBlock : BlockHandle
  IndexBlock : BlockHandle
  Magic : Nat
  deriving DecidableEq, Repr

/-- magicConst is the fixed constant _magic of src/table/footer.go. -/
def magicConst : Nat := 0x5bc2aa5766250562

/-- u64le encodes a uint64 value as 8 little-endian bytes
(binary.Write with binary.LittleEndian). -/
def u64le (n : Nat) : Str :=
  [n % 256, n / 256 % 256, n / 256 ^ 2 % 256, n / 256 ^ 3 % 256,
   n / 256 ^ 4 % 256, n / 256 ^ 5 % 256, n / 256 ^ 6 % 256, n / 256 ^ 7 % 256]

/-- readU64 models binary.Read of a little-endian uint64: consumes 8 bytes,
errors (none) when fewer are available. -/
def readU64 : Str → Option (Nat × Str)
  | b0 :: b1 :: b2 :: b3 :: b4 :: b5 :: b6 :: b7 :: rest =>
    some (b0 + b1 * 256 + b2 * 256 ^ 2 + b3 * 256 ^ 3 + b4 * 256 ^ 4 + b5 * 256 ^ 5 +
      b6 * 256 ^ 6 + b7 * 256 ^ 7, rest)
  | _ => none

theorem readU64_u64le {n : Nat} (h : n < 2 ^ 64) (rest : Str) :
    readU64 (u64le n ++ rest) = some (n, rest) := by
  simp only [u64le, List.cons_append, List.nil_append, readU64, Option.some.injEq, Prod.mk.injEq]
  refine ⟨by omega, trivial⟩

theorem u64le_length (n : Nat) : (u64le n).length = 8 := rfl

theorem readU64_u64le_nil {n : Nat} (h : n < 2 ^ 64) : readU64 (u64le n) = some (n, []) := by
  have := readU64_u64le h []
  simpa using this

/-- FooterErr models the error results of Footer.Decode: an io read error
or ErrInvalidMagic. -/
inductive FooterErr where
  | ioErr
  | invalidMagic
  deriving DecidableEq, Repr

/-- Footer.Encode models table.Footer.Encode: the five uint64 fields are
written little-endian in order meta offset, meta length, index offset,
index length, magic. -/
def Footer.Encode (f : Footer) : Str :=
  u64le f.MetaBlock.Offset ++ u64le f.MetaBlock.Length ++
  u64le f.IndexBlock.Offset ++ u64le f.IndexBlock.Length ++ u64le f.Magic

/-- Footer.Decode models table.Footer.Decode: five little-endian uint64
reads, then the magic check returning ErrInvalidMagic on mismatch. -/
def Footer.Decode (bs : Str) : Except FooterErr Footer :=
  match readU64 bs with
  | none => .error .ioErr
  | some (metaOffset, r1) =>
    match readU64 r1 with
    | none => .error .ioErr
    | some (metaLength, r2) =>
      match readU64 r2 with
      | none => .error .ioErr
      | some (indexOffset, r3) =>
        match readU64 r3 with
        | none => .error .ioErr
        | some (indexLength, r4) =>
          match readU64 r4 with
          | none => .error .ioErr
          | some (magic, _) =>
            if magic ≠ magicConst then .error .invalidMagic
            else .ok ⟨⟨metaOffset, metaLength⟩, ⟨indexOffset, indexLength⟩, magic⟩

/-- footerWF: all five uint64 fields are in range (automatic in Go). -/
def footerWF (f : Footer) : Prop :=
  f.MetaBlock.Offset < 2 ^ 64 ∧ f.MetaBlock.Length < 2 ^ 64 ∧
  f.IndexBlock.Offset < 2 ^ 64 ∧ f.IndexBlock.Length < 2 ^ 64 ∧ f.Magic < 2 ^ 64

/-- C8: Footer.Encode always produces exactly 40 bytes, with the magic field
in the last 8 bytes little-endian; Footer.Decode of the encoding returns the
dedicated invalid-magic error exactly when the magic field differs from
0x5bc2aa5766250562, and otherwise returns the footer unchanged. -/
theorem C8_footer_encode_decode (f : Footer) (hwf : footerWF f) :
    (Footer.Encode f).length = 40 ∧
    readU64 ((Footer.Encode f).drop 32) = some (f.Magic, []) ∧
    (Footer.Decode (Footer.Encode f) = .error .invalidMagic ↔ f.Magic ≠ magicConst) ∧
    (f.Magic = magicConst → Footer.Decode (Footer.Encode f) = .ok f) := by
  obtain ⟨h1, h2, h3, h4, h5⟩ := hwf
  have hdec : Footer.Decode (Footer.Encode f) =
      if f.Magic ≠ magicConst then .error .invalidMagic
      else .ok ⟨⟨f.MetaBlock.Offset, f.MetaBlock.Length⟩,
        ⟨f.IndexBlock.Offset, f.IndexBlock.Length⟩, f.Magic⟩ := by
    unfold Footer.Decode Footer.Encode
    simp only [List.append_assoc, readU64_u64le h1, readU64_u64le h2, readU64_u64le h3,
      readU64_u64le h4, readU64_u64le_nil h5]
  refine ⟨?_, ?_, ?_, ?_⟩
  · simp [Footer.Encode, u64le]
  · unfold Footer.Encode
    have hlen : (u64le f.MetaBlock.Offset ++ u64le f.MetaBlock.Length ++
        u64le f.IndexBlock.Offset ++ u64le f.IndexBlock.Length).length = 32 := by
      simp [u64le_length]
    rw [List.append_assoc, List.append_assoc, List.append_assoc]
    rw [show (32 : Nat) = (u64le f.MetaBlock.Offset).length + ((u64le f.MetaBlock.Length).length +
      ((u64le f.IndexBlock.Offset).length + (u64le f.IndexBlock.Length).length)) from by
        simp [u64le_length]]
    rw [List.drop_append, List.drop_append, List.drop_append, List.drop_left]
    have : u64le f.Magic = u64le f.Magic ++ [] := by simp
    rw [this, readU64_u64le h5]
  · rw [hdec]
    by_cases hm : f.Magic = magicConst
    · simp [hm]
    · simp [hm]
  · intro hm
    rw [hdec, if_neg (by simp [hm])]

/-- C8 witness: the encode/decode claim evaluated at a concrete footer with
the correct magic. -/
theorem C8_footer_encode_decode_witness :
    footerWF ⟨⟨0, 16⟩, ⟨16, 24⟩, magicConst⟩ ∧
    Footer.Decode (Footer.Encode ⟨⟨0, 16⟩, ⟨16, 24⟩, magicConst⟩) =
      .ok ⟨⟨0, 16⟩, ⟨16, 24⟩, magicConst⟩ := by
  refine ⟨by constructor <;> norm_num [magicConst], ?_⟩
  exact (C8_footer_encode_decode ⟨⟨0, 16⟩, ⟨16, 24⟩, magicConst⟩
    (by constructor <;> norm_num [magicConst])).2.2.2 rfl

end Originium

namespace Originium

/-! Configuration (src/config.go) and the Open fragment that sizes the
flush channel (src/unnamed/part_007, Open). -/

/-- Config models originium.Config.  SkipListP (a float64 only compared
with 0 and assigned the literal 0.5) is modelled as a rational; FileMode
(os.FileMode, an unsigned integer) is modelled as a Nat, so the Go
comparison FileMode <= 0 is FileMode = 0. -/
structure Config where
  SkipListMaxLevel : Int
  SkipListP : ℚ
  MemtableByteThreshold : Int
  ImmutableBuffer : Int
  DataBlockByteThreshold : Int
  L0TargetNum : Int
  LevelRatio : Int
  FileMode : Nat
  deriving DecidableEq, Repr

/-- DefaultConfig models originium.DefaultConfig (src/config.go lines
44-53): maxLevel 9, p 0.5, memtable threshold 4 MiB, immutable buffer 10,
data block threshold 4 KiB, l0 target 5, ratio 10, file mode 0o755. -/
def DefaultConfig : Config :=
  ⟨9, 1 / 2, 4 * 1024 * 1024, 10, 4 * 1024, 5, 10, 0o755⟩

/-- Config.validate models originium.Config.validate (src/config.go lines
55-78): each listed non-positive field falls back to its default.  Note the
source never checks or defaults ImmutableBuffer. -/
def Config.validate (c : Config) : Config :=
  let c := if c.SkipListMaxLevel ≤ 0 then
    { c with SkipListMaxLevel := DefaultConfig.SkipListMaxLevel } else c
  let c := if c.SkipListP ≤ 0 then { c with SkipListP := DefaultConfig.SkipListP } else c
  let c := if c.MemtableByteThreshold ≤ 0 then
    { c with MemtableByteThreshold := DefaultConfig.MemtableByteThreshold } else c
  let c := if c.DataBlockByteThreshold ≤ 0 then
    { c with DataBlockByteThreshold := DefaultConfig.DataBlockByteThreshold } else c
  let c := if c.L0TargetNum ≤ 0 then { c with L0TargetNum := DefaultConfig.L0TargetNum } else c
  let c := if c.LevelRatio ≤ 0 then { c with LevelRatio := DefaultConfig.LevelRatio } else c
  let c := if c.FileMode = 0 then { c with FileMode := DefaultConfig.FileMode } else c
  c

/-- openFlushCapacity models the flush-channel construction in Open
(src/unnamed/part_007 lines 61-76): the config is validated, then the
channel is created with capacity config.ImmutableBuffer. -/
def openFlushCapacity (c : Config) : Int :=
  (Config.validate c).ImmutableBuffer

/-- zeroConfig is the Go zero value of Config — the "unset" configuration. -/
def zeroConfig : Config := ⟨0, 0, 0, 0, 0, 0, 0, 0⟩

/-- C9 (code bug): validating the unset configuration defaults every numeric
field except ImmutableBuffer, which stays 0, so Open creates a flush channel
of capacity 0 rather than the documented 10. -/
theorem C9_validate_immutable_buffer_not_defaulted :
    Config.validate zeroConfig =
      { DefaultConfig with ImmutableBuffer := 0 } ∧
    openFlushCapacity zeroConfig = 0 ∧
    DefaultConfig.ImmutableBuffer = 10 := by
  refine ⟨?_, ?_, rfl⟩ <;> norm_num [Config.validate, zeroConfig, DefaultConfig, openFlushCapacity]

end Originium

namespace Originium

/-!
Watermark (src/pkg/watermark/watermark.go).

The coordinator goroutine of WaterMark.process applies Begin/Done marks
serially: it keeps a min-heap of outstanding timestamps and a map
pending : ts → balance.  The heap plus the map are modelled as one sorted
association list (the heap contains exactly the keys of pending, each
once); container/heap's contract is that Pop removes the minimum, which for
a sorted list is the head.
-/

/-- Mark models the begin/done marks sent over markC (waiter marks do not
change the state and are not modelled). -/
inductive Mark where
  | begin (ts : Nat)
  | done (ts : Nat)
  deriving DecidableEq, Repr

/-- markTs is the timestamp of a mark. -/
def markTs : Mark → Nat
  | .begin t => t
  | .done t => t

/-- WState models the coordinator state: the sorted association list of
outstanding timestamps with their pending balances, and doneUntil. -/
structure WState where
  outstanding : List (Nat × Int)
  doneUntil : Nat
  deriving DecidableEq, Repr

/-- updateBal models the block `prev, ok := pending[ts]; if !ok heap.Push;
pending[ts] = prev + cnt` on the sorted association list. -/
def updateBal : List (Nat × Int) → Nat → Int → List (Nat × Int)
  | [], ts, c => [(ts, c)]
  | (t, b) :: rest, ts, c =>
    if ts < t then (ts, c) :: (t, b) :: rest
    else if ts = t then (t, b + c) :: rest
    else (t, b) :: updateBal rest ts c

/-- popLoop models `for timeStamps.Len() > 0 { minTs := timeStamps[0]; if
pending[minTs] > 0 break; heap.Pop; delete; doneUntil = minTs }`, returning
the remaining list and the local doneUntil variable. -/
def popLoop : List (Nat × Int) → Nat → List (Nat × Int) × Nat
  | [], d => ([], d)
  | (t, b) :: rest, d => if b ≤ 0 then popLoop rest t else ((t, b) :: rest, d)

/-- processBD models one iteration of WaterMark.process for a begin/done
mark with cnt = +1 / -1: update the balance, run the pop loop, and store
the new doneUntil only when it increased. -/
def processBD (s : WState) (ts : Nat) (cnt : Int) : WState :=
  let out1 := updateBal s.outstanding ts cnt
  let p := popLoop out1 s.doneUntil
  ⟨p.1, if s.doneUntil < p.2 then p.2 else s.doneUntil⟩

/-- processMark dispatches a begin/done mark to processBD with cnt +1 or -1
(`cnt := 1; if m.done { cnt = -1 }`). -/
def processMark (s : WState) (m : Mark) : WState :=
  match m with
  | .begin ts => processBD s ts 1
  | .done ts => processBD s ts (-1)

/-- runMarks processes a list of marks from the initial state (empty heap,
doneUntil 0, as set up by watermark.New). -/
def runMarks (ms : List Mark) : WState :=
  ms.foldl processMark ⟨[], 0⟩

/-- beginCount counts Begin marks at a timestamp. -/
def beginCount (ms : List Mark) (t : Nat) : Nat :=
  (ms.filter (fun m => m = .begin t)).length

/-- doneCount counts Done marks at a timestamp. -/
def doneCount (ms : List Mark) (t : Nat) : Nat :=
  (ms.filter (fun m => m = .done t)).length

/-- mentionedList is the list of timestamps appearing in the sequence. -/
def mentionedList (ms : List Mark) : List Nat :=
  ms.map markTs

/-- balancedUpTo D holds when every timestamp ≤ D that was ever begun has
received an equal number of Done marks. -/
def balancedUpTo (ms : List Mark) (D : Nat) : Bool :=
  (mentionedList ms).all fun t =>
    decide (¬ (0 < beginCount ms t ∧ t ≤ D)) || decide (beginCount ms t = doneCount ms t)

/-- maxQual is the largest D among 0 and the mentioned timestamps such that
balancedUpTo D — the claim's characterisation of done_until. -/
def maxQual (ms : List Mark) : Nat :=
  ((0 :: mentionedList ms).filter (balancedUpTo ms)).foldl max 0

/-- C5 counterexample: for the sequence Begin(10); Done(10); Begin(5) the
coordinator leaves done_until at 10 (it never retreats), while the largest D
for which every begun timestamp ≤ D is balanced is 0 (timestamp 5 is begun
and not done), so done_until does not equal the claimed characterisation. -/
theorem C5_counterexample :
    (runMarks [.begin 10, .done 10, .begin 5]).doneUntil = 10 ∧
    maxQual [.begin 10, .done 10, .begin 5] = 0 ∧
    ¬ ((runMarks [.begin 10, .done 10, .begin 5]).doneUntil =
        maxQual [.begin 10, .done 10, .begin 5]) := by
  refine ⟨?_, ?_, ?_⟩ <;> decide

end Originium

namespace Originium

/-! Invariants of the watermark coordinator. -/

/-- SortedKeys: the outstanding association list is strictly sorted by
timestamp (the heap abstraction: keys are unique, the head is the min). -/
abbrev SortedKeys (l : List (Nat × Int)) : Prop :=
  l.Pairwise (fun p q => p.1 < q.1)

/-- lookupBal is the balance recorded for ts (0 when absent), i.e. Go's
`prev, ok := pending[ts]` with prev = 0 on !ok. -/
def lookupBal (l : List (Nat × Int)) (ts : Nat) : Int :=
  match l.find? (fun q => q.1 = ts) with
  | some q => q.2
  | none => 0

theorem sortedKeys_unique {l : List (Nat × Int)} (hs : SortedKeys l)
    {p q : Nat × Int} (hp : p ∈ l) (hq : q ∈ l) (h : p.1 = q.1) : p = q := by
  induction l with
  | nil => cases hp
  | cons x rest ih =>
    rcases List.pairwise_cons.mp hs with ⟨hx, hrest⟩
    rcases List.mem_cons.mp hp with hp1 | hp1 <;> rcases List.mem_cons.mp hq with hq1 | hq1
    · rw [hp1, hq1]
    · subst hp1; exact absurd (h ▸ hx q hq1) (lt_irrefl _)
    · subst hq1
      have := hx p hp1
      omega
    · exact ih hrest hp1 hq1

theorem lookupBal_eq_zero {l : List (Nat × Int)} {ts : Nat}
    (h : ∀ p ∈ l, p.1 ≠ ts) : lookupBal l ts = 0 := by
  unfold lookupBal
  have : l.find? (fun q => q.1 = ts) = none := by
    rw [List.find?_eq_none]
    intro p hp
    simp [h p hp]
  rw [this]

theorem lookupBal_eq_of_mem {l : List (Nat × Int)} (hs : SortedKeys l)
    {p : Nat × Int} (hp : p ∈ l) : lookupBal l p.1 = p.2 := by
  induction l with
  | nil => cases hp
  | cons x rest ih =>
    rcases List.pairwise_cons.mp hs with ⟨hx, hrest⟩
    rcases List.mem_cons.mp hp with hp1 | hp1
    · subst hp1; simp [lookupBal, List.find?]
    · have hne : ¬ (x.1 = p.1) := by
        have := hx p hp1; omega
      simp only [lookupBal, List.find?]
      rw [show (decide (x.1 = p.1)) = false from by simp [hne]]
      exact ih hrest hp1

theorem updateBal_mem_cases {l : List (Nat × Int)} (hs : SortedKeys l) {ts : Nat} {c : Int}
    {p : Nat × Int} (hp : p ∈ updateBal l ts c) :
    (p.1 ≠ ts ∧ p ∈ l) ∨ (p.1 = ts ∧ p.2 = lookupBal l ts + c) := by
  induction l with
  | nil =>
    simp only [updateBal, List.mem_singleton] at hp
    right
    rw [hp]
    simp [lookupBal]
  | cons x rest ih =>
    rcases List.pairwise_cons.mp hs with ⟨hx, hrest⟩
    by_cases h1 : ts < x.1
    · rw [show updateBal (x :: rest) ts c = (ts, c) :: x :: rest from by
        cases x; simp [updateBal, h1]] at hp
      rcases List.mem_cons.mp hp with hp1 | hp1
      · right
        have hz : lookupBal (x :: rest) ts = 0 := by
          apply lookupBal_eq_zero
          intro q hq
          rcases List.mem_cons.mp hq with hq1 | hq1
          · subst hq1; omega
          · have := hx q hq1; omega
        rw [hp1, hz]; simp
      · left
        refine ⟨?_, hp1⟩
        rcases List.mem_cons.mp hp1 with hq1 | hq1
        · subst hq1; omega
        · have := hx p hq1; omega
    · by_cases h2 : ts = x.1
      · rw [show updateBal (x :: rest) ts c = (x.1, x.2 + c) :: rest from by
          cases x; simp [updateBal, h1, h2]] at hp
        rcases List.mem_cons.mp hp with hp1 | hp1
        · right
          have : lookupBal (x :: rest) ts = x.2 := by
            have := lookupBal_eq_of_mem hs (List.mem_cons_self x rest)
            rw [← h2] at this
            exact this
          rw [hp1, this]
          exact ⟨h2.symm ▸ rfl, rfl⟩
        · left
          have := hx p hp1
          constructor
          · omega
          · exact List.mem_cons_of_mem x hp1
      · rw [show updateBal (x :: rest) ts c = x :: updateBal rest ts c from by
          cases x; simp only [updateBal]; rw [if_neg h1, if_neg h2]] at hp
        rcases List.mem_cons.mp hp with hp1 | hp1
        · left
          subst hp1
          exact ⟨fun h => h2 h.symm, List.mem_cons_self _ _⟩
        · rcases ih hrest hp1 with ⟨hne, hin⟩ | ⟨hts, hval⟩
          · exact Or.inl ⟨hne, List.mem_cons_of_mem x hin⟩
          · right
            refine ⟨hts, ?_⟩
            have : lookupBal (x :: rest) ts = lookupBal rest ts := by
              simp only [lookupBal, List.find?]
              rw [show (decide (x.1 = ts)) = false from by simp; omega]
            rw [this]
            exact hval

theorem updateBal_mem_of {l : List (Nat × Int)} {ts : Nat} {c : Int}
    {p : Nat × Int} (hp : p ∈ l) (hne : p.1 ≠ ts) : p ∈ updateBal l ts c := by
  induction l with
  | nil => cases hp
  | cons x rest ih =>
    by_cases h1 : ts < x.1
    · rw [show updateBal (x :: rest) ts c = (ts, c) :: x :: rest from by
        cases x; simp [updateBal, h1]]
      exact List.mem_cons_of_mem _ hp
    · by_cases h2 : ts = x.1
      · rw [show updateBal (x :: rest) ts c = (x.1, x.2 + c) :: rest from by
          cases x; simp [updateBal, h1, h2]]
        rcases List.mem_cons.mp hp with hp1 | hp1
        · subst hp1; exact absurd h2.symm hne
        · exact List.mem_cons_of_mem _ hp1
      · rw [show updateBal (x :: rest) ts c = x :: updateBal rest ts c from by
          cases x; simp only [updateBal]; rw [if_neg h1, if_neg h2]]
        rcases List.mem_cons.mp hp with hp1 | hp1
        · subst hp1; exact List.mem_cons_self _ _
        · exact List.mem_cons_of_mem _ (ih hp1)

theorem updateBal_has {l : List (Nat × Int)} (hs : SortedKeys l) (ts : Nat) (c : Int) :
    (ts, lookupBal l ts + c) ∈ updateBal l ts c := by
  induction l with
  | nil => simp [updateBal, lookupBal]
  | cons x rest ih =>
    rcases List.pairwise_cons.mp hs with ⟨hx, hrest⟩
    by_cases h1 : ts < x.1
    · rw [show updateBal (x :: rest) ts c = (ts, c) :: x :: rest from by
        cases x; simp [updateBal, h1]]
      have hz : lookupBal (x :: rest) ts = 0 := by
        apply lookupBal_eq_zero
        intro q hq
        rcases List.mem_cons.mp hq with hq1 | hq1
        · subst hq1; omega
        · have := hx q hq1; omega
      rw [hz]
      simp
    · by_cases h2 : ts = x.1
      · rw [show updateBal (x :: rest) ts c = (x.1, x.2 + c) :: rest from by
          cases x; simp [updateBal, h1, h2]]
        have : lookupBal (x :: rest) ts = x.2 := by
          have := lookupBal_eq_of_mem hs (List.mem_cons_self x rest)
          rw [← h2] at this
          exact this
        rw [this, h2]
        exact List.mem_cons_self _ _
      · rw [show updateBal (x :: rest) ts c = x :: updateBal rest ts c from by
          cases x; simp only [updateBal]; rw [if_neg h1, if_neg h2]]
        have : lookupBal (x :: rest) ts = lookupBal rest ts := by
          simp only [lookupBal, List.find?]
          rw [show (decide (x.1 = ts)) = false from by simp; omega]
        rw [this]
        exact List.mem_cons_of_mem _ (ih hrest)

theorem updateBal_sorted {l : List (Nat × Int)} (hs : SortedKeys l) (ts : Nat) (c : Int) :
    SortedKeys (updateBal l ts c) := by
  induction l with
  | nil =>
    simp only [updateBal]
    exact List.pairwise_singleton _ _
  | cons x rest ih =>
    rcases List.pairwise_cons.mp hs with ⟨hx, hrest⟩
    by_cases h1 : ts < x.1
    · rw [show updateBal (x :: rest) ts c = (ts, c) :: x :: rest from by
        cases x; simp [updateBal, h1]]
      refine List.pairwise_cons.mpr ⟨?_, hs⟩
      intro q hq
      rcases List.mem_cons.mp hq with hq1 | hq1
      · rw [hq1]; exact h1
      · exact lt_trans h1 (hx q hq1)
    · by_cases h2 : ts = x.1
      · rw [show updateBal (x :: rest) ts c = (x.1, x.2 + c) :: rest from by
          cases x; simp [updateBal, h1, h2]]
        exact List.pairwise_cons.mpr ⟨fun q hq => hx q hq, hrest⟩
      · rw [show updateBal (x :: rest) ts c = x :: updateBal rest ts c from by
          cases x; simp only [updateBal]; rw [if_neg h1, if_neg h2]]
        refine List.pairwise_cons.mpr ⟨?_, ih hrest⟩
        intro q hq
        rcases updateBal_mem_cases hrest hq with ⟨_, hin⟩ | ⟨hts, _⟩
        · exact hx q hin
        · rw [hts]; omega

theorem popLoop_spec (l : List (Nat × Int)) (d : Nat) :
    ∃ pre, l = pre ++ (popLoop l d).1 ∧ (∀ p ∈ pre, p.2 ≤ 0) ∧
      ((pre = [] ∧ (popLoop l d).2 = d) ∨
        (∃ q, pre.getLast? = some q ∧ (popLoop l d).2 = q.1)) ∧
      (∀ hd rest, (popLoop l d).1 = hd :: rest → 0 < hd.2) := by
  induction l generalizing d with
  | nil =>
    refine ⟨[], by simp [popLoop], by simp, Or.inl ⟨rfl, rfl⟩, ?_⟩
    intro hd rest h
    simp [popLoop] at h
  | cons x rest ih =>
    by_cases hb : x.2 ≤ 0
    · have hpop : popLoop (x :: rest) d = popLoop rest x.1 := by
        cases x; simp only [popLoop]; rw [if_pos hb]
      obtain ⟨pre, heq, hneg, hd, hhead⟩ := ih x.1
      refine ⟨x :: pre, ?_, ?_, ?_, ?_⟩
      · rw [hpop, List.cons_append, ← heq]
      · intro p hp
        rcases List.mem_cons.mp hp with hp1 | hp1
        · subst hp1; exact hb
        · exact hneg p hp1
      · rcases hd with ⟨hpre, hval⟩ | ⟨q, hq, hval⟩
        · right
          refine ⟨x, ?_, by rw [hpop, hval]⟩
          rw [hpre]
          rfl
        · right
          refine ⟨q, ?_, by rw [hpop, hval]⟩
          cases pre with
          | nil => cases hq
          | cons y ys => rw [List.getLast?_cons_cons]; exact hq
      · intro hd1 rest1 h
        rw [hpop] at h
        exact hhead hd1 rest1 h
    · have hpop : popLoop (x :: rest) d = (x :: rest, d) := by
        cases x; simp only [popLoop]; rw [if_neg hb]
      refine ⟨[], by simp [hpop], by simp, Or.inl ⟨rfl, by rw [hpop]⟩, ?_⟩
      intro hd1 rest1 h
      rw [hpop] at h
      cases h
      omega

end Originium

namespace Originium

theorem updateBal_front {l : List (Nat × Int)} {ts : Nat} (c : Int)
    (h : ∀ p ∈ l, ts < p.1) : updateBal l ts c = (ts, c) :: l := by
  cases l with
  | nil => rfl
  | cons x rest =>
    have := h x (List.mem_cons_self x rest)
    cases x
    simp only [updateBal]
    rw [if_pos this]

theorem sorted_getLast_max {l : List (Nat × Int)} (hs : SortedKeys l)
    {q : Nat × Int} (hq : l.getLast? = some q) : ∀ p ∈ l, p.1 ≤ q.1 := by
  induction l with
  | nil => intro p hp; cases hp
  | cons x rest ih =>
    rcases List.pairwise_cons.mp hs with ⟨hx, hrest⟩
    intro p hp
    cases rest with
    | nil =>
      simp only [List.getLast?_singleton, Option.some.injEq] at hq
      rcases List.mem_singleton.mp hp with hp1
      rw [hp1, hq]
    | cons y ys =>
      rw [List.getLast?_cons_cons] at hq
      rcases List.mem_cons.mp hp with hp1 | hp1
      · subst hp1
        have hqm : q ∈ y :: ys := by
          have := List.mem_of_mem_getLast? (by rw [hq]; rfl)
          exact this
        exact le_of_lt (hx q hqm)
      · exact ih hrest hq p hp1

/-- WInv: the coordinator-state invariant relating the outstanding list and
doneUntil to the Begin and Done counts B, D of the marks processed so far,
valid for mark sequences whose Begins arrive above the current doneUntil. -/
structure WInv (B D : Nat → Nat) (s : WState) : Prop where
  sorted : SortedKeys s.outstanding
  gtDu : ∀ p ∈ s.outstanding, s.doneUntil < p.1
  bal : ∀ p ∈ s.outstanding, p.2 = (B p.1 : Int) - (D p.1 : Int)
  headPos : ∀ hd rest, s.outstanding = hd :: rest → 0 < hd.2
  offHeap : ∀ t, 0 < B t + D t → (∀ p ∈ s.outstanding, p.1 ≠ t) →
      t ≤ s.doneUntil ∧ B t ≤ D t
  duMent : s.doneUntil = 0 ∨ 0 < B s.doneUntil + D s.doneUntil
  ment : ∀ p ∈ s.outstanding, 0 < B p.1 + D p.1

theorem processBD_inv {B D B' D' : Nat → Nat} {s : WState} (inv : WInv B D s)
    (ts : Nat) (c : Int) (hc : c = 1 ∨ c = -1)
    (hother : ∀ x, x ≠ ts → B' x = B x ∧ D' x = D x)
    (hts : (B' ts : Int) - (D' ts : Int) = (B ts : Int) - (D ts : Int) + c)
    (hmono : B ts ≤ B' ts ∧ D ts ≤ D' ts)
    (hpos : 0 < B' ts + D' ts)
    (hbegin : c = 1 → s.doneUntil < ts) :
    WInv B' D' (processBD s ts c) := by
  have hBDmono : ∀ x, B x + D x ≤ B' x + D' x := by
    intro x
    by_cases hx : x = ts
    · subst hx; omega
    · rcases hother x hx with ⟨h1, h2⟩; omega
  have hmentup : ∀ x, 0 < B x + D x → 0 < B' x + D' x := fun x h =>
    lt_of_lt_of_le h (hBDmono x)
  by_cases hstale : (∀ p ∈ s.outstanding, p.1 ≠ ts) ∧ 0 < B ts + D ts
  · -- ts was mentioned before but is no longer on the heap: it was popped,
    -- so doneUntil ≥ ts.  A Begin would violate hbegin; a Done re-pushes
    -- (ts, -1) at the front and the pop loop removes it again at once,
    -- leaving the state unchanged.
    obtain ⟨hkey, hment⟩ := hstale
    have hoff := inv.offHeap ts hment hkey
    rcases hc with hc1 | hc1
    · exact absurd (hbegin hc1) (by omega)
    · subst hc1
      have hfront : ∀ p ∈ s.outstanding, ts < p.1 := by
        intro p hp
        have h1 := inv.gtDu p hp
        omega
      have hout1 : updateBal s.outstanding ts (-1) = (ts, -1) :: s.outstanding :=
        updateBal_front _ hfront
      have hpop1 : popLoop ((ts, -1) :: s.outstanding) s.doneUntil =
          popLoop s.outstanding ts := by
        simp only [popLoop]
        rw [if_pos (by omega : (-1 : Int) ≤ 0)]
      have hpop2 : popLoop s.outstanding ts = (s.outstanding, ts) := by
        cases hso : s.outstanding with
        | nil => simp [popLoop]
        | cons hd rest =>
          have hh := inv.headPos hd rest hso
          cases hd
          simp only [popLoop]
          rw [if_neg (by omega)]
      have hstate : processBD s ts (-1) = s := by
        show (⟨(popLoop (updateBal s.outstanding ts (-1)) s.doneUntil).1,
          if s.doneUntil < (popLoop (updateBal s.outstanding ts (-1)) s.doneUntil).2
          then (popLoop (updateBal s.outstanding ts (-1)) s.doneUntil).2
          else s.doneUntil⟩ : WState) = s
        rw [hout1, hpop1, hpop2]
        have hnlt : ¬ (s.doneUntil < ts) := by omega
        rw [if_neg hnlt]
      rw [hstate]
      refine ⟨inv.sorted, inv.gtDu, ?_, inv.headPos, ?_, ?_, ?_⟩
      · intro p hp
        rcases hother p.1 (hkey p hp) with ⟨h1, h2⟩
        rw [h1, h2]
        exact inv.bal p hp
      · intro t hmt hkt
        by_cases hteq : t = ts
        · subst hteq
          refine ⟨hoff.1, ?_⟩
          have h1 := hoff.2
          omega
        · rcases hother t hteq with ⟨h1, h2⟩
          rw [h1, h2] at hmt ⊢
          exact inv.offHeap t hmt hkt
      · rcases inv.duMent with h | h
        · exact Or.inl h
        · exact Or.inr (hmentup _ h)
      · intro p hp
        exact hmentup _ (inv.ment p hp)
  · -- main path: either ts is on the heap, or it was never mentioned (or it
    -- is a fresh Begin above doneUntil); in all cases every entry of the
    -- updated list carries balance B' - D'.
    have hbal1 : ∀ p ∈ updateBal s.outstanding ts c, p.2 = (B' p.1 : Int) - (D' p.1 : Int) := by
      intro p hp
      rcases updateBal_mem_cases inv.sorted hp with ⟨hne, hin⟩ | ⟨hteq, hval⟩
      · rcases hother p.1 hne with ⟨h1, h2⟩
        rw [h1, h2]
        exact inv.bal p hin
      · rw [hteq]
        by_cases hex : ∃ q ∈ s.outstanding, q.1 = ts
        · obtain ⟨q, hq, hqts⟩ := hex
          have hlook : lookupBal s.outstanding ts = q.2 := by
            rw [← hqts]
            exact lookupBal_eq_of_mem inv.sorted hq
          have hqbal := inv.bal q hq
          rw [hqts] at hqbal
          omega
        · have hkey : ∀ q ∈ s.outstanding, q.1 ≠ ts := by
            intro q hq hqe
            exact hex ⟨q, hq, hqe⟩
          have hz : lookupBal s.outstanding ts = 0 := lookupBal_eq_zero hkey
          have hBD0 : ¬ 0 < B ts + D ts := fun hm => hstale ⟨hkey, hm⟩
          have hB0 : B ts = 0 := by omega
          have hD0 : D ts = 0 := by omega
          omega
    have hsort1 : SortedKeys (updateBal s.outstanding ts c) :=
      updateBal_sorted inv.sorted ts c
    obtain ⟨pre, heq, hneg, hdval, hhead⟩ :=
      popLoop_spec (updateBal s.outstanding ts c) s.doneUntil
    have hsortsplit : SortedKeys (pre ++ (popLoop (updateBal s.outstanding ts c) s.doneUntil).1) := by
      rw [← heq]
      exact hsort1
    obtain ⟨hsort_pre, hsort_out2, hcross⟩ := List.pairwise_append.mp hsortsplit
    have hout2sub : ∀ p ∈ (popLoop (updateBal s.outstanding ts c) s.doneUntil).1,
        p ∈ updateBal s.outstanding ts c := by
      intro p hp
      rw [heq]
      exact List.mem_append_right pre hp
    have hpresub : ∀ p ∈ pre, p ∈ updateBal s.outstanding ts c := by
      intro p hp
      rw [heq]
      exact List.mem_append_left _ hp
    have hsout : (processBD s ts c).outstanding =
        (popLoop (updateBal s.outstanding ts c) s.doneUntil).1 := rfl
    have hsdu : (processBD s ts c).doneUntil =
        (if s.doneUntil < (popLoop (updateBal s.outstanding ts c) s.doneUntil).2
          then (popLoop (updateBal s.outstanding ts c) s.doneUntil).2
          else s.doneUntil) := rfl
    have hduge : s.doneUntil ≤ (processBD s ts c).doneUntil := by
      rw [hsdu]
      split <;> omega
    have hducases : (processBD s ts c).doneUntil = s.doneUntil ∨
        (∃ q, pre.getLast? = some q ∧ (processBD s ts c).doneUntil = q.1) := by
      rw [hsdu]
      rcases hdval with ⟨hpre0, hval⟩ | ⟨q, hq, hval⟩
      · rw [hval]
        left
        split <;> omega
      · rw [hval]
        by_cases hlt : s.doneUntil < q.1
        · rw [if_pos hlt]
          exact Or.inr ⟨q, hq, rfl⟩
        · rw [if_neg hlt]
          exact Or.inl rfl
    -- an entry of the surviving list is above the old doneUntil
    have hd_lt_out2 : ∀ p ∈ (popLoop (updateBal s.outstanding ts c) s.doneUntil).1,
        s.doneUntil < p.1 := by
      intro p hp
      rcases updateBal_mem_cases inv.sorted (hout2sub p hp) with ⟨hne, hin⟩ | ⟨hteq, _⟩
      · exact inv.gtDu p hin
      · -- p is the ts entry
        by_cases hex : ∃ q ∈ s.outstanding, q.1 = ts
        · obtain ⟨q, hq, hqts⟩ := hex
          have := inv.gtDu q hq
          omega
        · have hkey : ∀ q ∈ s.outstanding, q.1 ≠ ts := by
            intro q hq hqe
            exact hex ⟨q, hq, hqe⟩
          rcases hc with hc1 | hc1
          · have := hbegin hc1
            omega
          · -- fresh Done entry surviving the pop loop: it is not the head
            -- (the head has positive balance), so some older entry with a
            -- smaller key blocks it, and that entry is above doneUntil.
            have hBD0 : ¬ 0 < B ts + D ts := fun hm => hstale ⟨hkey, hm⟩
            have hpb : p.2 = (B' p.1 : Int) - (D' p.1 : Int) := hbal1 p (hout2sub p hp)
            have hpneg : p.2 < 0 := by
              rw [hpb, hteq, hts]
              have hB0 : B ts = 0 := by omega
              have hD0 : D ts = 0 := by omega
              rw [hB0, hD0, hc1]
              simp
            cases hout2 : (popLoop (updateBal s.outstanding ts c) s.doneUntil).1 with
            | nil => rw [hout2] at hp; cases hp
            | cons hd rest =>
              have hhd := hhead hd rest hout2
              have hpne : p ≠ hd := by
                intro hcontra
                rw [hcontra] at hpneg
                omega
              rw [hout2] at hp
              rcases List.mem_cons.mp hp with hp1 | hp1
              · exact absurd hp1 hpne
              · have hhdlt : hd.1 < p.1 := by
                  rw [hout2] at hsort_out2
                  exact (List.pairwise_cons.mp hsort_out2).1 p hp1
                have hhdne : hd.1 ≠ ts := by
                  intro hcontra
                  have hpeq : hd = p := by
                    apply sortedKeys_unique hsort1
                      (hout2sub hd (by rw [hout2]; exact List.mem_cons_self _ _))
                      (hout2sub p (by rw [hout2]; exact List.mem_cons_of_mem _ hp1))
                    rw [hcontra, hteq]
                  rw [hpeq] at hhd
                  omega
                rcases updateBal_mem_cases inv.sorted
                    (hout2sub hd (by rw [hout2]; exact List.mem_cons_self _ _)) with
                  ⟨_, hin⟩ | ⟨hteq2, _⟩
                · have := inv.gtDu hd hin
                  omega
                · exact absurd hteq2 hhdne
    constructor
    · rw [hsout]; exact hsort_out2
    · -- gtDu
      intro p hp
      rw [hsout] at hp
      rcases hducases with hcase | ⟨q, hq, hval⟩
      · rw [hcase]
        exact hd_lt_out2 p hp
      · rw [hval]
        have hqpre : q ∈ pre := List.mem_of_mem_getLast? (by rw [hq]; rfl)
        exact hcross q hqpre p hp
    · -- bal
      intro p hp
      rw [hsout] at hp
      exact hbal1 p (hout2sub p hp)
    · -- headPos
      intro hd rest h
      rw [hsout] at h
      exact hhead hd rest h
    · -- offHeap
      intro t hmt hkt
      rw [hsout] at hkt
      by_cases hpre : ∃ p ∈ pre, p.1 = t
      · obtain ⟨p, hppre, hpt⟩ := hpre
        constructor
        · -- t was popped in this step: doneUntil is now at least the last
          -- popped timestamp, which bounds every popped timestamp.
          rcases hdval with ⟨hpre0, _⟩ | ⟨q, hq, hval⟩
          · rw [hpre0] at hppre; cases hppre
          · have hqmax := sorted_getLast_max hsort_pre hq p hppre
            have : q.1 ≤ (processBD s ts c).doneUntil := by
              rw [hsdu, hval]
              split <;> omega
            omega
        · have hpb := hbal1 p (hpresub p hppre)
          have hpn := hneg p hppre
          rw [hpb, hpt] at hpn
          omega
      · have hkt1 : ∀ p ∈ updateBal s.outstanding ts c, p.1 ≠ t := by
          intro p hp
          rw [heq] at hp
          rcases List.mem_append.mp hp with hp1 | hp1
          · intro hcontra
            exact hpre ⟨p, hp1, hcontra⟩
          · exact hkt p hp1
        have htne : t ≠ ts := by
          intro hcontra
          subst hcontra
          exact hkt1 _ (updateBal_has inv.sorted t c) rfl
        rcases hother t htne with ⟨h1, h2⟩
        rw [h1, h2] at hmt ⊢
        have hktold : ∀ p ∈ s.outstanding, p.1 ≠ t := by
          intro p hp hcontra
          have hpne : p.1 ≠ ts := by rw [hcontra]; exact htne
          exact hkt1 p (updateBal_mem_of hp hpne) hcontra
        have hres := inv.offHeap t hmt hktold
        exact ⟨le_trans hres.1 hduge, hres.2⟩
    · -- duMent
      rcases hducases with hcase | ⟨q, hq, hval⟩
      · rw [hcase]
        rcases inv.duMent with h | h
        · exact Or.inl h
        · exact Or.inr (hmentup _ h)
      · rw [hval]
        have hqpre : q ∈ pre := List.mem_of_mem_getLast? (by rw [hq]; rfl)
        right
        rcases updateBal_mem_cases inv.sorted (hpresub q hqpre) with ⟨_, hin⟩ | ⟨hteq, _⟩
        · exact hmentup _ (inv.ment q hin)
        · rw [hteq]
          exact hpos
    · -- ment
      intro p hp
      rw [hsout] at hp
      rcases updateBal_mem_cases inv.sorted (hout2sub p hp) with ⟨_, hin⟩ | ⟨hteq, _⟩
      · exact hmentup _ (inv.ment p hin)
      · rw [hteq]
        exact hpos

end Originium

namespace Originium

/-- respectsBegins checks that every Begin in the sequence is processed at a
timestamp strictly above the coordinator's done_until at that moment (true
of the oracle's usage, where read and commit timestamps never re-enter the
completed horizon). -/
def respectsBegins : WState → List Mark → Bool
  | _, [] => true
  | s, m :: rest =>
    (match m with
     | .begin t => decide (s.doneUntil < t)
     | .done _ => true) && respectsBegins (processMark s m) rest

theorem beginCount_cons (m : Mark) (rest : List Mark) (t : Nat) :
    beginCount (m :: rest) t = (if m = Mark.begin t then 1 else 0) + beginCount rest t := by
  unfold beginCount
  rw [List.filter_cons]
  by_cases h : m = Mark.begin t
  · simp [h]; omega
  · simp [h]

theorem doneCount_cons (m : Mark) (rest : List Mark) (t : Nat) :
    doneCount (m :: rest) t = (if m = Mark.done t then 1 else 0) + doneCount rest t := by
  unfold doneCount
  rw [List.filter_cons]
  by_cases h : m = Mark.done t
  · simp [h]; omega
  · simp [h]

theorem mentioned_iff (ms : List Mark) (t : Nat) :
    t ∈ mentionedList ms ↔ 0 < beginCount ms t + doneCount ms t := by
  induction ms with
  | nil => simp [mentionedList, beginCount, doneCount]
  | cons m rest ih =>
    simp only [mentionedList, List.map_cons, List.mem_cons, beginCount_cons, doneCount_cons]
    rw [show mentionedList rest = rest.map markTs from rfl] at ih
    cases m with
    | begin u =>
      constructor
      · intro h
        rcases h with h | h
        · have : u = t := by simpa [markTs] using h.symm
          simp [this]
        · have := ih.mp h
          omega
      · intro h
        by_cases hu : u = t
        · left; simp [markTs, hu]
        · right
          apply ih.mpr
          have h1 : ¬ (Mark.begin u = Mark.begin t) := by simp [hu]
          have h2 : ¬ (Mark.begin u = Mark.done t) := by simp
          rw [if_neg h1, if_neg h2] at h
          omega
    | done u =>
      constructor
      · intro h
        rcases h with h | h
        · have : u = t := by simpa [markTs] using h.symm
          simp [this]
        · have := ih.mp h
          omega
      · intro h
        by_cases hu : u = t
        · left; simp [markTs, hu]
        · right
          apply ih.mpr
          have h1 : ¬ (Mark.done u = Mark.begin t) := by simp
          have h2 : ¬ (Mark.done u = Mark.done t) := by simp [hu]
          rw [if_neg h1, if_neg h2] at h
          omega

theorem foldl_max_ge (l : List Nat) (a : Nat) :
    a ≤ l.foldl max a ∧ ∀ x ∈ l, x ≤ l.foldl max a := by
  induction l generalizing a with
  | nil => simp
  | cons y ys ih =>
    simp only [List.foldl_cons]
    obtain ⟨h1, h2⟩ := ih (max a y)
    refine ⟨le_trans (le_max_left a y) h1, ?_⟩
    intro x hx
    rcases List.mem_cons.mp hx with hx1 | hx1
    · subst hx1; exact le_trans (le_max_right a x) h1
    · exact h2 x hx1

theorem foldl_max_le {l : List Nat} {a m : Nat} (ha : a ≤ m) (h : ∀ x ∈ l, x ≤ m) :
    l.foldl max a ≤ m := by
  induction l generalizing a with
  | nil => exact ha
  | cons y ys ih =>
    simp only [List.foldl_cons]
    exact ih (max_le ha (h y (List.mem_cons_self y ys)))
      (fun x hx => h x (List.mem_cons_of_mem y hx))

theorem maxQual_eq {ms : List Mark} {du : Nat}
    (hmem : du ∈ (0 :: mentionedList ms).filter (balancedUpTo ms))
    (hmax : ∀ x ∈ (0 :: mentionedList ms).filter (balancedUpTo ms), x ≤ du) :
    maxQual ms = du := by
  unfold maxQual
  exact le_antisymm (foldl_max_le (Nat.zero_le du) hmax) ((foldl_max_ge _ 0).2 du hmem)

theorem runMarks_inv (ms : List Mark) :
    ∀ (B D : Nat → Nat) (s : WState), WInv B D s →
      respectsBegins s ms = true →
      WInv (fun t => B t + beginCount ms t) (fun t => D t + doneCount ms t)
        (ms.foldl processMark s) := by
  induction ms with
  | nil =>
    intro B D s hinv _
    simpa [beginCount, doneCount] using hinv
  | cons m rest ih =>
    intro B D s hinv hresp
    simp only [respectsBegins, Bool.and_eq_true] at hresp
    obtain ⟨hr1, hr2⟩ := hresp
    rw [List.foldl_cons]
    cases m with
    | begin ts =>
      have hlt : s.doneUntil < ts := by
        simpa using hr1
      have hstep : WInv (fun x => if x = ts then B x + 1 else B x) D
          (processMark s (Mark.begin ts)) := by
        apply processBD_inv hinv ts 1 (Or.inl rfl)
        · intro x hx
          rw [if_neg hx]
          exact ⟨rfl, rfl⟩
        · rw [if_pos rfl]; push_cast; ring
        · rw [if_pos rfl]; omega
        · rw [if_pos rfl]; omega
        · intro _; exact hlt
      have hres := ih _ _ _ hstep hr2
      have hB : (fun t => (if t = ts then B t + 1 else B t) + beginCount rest t) =
          fun t => B t + beginCount (Mark.begin ts :: rest) t := by
        funext t
        rw [beginCount_cons]
        by_cases h : t = ts
        · subst h
          rw [if_pos rfl, if_pos rfl]
          omega
        · rw [if_neg h, if_neg (by simp [Ne.symm h])]
          omega
      have hD : (fun t => D t + doneCount rest t) =
          fun t => D t + doneCount (Mark.begin ts :: rest) t := by
        funext t
        rw [doneCount_cons]
        rw [if_neg (by simp)]
        omega
      rw [← hB, ← hD]
      exact hres
    | done ts =>
      have hstep : WInv B (fun x => if x = ts then D x + 1 else D x)
          (processMark s (Mark.done ts)) := by
        apply processBD_inv hinv ts (-1) (Or.inr rfl)
        · intro x hx
          rw [if_neg hx]
          exact ⟨rfl, rfl⟩
        · rw [if_pos rfl]; push_cast; ring
        · rw [if_pos rfl]; omega
        · rw [if_pos rfl]; omega
        · intro h; cases h
      have hres := ih _ _ _ hstep hr2
      have hB : (fun t => B t + beginCount rest t) =
          fun t => B t + beginCount (Mark.done ts :: rest) t := by
        funext t
        rw [beginCount_cons]
        rw [if_neg (by simp)]
        omega
      have hD : (fun t => (if t = ts then D t + 1 else D t) + doneCount rest t) =
          fun t => D t + doneCount (Mark.done ts :: rest) t := by
        funext t
        rw [doneCount_cons]
        by_cases h : t = ts
        · subst h
          rw [if_pos rfl, if_pos rfl]
          omega
        · rw [if_neg h, if_neg (by simp [Ne.symm h])]
          omega
      rw [← hB, ← hD]
      exact hres

end Originium

namespace Originium

/-- C5 (amended): for every finite Begin/Done sequence in which each Begin
arrives strictly above the coordinator's done_until at the moment it is
processed, and in which no begun timestamp receives more Dones than Begins,
the resulting done_until equals the largest D among 0 and the mentioned
timestamps such that every begun timestamp ≤ D has equal Begin and Done
counts; in particular Begin(300); Begin(200); Begin(100); Done(200);
Done(100); Done(300) yields done_until values 0, 0, 200, 300 observed after
the Begins and after each Done. -/
theorem C5_watermark_doneUntil :
    (∀ ms : List Mark,
      respectsBegins ⟨[], 0⟩ ms = true →
      (∀ t ∈ mentionedList ms, 0 < beginCount ms t → doneCount ms t ≤ beginCount ms t) →
      (runMarks ms).doneUntil = maxQual ms) ∧
    ((runMarks [.begin 300, .begin 200, .begin 100]).doneUntil = 0 ∧
     (runMarks [.begin 300, .begin 200, .begin 100, .done 200]).doneUntil = 0 ∧
     (runMarks [.begin 300, .begin 200, .begin 100, .done 200, .done 100]).doneUntil = 200 ∧
     (runMarks [.begin 300, .begin 200, .begin 100, .done 200, .done 100,
       .done 300]).doneUntil = 300) := by
  constructor
  · intro ms hresp hns
    have hinv0 : WInv (fun _ => 0) (fun _ => 0) ⟨[], 0⟩ := by
      refine ⟨List.Pairwise.nil, ?_, ?_, ?_, ?_, Or.inl rfl, ?_⟩
      · intro p hp; cases hp
      · intro p hp; cases hp
      · intro hd rest h; cases h
      · intro t hmt _; omega
      · intro p hp; cases hp
    have hinv1 := runMarks_inv ms _ _ _ hinv0 hresp
    have hBe : (fun t => 0 + beginCount ms t) = beginCount ms := by
      funext t; omega
    have hDe : (fun t => 0 + doneCount ms t) = doneCount ms := by
      funext t; omega
    rw [hBe, hDe] at hinv1
    have hfold : ms.foldl processMark ⟨[], 0⟩ = runMarks ms := rfl
    rw [hfold] at hinv1
    -- (1) done_until itself satisfies the balance condition
    have hbal_du : balancedUpTo ms (runMarks ms).doneUntil = true := by
      unfold balancedUpTo
      rw [List.all_eq_true]
      intro t hmemt
      by_cases hcond : 0 < beginCount ms t ∧ t ≤ (runMarks ms).doneUntil
      · have hkeys : ∀ p ∈ (runMarks ms).outstanding, p.1 ≠ t := by
          intro p hp hcontra
          have := hinv1.gtDu p hp
          omega
        have hment : 0 < beginCount ms t + doneCount ms t := by omega
        have hoff := hinv1.offHeap t hment hkeys
        have hle := hns t hmemt hcond.1
        have heq : beginCount ms t = doneCount ms t := le_antisymm hoff.2 hle
        simp [heq]
      · simp [hcond]
    -- (2) every qualifying timestamp is at most done_until
    have hmax : ∀ x ∈ (0 :: mentionedList ms).filter (balancedUpTo ms),
        x ≤ (runMarks ms).doneUntil := by
      intro x hx
      rcases List.mem_filter.mp hx with ⟨hxmem, hxbal⟩
      rcases List.mem_cons.mp hxmem with hx0 | hxmem
      · subst hx0; omega
      · by_contra hgt
        push_neg at hgt
        have hxment : 0 < beginCount ms x + doneCount ms x := (mentioned_iff ms x).mp hxmem
        by_cases hxkey : ∃ p ∈ (runMarks ms).outstanding, p.1 = x
        · obtain ⟨p, hp, hpx⟩ := hxkey
          cases hout : (runMarks ms).outstanding with
          | nil => rw [hout] at hp; cases hp
          | cons hd tail =>
            have hhd := hinv1.headPos hd tail hout
            have hhdbal := hinv1.bal hd (by rw [hout]; exact List.mem_cons_self _ _)
            have hBgtD : doneCount ms hd.1 < beginCount ms hd.1 := by
              rw [hhdbal] at hhd
              omega
            have hhdle : hd.1 ≤ x := by
              rw [hout] at hp
              rcases List.mem_cons.mp hp with hp1 | hp1
              · rw [← hpx, hp1]
              · have hsorted := hinv1.sorted
                rw [hout] at hsorted
                have : hd.1 < p.1 := (List.pairwise_cons.mp hsorted).1 p hp1
                omega
            have hhdment : hd.1 ∈ mentionedList ms :=
              (mentioned_iff ms hd.1).mpr
                (hinv1.ment hd (by rw [hout]; exact List.mem_cons_self _ _))
            unfold balancedUpTo at hxbal
            rw [List.all_eq_true] at hxbal
            have := hxbal hd.1 hhdment
            simp only [Bool.or_eq_true, decide_eq_true_eq] at this
            rcases this with h | h
            · exact h ⟨by omega, hhdle⟩
            · omega
        · have hkeys : ∀ p ∈ (runMarks ms).outstanding, p.1 ≠ x := by
            intro p hp hcontra
            exact hxkey ⟨p, hp, hcontra⟩
          have hoff := hinv1.offHeap x hxment hkeys
          omega
    -- (3) done_until is itself a candidate
    have hmem : (runMarks ms).doneUntil ∈
        (0 :: mentionedList ms).filter (balancedUpTo ms) := by
      apply List.mem_filter.mpr
      refine ⟨?_, hbal_du⟩
      rcases hinv1.duMent with h | h
      · rw [h]; exact List.mem_cons_self _ _
      · exact List.mem_cons_of_mem _ ((mentioned_iff ms _).mpr h)
    exact (maxQual_eq hmem hmax).symm
  · refine ⟨?_, ?_, ?_, ?_⟩ <;> decide

/-- C5 witness: the amended watermark characterisation applied to the
spec's own sequence Begin(300); Begin(200); Begin(100); Done(200);
Done(100); Done(300). -/
theorem C5_watermark_doneUntil_witness :
    respectsBegins ⟨[], 0⟩ [.begin 300, .begin 200, .begin 100, .done 200, .done 100,
      .done 300] = true ∧
    (runMarks [.begin 300, .begin 200, .begin 100, .done 200, .done 100,
      .done 300]).doneUntil =
      maxQual [.begin 300, .begin 200, .begin 100, .done 200, .done 100, .done 300] := by
  refine ⟨by decide, ?_⟩
  exact C5_watermark_doneUntil.1 _ (by decide) (by decide)

/-- C10 counterexample: the claim says a Done(ts) with no prior Begin(ts)
immediately advances done_until to at least ts; after Begin(5) the sequence
Done(7) (7 was never begun) leaves done_until at 0, because the pop loop
stops at the outstanding timestamp 5 whose balance is positive. -/
theorem C10_counterexample :
    beginCount [.begin 5, .done 7] 7 = 0 ∧
    (runMarks [.begin 5, .done 7]).doneUntil = 0 ∧
    ¬ (7 ≤ (runMarks [.begin 5, .done 7]).doneUntil) := by
  refine ⟨?_, ?_, ?_⟩ <;> decide

/-- OracleRec models the oracle-recovery fragment of Open (src/unnamed/
part_007 lines 94-98): after computing maxTs, Open calls readMark.Done,
commitMark.Done and sets nextTs = maxTs + 1 on the freshly created oracle
(both watermarks start empty with done_until 0). -/
structure OracleRec where
  readMark : WState
  commitMark : WState
  nextTs : Nat
  deriving DecidableEq, Repr

/-- recoverOracle is the Open recovery fragment applied to fresh marks. -/
def recoverOracle (maxTs : Nat) : OracleRec :=
  { readMark := processMark ⟨[], 0⟩ (.done maxTs)
    commitMark := processMark ⟨[], 0⟩ (.done maxTs)
    nextTs := maxTs + 1 }

/-- C10 (amended): a Done(ts) processed by a watermark with no outstanding
timestamps gives ts the pending balance -1, pops it immediately, and
advances done_until to max(previous, ts) ≥ ts; DB recovery relies on this on
the two freshly created marks, so after Open both marks' done_until equal
maxTs and next_ts = maxTs + 1. -/
theorem C10_unmatched_done_on_empty (d ts : Nat) :
    (processMark ⟨[], d⟩ (.done ts)).outstanding = [] ∧
    (processMark ⟨[], d⟩ (.done ts)).doneUntil = max d ts ∧
    ts ≤ (processMark ⟨[], d⟩ (.done ts)).doneUntil ∧
    (∀ maxTs : Nat,
      (recoverOracle maxTs).readMark.doneUntil = maxTs ∧
      (recoverOracle maxTs).commitMark.doneUntil = maxTs ∧
      (recoverOracle maxTs).nextTs = maxTs + 1) := by
  have hbase : ∀ d' ts' : Nat, processMark ⟨[], d'⟩ (.done ts') =
      ⟨[], if d' < ts' then ts' else d'⟩ := by
    intro d' ts'
    show processBD ⟨[], d'⟩ ts' (-1) = _
    show (⟨(popLoop (updateBal [] ts' (-1)) d').1,
      if d' < (popLoop (updateBal [] ts' (-1)) d').2
      then (popLoop (updateBal [] ts' (-1)) d').2 else d'⟩ : WState) = _
    have h1 : updateBal [] ts' (-1) = [(ts', -1)] := rfl
    have h2 : popLoop [(ts', -1)] d' = ([], ts') := by
      simp only [popLoop]
      rw [if_pos (by omega : (-1 : Int) ≤ 0)]
    rw [h1, h2]
  refine ⟨?_, ?_, ?_, ?_⟩
  · rw [hbase]
  · rw [hbase]
    show (if d < ts then ts else d) = max d ts
    split <;> omega
  · rw [hbase]
    show ts ≤ (if d < ts then ts else d)
    split <;> omega
  · intro maxTs
    refine ⟨?_, ?_, rfl⟩ <;>
      · show (processMark ⟨[], 0⟩ (.done maxTs)).doneUntil = maxTs
        rw [hbase]
        show (if 0 < maxTs then maxTs else 0) = maxTs
        split <;> omega

end Originium

namespace Originium

/-!
The k-way merge (src/pkg/kway/merge.go, heap.go).

container/heap's contract is that Pop removes and returns the minimum
element under Less, so the heap is modelled as the list of its elements
with Pop selecting the Less-minimum.  Heap.Less calls types.CompareKeys,
which panics on keys lacking '@' (see CompareKeysT); the embedding uses the
guarded comparator CompareKeys, which agrees with it on versioned keys
(compareKeysT_agrees), and every merge theorem below restricts inputs to
versioned keys.  The drain loop is written with an explicit fuel argument
(one unit per popped element) so that it stays structurally recursive; the
loop in the source terminates for exactly the same reason, and Merge
supplies fuel equal to the total number of elements.
-/

/-- Element models kway.Element: an entry tagged with the index of the list
it came from (larger index = newer source). -/
structure Element where
  entry : Entry
  li : Nat
  deriving DecidableEq, Repr

/-- lessE models Heap.Less (src/pkg/kway/heap.go lines 35-41): versioned-key
comparison first, tie-broken by smaller list index. -/
def lessE (a b : Element) : Bool :=
  if CompareKeys a.entry.Key b.entry.Key ≠ 0 then
    decide (CompareKeys a.entry.Key b.entry.Key < 0)
  else decide (a.li < b.li)

/-- minOf selects the Less-minimum of the heap contents (container/heap's
Pop contract); in all uses below the minimum is unique. -/
def minOf : List Element → Option Element
  | [] => none
  | x :: rest =>
    match minOf rest with
    | none => some x
    | some m => if lessE m x then some m else some x

/-- updA models the Go map write `latest[k] = v` on an association list. -/
def updA (m : List (Str × Entry)) (k : Str) (v : Entry) : List (Str × Entry) :=
  if m.any (fun p => p.1 = k) then
    m.map (fun p => if p.1 = k then (k, v) else p)
  else m ++ [(k, v)]

/-- initHeads models the initial push loop of Merge: the head of every
nonempty list is pushed tagged with its index. -/
def initHeads : Nat → List (List Entry) → List Element
  | _, [] => []
  | i, [] :: rest => initHeads (i + 1) rest
  | i, (x :: _) :: rest => ⟨x, i⟩ :: initHeads (i + 1) rest

/-- initTails models `lists[i] = list[1:]` after the initial pushes. -/
def initTails (lists : List (List Entry)) : List (List Entry) :=
  lists.map (fun l => l.drop 1)

/-- drainGo models the pop/push drain loop of Merge, returning the sequence
of popped elements; fuel bounds the number of iterations (one per pop). -/
def drainGo : Nat → List (List Entry) → List Element → List Element
  | 0, _, _ => []
  | fuel + 1, streams, h =>
    match minOf h with
    | none => []
    | some e =>
      match streams.getD e.li [] with
      | [] => e :: drainGo fuel streams (h.erase e)
      | x :: rest => e :: drainGo fuel (streams.set e.li rest) (⟨x, e.li⟩ :: h.erase e)

/-- heapSize is the total number of elements still to pop: heap plus
remaining stream entries. -/
def heapSize (streams : List (List Entry)) (h : List Element) : Nat :=
  (streams.map List.length).sum + h.length

/-- drainPops is the drain loop with enough fuel to run to completion. -/
def drainPops (streams : List (List Entry)) (h : List Element) : List Element :=
  drainGo (heapSize streams h) streams h

/-- plainLe is the comparison used by Merge's final sort:
`cmp.Compare(a.Key, b.Key)`, i.e. plain bytewise order on the full
versioned key (not the versioned-key comparator). -/
def plainLe (a b : Entry) : Prop := strCmp a.Key b.Key ≤ 0

instance : DecidableRel plainLe := fun a b => by
  unfold plainLe
  infer_instance

/-- Merge models kway.Merge (src/pkg/kway/merge.go lines 25-70): push the
head of every list, drain the heap recording the latest entry per versioned
key, then drop tombstones and sort the survivors by plain key comparison
(slices.SortFunc with cmp.Compare; the sort is modelled by insertion sort,
which is a correct implementation of the same comparison — keys in the
latest map are distinct, so the sorted result is unique).  The Go map's
arbitrary iteration order is likewise immaterial after the sort. -/
def Merge (lists : List (List Entry)) : List Entry :=
  let pops := drainPops (initTails lists) (initHeads 0 lists)
  let latest := pops.foldl (fun m e => updA m e.entry.Key e.entry) []
  List.insertionSort plainLe ((latest.map Prod.snd).filter (fun e => !e.Tombstone))

/-- C3 (code bug): evaluating Merge on the input of the repository's own
test TestMergeDuplicateWithTs2 — list1 = a@1:1, a@2:2, a@3:3, b@1:1 and
list2 = a@4:4, b@2:2, c@1:1 — the survivors come out sorted by plain
bytewise key order (timestamps ascending per user key), not by the
versioned-key comparator order the test and the claim expect. -/
theorem C3_merge_plain_sort :
    Merge [[⟨KeyWithTs [97] 1, [49], false, 0⟩, ⟨KeyWithTs [97] 2, [50], false, 0⟩,
            ⟨KeyWithTs [97] 3, [51], false, 0⟩, ⟨KeyWithTs [98] 1, [49], false, 0⟩],
           [⟨KeyWithTs [97] 4, [52], false, 0⟩, ⟨KeyWithTs [98] 2, [50], false, 0⟩,
            ⟨KeyWithTs [99] 1, [49], false, 0⟩]] =
      [⟨KeyWithTs [97] 1, [49], false, 0⟩, ⟨KeyWithTs [97] 2, [50], false, 0⟩,
       ⟨KeyWithTs [97] 3, [51], false, 0⟩, ⟨KeyWithTs [97] 4, [52], false, 0⟩,
       ⟨KeyWithTs [98] 1, [49], false, 0⟩, ⟨KeyWithTs [98] 2, [50], false, 0⟩,
       ⟨KeyWithTs [99] 1, [49], false, 0⟩] ∧
    Merge [[⟨KeyWithTs [97] 1, [49], false, 0⟩, ⟨KeyWithTs [97] 2, [50], false, 0⟩,
            ⟨KeyWithTs [97] 3, [51], false, 0⟩, ⟨KeyWithTs [98] 1, [49], false, 0⟩],
           [⟨KeyWithTs [97] 4, [52], false, 0⟩, ⟨KeyWithTs [98] 2, [50], false, 0⟩,
            ⟨KeyWithTs [99] 1, [49], false, 0⟩]] ≠
      [⟨KeyWithTs [97] 4, [52], false, 0⟩, ⟨KeyWithTs [97] 3, [51], false, 0⟩,
       ⟨KeyWithTs [97] 2, [50], false, 0⟩, ⟨KeyWithTs [97] 1, [49], false, 0⟩,
       ⟨KeyWithTs [98] 2, [50], false, 0⟩, ⟨KeyWithTs [98] 1, [49], false, 0⟩,
       ⟨KeyWithTs [99] 1, [49], false, 0⟩] := by
  constructor <;> decide

end Originium

namespace Originium

/-! Order-theoretic facts about CompareKeys on versioned keys. -/

theorem ck_self (k : Str) : CompareKeys k k = 0 := by
  unfold CompareKeys
  by_cases h : lastIndexAt k = none ∨ lastIndexAt k = none
  · rw [if_pos h]; exact strCmp_self k
  · rw [if_neg h, if_neg (by simp [strCmp_self])]
    simp

theorem ck_antisymm (a b : Str) : CompareKeys a b = -CompareKeys b a := by
  unfold CompareKeys
  by_cases hg : lastIndexAt a = none ∨ lastIndexAt b = none
  · rw [if_pos hg, if_pos (Or.symm hg)]
    exact strCmp_antisymm a b
  · rw [if_neg hg, if_neg (fun h => hg (Or.symm h))]
    by_cases hne : strCmp (userPart a) (userPart b) ≠ 0
    · have hne2 : strCmp (userPart b) (userPart a) ≠ 0 := by
        rw [strCmp_antisymm (userPart b) (userPart a)]
        omega
      rw [if_pos hne, if_pos hne2]
      exact strCmp_antisymm _ _
    · have h0 : strCmp (userPart a) (userPart b) = 0 := by omega
      have h02 : strCmp (userPart b) (userPart a) = 0 := by
        rw [strCmp_antisymm (userPart b) (userPart a)]
        omega
      rw [if_neg (show ¬ (strCmp (userPart a) (userPart b) ≠ 0) from by omega),
        if_neg (show ¬ (strCmp (userPart b) (userPart a) ≠ 0) from by omega)]
      split_ifs <;> omega

/-- vkey: the key contains '@' (on such keys the Go comparator is total). -/
def vkey (k : Str) : Prop := lastIndexAt k ≠ none

theorem ckv_eq (a b : Str) (ha : vkey a) (hb : vkey b) :
    CompareKeys a b =
      (if strCmp (userPart a) (userPart b) ≠ 0 then strCmp (userPart a) (userPart b)
       else if ParseTs a < ParseTs b then 1
       else if ParseTs b < ParseTs a then -1
       else 0) := by
  unfold CompareKeys
  rw [if_neg (by rintro (h | h); exact ha h; exact hb h)]

theorem ckv_lt_iff {a b : Str} (ha : vkey a) (hb : vkey b) :
    CompareKeys a b < 0 ↔
      (strCmp (userPart a) (userPart b) < 0 ∨
        (userPart a = userPart b ∧ ParseTs b < ParseTs a)) := by
  rw [ckv_eq a b ha hb]
  rcases strCmp_cases (userPart a) (userPart b) with h | h | h
  · rw [if_pos (by omega)]
    constructor
    · intro _; left; omega
    · intro _; omega
  · have heq : userPart a = userPart b := strCmp_eq_zero_iff.mp h
    rw [if_neg (by omega)]
    rcases Nat.lt_trichotomy (ParseTs a) (ParseTs b) with ht | ht | ht
    · rw [if_pos ht]
      constructor
      · intro hc; omega
      · rintro (hc | ⟨_, hc⟩); omega; omega
    · rw [if_neg (by omega), if_neg (by omega)]
      constructor
      · intro hc; omega
      · rintro (hc | ⟨_, hc⟩); omega; omega
    · rw [if_neg (by omega), if_pos ht]
      constructor
      · intro _; right; exact ⟨heq, ht⟩
      · intro _; omega
  · rw [if_pos (by omega)]
    constructor
    · intro hc; omega
    · rintro (hc | ⟨heq, _⟩)
      · omega
      · rw [heq, strCmp_self] at h; omega

theorem ckv_eq_zero_iff {a b : Str} (ha : vkey a) (hb : vkey b) :
    CompareKeys a b = 0 ↔ (userPart a = userPart b ∧ ParseTs a = ParseTs b) := by
  rw [ckv_eq a b ha hb]
  rcases strCmp_cases (userPart a) (userPart b) with h | h | h
  · rw [if_pos (by omega)]
    constructor
    · intro hc; omega
    · rintro ⟨heq, _⟩; rw [heq, strCmp_self] at h; omega
  · have heq : userPart a = userPart b := strCmp_eq_zero_iff.mp h
    rw [if_neg (by omega)]
    rcases Nat.lt_trichotomy (ParseTs a) (ParseTs b) with ht | ht | ht
    · rw [if_pos ht]
      constructor
      · intro hc; omega
      · rintro ⟨_, hc⟩; omega
    · rw [if_neg (by omega), if_neg (by omega)]
      exact ⟨fun _ => ⟨heq, ht⟩, fun _ => rfl⟩
    · rw [if_neg (by omega), if_pos ht]
      constructor
      · intro hc; omega
      · rintro ⟨_, hc⟩; omega
  · rw [if_pos (by omega)]
    constructor
    · intro hc; omega
    · rintro ⟨heq, _⟩; rw [heq, strCmp_self] at h; omega

theorem ckv_lt_trans {a b c : Str} (ha : vkey a) (hb : vkey b) (hc : vkey c)
    (h1 : CompareKeys a b < 0) (h2 : CompareKeys b c < 0) : CompareKeys a c < 0 := by
  rw [ckv_lt_iff ha hb] at h1
  rw [ckv_lt_iff hb hc] at h2
  rw [ckv_lt_iff ha hc]
  rcases h1 with h1 | ⟨he1, ht1⟩ <;> rcases h2 with h2 | ⟨he2, ht2⟩
  · exact Or.inl (strCmp_lt_trans h1 h2)
  · rw [← he2]; exact Or.inl h1
  · rw [he1]; exact Or.inl h2
  · right; rw [he1, he2]; exact ⟨rfl, by omega⟩

theorem ckv_zero_lt_trans {a b c : Str} (ha : vkey a) (hb : vkey b) (hc : vkey c)
    (h1 : CompareKeys a b = 0) (h2 : CompareKeys b c < 0) : CompareKeys a c < 0 := by
  rw [ckv_eq_zero_iff ha hb] at h1
  rw [ckv_lt_iff hb hc] at h2
  rw [ckv_lt_iff ha hc]
  rcases h2 with h2 | ⟨he2, ht2⟩
  · rw [h1.1]; exact Or.inl h2
  · right; rw [h1.1, h1.2]; exact ⟨he2, ht2⟩

theorem ckv_lt_zero_trans {a b c : Str} (ha : vkey a) (hb : vkey b) (hc : vkey c)
    (h1 : CompareKeys a b < 0) (h2 : CompareKeys b c = 0) : CompareKeys a c < 0 := by
  rw [ckv_lt_iff ha hb] at h1
  rw [ckv_eq_zero_iff hb hc] at h2
  rw [ckv_lt_iff ha hc]
  rcases h1 with h1 | ⟨he1, ht1⟩
  · rw [← h2.1]; exact Or.inl h1
  · right; rw [← h2.1, ← h2.2]; exact ⟨he1, ht1⟩

theorem ck_trichotomy (a b : Str) :
    CompareKeys a b < 0 ∨ CompareKeys a b = 0 ∨ 0 < CompareKeys a b := by
  omega

/-! Facts about the heap minimum. -/

theorem lessE_irrefl (e : Element) : lessE e e = false := by
  unfold lessE
  rw [if_neg (by rw [ck_self]; omega)]
  simp

theorem lessE_asymm {a b : Element} (h : lessE a b = true) : lessE b a = false := by
  unfold lessE at h ⊢
  have hck := ck_antisymm a.entry.Key b.entry.Key
  by_cases hc : CompareKeys a.entry.Key b.entry.Key ≠ 0
  · rw [if_pos hc] at h
    rw [if_pos (by omega)]
    simp at h ⊢
    omega
  · rw [if_neg hc] at h
    rw [if_neg (by omega)]
    simp at h ⊢
    omega

theorem lessE_total {a b : Element} (hne : ¬ (CompareKeys a.entry.Key b.entry.Key = 0 ∧ a.li = b.li)) :
    lessE a b = true ∨ lessE b a = true := by
  unfold lessE
  have hck := ck_antisymm a.entry.Key b.entry.Key
  by_cases hc : CompareKeys a.entry.Key b.entry.Key = 0
  · rw [if_neg (by omega), if_neg (by omega)]
    have : a.li ≠ b.li := fun h => hne ⟨hc, h⟩
    simp
    omega
  · rw [if_pos (by omega), if_pos (by omega)]
    simp
    omega

theorem minOf_mem {h : List Element} {e : Element} (hm : minOf h = some e) : e ∈ h := by
  induction h with
  | nil => cases hm
  | cons x rest ih =>
    simp only [minOf] at hm
    cases hr : minOf rest with
    | none => simp only [hr] at hm; cases hm; exact List.mem_cons_self _ _
    | some m =>
      simp only [hr] at hm
      by_cases hl : lessE m x = true
      · rw [if_pos hl] at hm
        cases hm
        exact List.mem_cons_of_mem _ (ih hr)
      · rw [if_neg hl] at hm
        cases hm
        exact List.mem_cons_self _ _

theorem minOf_none_iff {h : List Element} : minOf h = none ↔ h = [] := by
  cases h with
  | nil => simp [minOf]
  | cons x rest =>
    simp only [minOf]
    cases hr : minOf rest with
    | none => simp
    | some m =>
      simp only []
      constructor
      · intro hc
        by_cases hl : lessE m x = true
        · rw [if_pos hl] at hc; cases hc
        · rw [if_neg hl] at hc; cases hc
      · intro hc; cases hc

end Originium

namespace Originium

open List

/-! Multiset bookkeeping for the drain loop. -/

/-- streamElems tags every remaining stream entry with its list index
(stream k in the list gets index j + k). -/
def streamElems : Nat → List (List Entry) → List Element
  | _, [] => []
  | j, l :: rest => l.map (fun x => ⟨x, j⟩) ++ streamElems (j + 1) rest

theorem streamElems_entries : ∀ (j : Nat) (streams : List (List Entry)),
    (streamElems j streams).map Element.entry = streams.flatten
  | _, [] => rfl
  | j, l :: rest => by
    simp only [streamElems, List.map_append, List.map_map]
    rw [streamElems_entries (j + 1) rest,
      show (Element.entry ∘ fun x => (⟨x, j⟩ : Element)) = id from rfl, List.map_id]
    rfl

theorem streamElems_nil (j : Nat) (streams : List (List Entry))
    (h : ∀ i, streams.getD i [] = []) : streamElems j streams = [] := by
  induction streams generalizing j with
  | nil => rfl
  | cons l rest ih =>
    have h0 := h 0
    simp only [List.getD] at h0
    have hl : l = [] := by simpa using h0
    subst hl
    simp only [streamElems, List.map_nil, List.nil_append]
    exact ih (j + 1) (fun i => by simpa using h (i + 1))

theorem mem_streamElems {f : Element} : ∀ (j : Nat) (streams : List (List Entry)),
    (f ∈ streamElems j streams ↔
      ∃ i, i < streams.length ∧ f.li = j + i ∧ f.entry ∈ streams.getD i []) := by
  intro j streams
  induction streams generalizing j with
  | nil => simp [streamElems]
  | cons l rest ih =>
    simp only [streamElems, List.mem_append, List.mem_map]
    constructor
    · intro hmem
      rcases hmem with ⟨x, hx, hfx⟩ | hmem
      · exact ⟨0, by simp, by rw [← hfx]; simp, by rw [← hfx]; simpa using hx⟩
      · obtain ⟨i, hi, hli, hent⟩ := (ih (j + 1)).mp hmem
        exact ⟨i + 1, by simpa using hi, by omega, by simpa using hent⟩
    · rintro ⟨i, hi, hli, hent⟩
      cases i with
      | zero =>
        left
        refine ⟨f.entry, by simpa using hent, ?_⟩
        cases f
        simp at hli
        simp [hli]
      | succ i =>
        right
        apply (ih (j + 1)).mpr
        exact ⟨i, by simpa using hi, by omega, by simpa using hent⟩

theorem streamElems_set {x : Entry} {rest : List Entry} :
    ∀ (streams : List (List Entry)) (i j : Nat),
    streams.getD i [] = x :: rest →
    (⟨x, j + i⟩ : Element) :: streamElems j (streams.set i rest) ~ streamElems j streams := by
  intro streams
  induction streams with
  | nil =>
    intro i j hs
    simp [List.getD] at hs
  | cons l ls ih =>
    intro i j hs
    cases i with
    | zero =>
      simp only [List.getD] at hs
      have hl : l = x :: rest := by simpa using hs
      subst hl
      simp only [List.set, streamElems, List.map_cons, Nat.add_zero]
      exact List.Perm.refl _
    | succ i =>
      simp only [List.getD] at hs
      have hs2 : ls.getD i [] = x :: rest := by simpa using hs
      simp only [List.set, streamElems]
      have hstep := ih i (j + 1) hs2
      calc (⟨x, j + (i + 1)⟩ : Element) :: (l.map (fun y => ⟨y, j⟩) ++ streamElems (j + 1) (ls.set i rest))
          ~ l.map (fun y => (⟨y, j⟩ : Element)) ++
              (⟨x, j + (i + 1)⟩ : Element) :: streamElems (j + 1) (ls.set i rest) :=
            (List.perm_middle).symm
        _ ~ l.map (fun y => (⟨y, j⟩ : Element)) ++ streamElems (j + 1) ls := by
            apply List.Perm.append_left
            have : j + (i + 1) = (j + 1) + i := by omega
            rw [this]
            exact hstep

theorem sum_map_set {x : Entry} {rest : List Entry} :
    ∀ (streams : List (List Entry)) (i : Nat),
    streams.getD i [] = x :: rest →
    ((streams.set i rest).map List.length).sum + 1 = (streams.map List.length).sum := by
  intro streams
  induction streams with
  | nil => intro i hs; simp [List.getD] at hs
  | cons l ls ih =>
    intro i hs
    cases i with
    | zero =>
      simp only [List.getD] at hs
      have hl : l = x :: rest := by simpa using hs
      subst hl
      simp [List.set]
      omega
    | succ i =>
      simp only [List.getD] at hs
      have hs2 : ls.getD i [] = x :: rest := by simpa using hs
      simp only [List.set, List.map_cons, List.sum_cons]
      have := ih i hs2
      omega

theorem getD_set_ne (streams : List (List Entry)) (i j : Nat) (a : List Entry)
    (h : j ≠ i) : (streams.set i a).getD j [] = streams.getD j [] := by
  induction streams generalizing i j with
  | nil => simp [List.set]
  | cons l ls ih =>
    cases i with
    | zero =>
      cases j with
      | zero => exact absurd rfl h
      | succ j => simp [List.set, List.getD]
    | succ i =>
      cases j with
      | zero => simp [List.set, List.getD]
      | succ j =>
        simp only [List.set, List.getD] at *
        simpa using ih i j (by omega)

theorem getD_lt_length {streams : List (List Entry)} {i : Nat}
    (h : streams.getD i [] ≠ []) : i < streams.length := by
  by_contra hge
  push_neg at hge
  have : streams.getD i [] = [] := by
    rw [List.getD_eq_getElem?_getD]
    rw [List.getElem?_eq_none (by omega)]
    rfl
  exact h this

theorem drainGo_perm : ∀ (fuel : Nat) (streams : List (List Entry)) (h : List Element),
    heapSize streams h ≤ fuel →
    (∀ i, streams.getD i [] ≠ [] → ∃ g ∈ h, g.li = i) →
    drainGo fuel streams h ~ h ++ streamElems 0 streams := by
  intro fuel
  induction fuel with
  | zero =>
    intro streams h hfuel hinv
    unfold heapSize at hfuel
    have hh : h = [] := by
      have : h.length = 0 := by omega
      exact List.length_eq_zero.mp this
    subst hh
    have hse : streamElems 0 streams = [] := by
      apply streamElems_nil
      intro i
      by_contra hne
      obtain ⟨g, hg, _⟩ := hinv i hne
      cases hg
    rw [hse]
    exact List.Perm.refl _
  | succ fuel ih =>
    intro streams h hfuel hinv
    cases hm : minOf h with
    | none =>
      have hh : h = [] := minOf_none_iff.mp hm
      subst hh
      have hse : streamElems 0 streams = [] := by
        apply streamElems_nil
        intro i
        by_contra hne
        obtain ⟨g, hg, _⟩ := hinv i hne
        cases hg
      simp only [drainGo, hm, hse]
      exact List.Perm.refl _
    | some e =>
      have he : e ∈ h := minOf_mem hm
      have hperm_he : h ~ e :: h.erase e := List.perm_cons_erase he
      cases hs : streams.getD e.li [] with
      | nil =>
        have hfuel2 : heapSize streams (h.erase e) ≤ fuel := by
          unfold heapSize at hfuel ⊢
          have h1 := List.length_erase_of_mem he
          have h2 : 0 < h.length := List.length_pos.mpr (List.ne_nil_of_mem he)
          omega
        have hinv2 : ∀ i, streams.getD i [] ≠ [] → ∃ g ∈ h.erase e, g.li = i := by
          intro i hne
          obtain ⟨g, hg, hgl⟩ := hinv i hne
          have hgne : g ≠ e := by
            intro hc
            subst hc
            rw [hgl] at hs
            exact hne hs
          exact ⟨g, (List.mem_erase_of_ne hgne).mpr hg, hgl⟩
        have hrec := ih streams (h.erase e) hfuel2 hinv2
        simp only [drainGo, hm, hs]
        calc e :: drainGo fuel streams (h.erase e)
            ~ e :: (h.erase e ++ streamElems 0 streams) := hrec.cons e
          _ = (e :: h.erase e) ++ streamElems 0 streams := rfl
          _ ~ h ++ streamElems 0 streams := (hperm_he.append_right _).symm
      | cons x rest =>
        have hfuel2 : heapSize (streams.set e.li rest) (⟨x, e.li⟩ :: h.erase e) ≤ fuel := by
          unfold heapSize at hfuel ⊢
          have h1 := sum_map_set streams e.li hs
          have h2 := List.length_erase_of_mem he
          simp only [List.length_cons]
          have h3 : 1 ≤ h.length := List.length_pos.mpr (by intro hc; subst hc; cases he)
          omega
        have hinv2 : ∀ i, (streams.set e.li rest).getD i [] ≠ [] →
            ∃ g ∈ (⟨x, e.li⟩ : Element) :: h.erase e, g.li = i := by
          intro i hne
          by_cases hieq : i = e.li
          · subst hieq
            exact ⟨⟨x, e.li⟩, List.mem_cons_self _ _, rfl⟩
          · rw [getD_set_ne streams e.li i rest hieq] at hne
            obtain ⟨g, hg, hgl⟩ := hinv i hne
            have hgne : g ≠ e := by
              intro hc
              subst hc
              exact hieq hgl.symm
            exact ⟨g, List.mem_cons_of_mem _ ((List.mem_erase_of_ne hgne).mpr hg), hgl⟩
        have hrec := ih (streams.set e.li rest) (⟨x, e.li⟩ :: h.erase e) hfuel2 hinv2
        have hse : (⟨x, 0 + e.li⟩ : Element) :: streamElems 0 (streams.set e.li rest) ~
            streamElems 0 streams := streamElems_set streams e.li 0 hs
        simp only [drainGo, hm, hs]
        calc e :: drainGo fuel (streams.set e.li rest) (⟨x, e.li⟩ :: h.erase e)
            ~ e :: ((⟨x, e.li⟩ : Element) :: h.erase e ++
                streamElems 0 (streams.set e.li rest)) := hrec.cons e
          _ ~ e :: (h.erase e ++ ((⟨x, e.li⟩ : Element) ::
                streamElems 0 (streams.set e.li rest))) := by
              apply List.Perm.cons
              exact List.perm_middle.symm
          _ ~ e :: (h.erase e ++ streamElems 0 streams) := by
              apply List.Perm.cons
              apply List.Perm.append_left
              have hz : (0 : Nat) + e.li = e.li := by omega
              rw [hz] at hse
              exact hse
          _ = (e :: h.erase e) ++ streamElems 0 streams := rfl
          _ ~ h ++ streamElems 0 streams := (hperm_he.append_right _).symm

end Originium

namespace Originium

theorem ckv_zero_trans {a b c : Str} (ha : vkey a) (hb : vkey b) (hc : vkey c)
    (h1 : CompareKeys a b = 0) (h2 : CompareKeys b c = 0) : CompareKeys a c = 0 := by
  rw [ckv_eq_zero_iff ha hb] at h1
  rw [ckv_eq_zero_iff hb hc] at h2
  rw [ckv_eq_zero_iff ha hc]
  exact ⟨h1.1.trans h2.1, h1.2.trans h2.2⟩

/-- ltE is the strict lexicographic order (versioned key, list index) in
which the drain loop pops elements. -/
def ltE (a b : Element) : Prop :=
  CompareKeys a.entry.Key b.entry.Key < 0 ∨
    (CompareKeys a.entry.Key b.entry.Key = 0 ∧ a.li < b.li)

theorem ltE_of_lessE {a b : Element} (h : lessE a b = true) : ltE a b := by
  unfold lessE at h
  unfold ltE
  by_cases hc : CompareKeys a.entry.Key b.entry.Key ≠ 0
  · rw [if_pos hc] at h
    left
    simpa using h
  · rw [if_neg hc] at h
    right
    exact ⟨by omega, by simpa using h⟩

theorem lessE_neg_trans {y x m : Element}
    (hy : vkey y.entry.Key) (hx : vkey x.entry.Key) (hm : vkey m.entry.Key)
    (h1 : lessE y x = true) (h2 : lessE m x = false) : lessE y m = true := by
  unfold lessE at h1 h2 ⊢
  have ha1 := ck_antisymm m.entry.Key x.entry.Key
  by_cases hc1 : CompareKeys y.entry.Key x.entry.Key ≠ 0
  · rw [if_pos hc1] at h1
    have hyx : CompareKeys y.entry.Key x.entry.Key < 0 := by simpa using h1
    by_cases hc2 : CompareKeys m.entry.Key x.entry.Key ≠ 0
    · rw [if_pos hc2] at h2
      have hmx : 0 < CompareKeys m.entry.Key x.entry.Key := by
        simp at h2
        omega
      have hxm : CompareKeys x.entry.Key m.entry.Key < 0 := by
        rw [ck_antisymm x.entry.Key m.entry.Key]
        omega
      have := ckv_lt_trans hy hx hm hyx hxm
      rw [if_pos (by omega)]
      simpa using this
    · have hxm : CompareKeys x.entry.Key m.entry.Key = 0 := by
        rw [ck_antisymm x.entry.Key m.entry.Key]
        omega
      have := ckv_lt_zero_trans hy hx hm hyx hxm
      rw [if_pos (by omega)]
      simpa using this
  · rw [if_neg hc1] at h1
    have hli1 : y.li < x.li := by simpa using h1
    have hyx0 : CompareKeys y.entry.Key x.entry.Key = 0 := by omega
    by_cases hc2 : CompareKeys m.entry.Key x.entry.Key ≠ 0
    · rw [if_pos hc2] at h2
      have hmx : 0 < CompareKeys m.entry.Key x.entry.Key := by
        simp at h2
        omega
      have hxm : CompareKeys x.entry.Key m.entry.Key < 0 := by
        rw [ck_antisymm x.entry.Key m.entry.Key]
        omega
      have := ckv_zero_lt_trans hy hx hm hyx0 hxm
      rw [if_pos (by omega)]
      simpa using this
    · rw [if_neg hc2] at h2
      have hli2 : x.li ≤ m.li := by
        simp at h2
        omega
      have hxm : CompareKeys x.entry.Key m.entry.Key = 0 := by
        rw [ck_antisymm x.entry.Key m.entry.Key]
        omega
      have hym : CompareKeys y.entry.Key m.entry.Key = 0 :=
        ckv_zero_trans hy hx hm hyx0 hxm
      rw [if_neg (by omega)]
      simp
      omega

theorem minOf_spec : ∀ {h : List Element} {e : Element}, minOf h = some e →
    (∀ x ∈ h, vkey x.entry.Key) → ∀ x ∈ h, lessE x e = false := by
  intro h
  induction h with
  | nil => intro e hm _ x hx; cases hx
  | cons z rest ih =>
    intro e hm hver x hx
    simp only [minOf] at hm
    cases hr : minOf rest with
    | none =>
      have hrest : rest = [] := minOf_none_iff.mp hr
      simp only [hr] at hm
      cases hm
      subst hrest
      rcases List.mem_cons.mp hx with hx1 | hx1
      · subst hx1; exact lessE_irrefl x
      · cases hx1
    | some m =>
      simp only [hr] at hm
      have hverrest : ∀ y ∈ rest, vkey y.entry.Key := fun y hy =>
        hver y (List.mem_cons_of_mem _ hy)
      have hmrest : m ∈ rest := minOf_mem hr
      by_cases hl : lessE m z = true
      · rw [if_pos hl] at hm
        cases hm
        rcases List.mem_cons.mp hx with hx1 | hx1
        · subst hx1; exact lessE_asymm hl
        · exact ih hr hverrest x hx1
      · rw [if_neg hl] at hm
        cases hm
        rcases List.mem_cons.mp hx with hx1 | hx1
        · subst hx1; exact lessE_irrefl x
        · by_contra hcon
          have hyx : lessE x z = true := by
            cases hb : lessE x z
            · exact absurd hb hcon
            · rfl
          have hl2 : lessE m z = false := by
            cases hb : lessE m z
            · rfl
            · exact absurd hb hl
          have hnew := lessE_neg_trans (hverrest x hx1) (hver z (List.mem_cons_self _ _))
            (hverrest m hmrest) hyx hl2
          have hfalse := ih hr hverrest x hx1
          rw [hnew] at hfalse
          cases hfalse

theorem li_inj {h : List Element} (hnd : (h.map Element.li).Nodup)
    {a b : Element} (ha : a ∈ h) (hb : b ∈ h) (hab : a.li = b.li) : a = b := by
  induction h with
  | nil => cases ha
  | cons z rest ih =>
    simp only [List.map_cons, List.nodup_cons] at hnd
    rcases List.mem_cons.mp ha with ha1 | ha1 <;> rcases List.mem_cons.mp hb with hb1 | hb1
    · rw [ha1, hb1]
    · subst ha1
      exact absurd (hab ▸ List.mem_map_of_mem Element.li hb1) hnd.1
    · subst hb1
      exact absurd (hab ▸ List.mem_map_of_mem Element.li ha1) hnd.1
    · exact ih hnd.2 ha1 hb1

end Originium

namespace Originium

theorem getD_set_self (streams : List (List Entry)) (i : Nat) (a : List Entry)
    (h : i < streams.length) : (streams.set i a).getD i [] = a := by
  induction streams generalizing i with
  | nil => cases h
  | cons l ls ih =>
    cases i with
    | zero => simp [List.set, List.getD]
    | succ i =>
      simp only [List.set, List.getD] at *
      simpa using ih i (by simpa using h)

theorem ck_lt_of_heap {e g : Element} {fk : Str}
    (hve : vkey e.entry.Key) (hvg : vkey g.entry.Key) (hvf : vkey fk)
    (hgf : CompareKeys g.entry.Key fk < 0)
    (hge : lessE g e = false) : CompareKeys e.entry.Key fk < 0 := by
  rcases ck_trichotomy e.entry.Key g.entry.Key with hc | hc | hc
  · exact ckv_lt_trans hve hvg hvf hc hgf
  · exact ckv_zero_lt_trans hve hvg hvf hc hgf
  · exfalso
    have hlt : CompareKeys g.entry.Key e.entry.Key < 0 := by
      rw [ck_antisymm g.entry.Key e.entry.Key]
      omega
    have : lessE g e = true := by
      unfold lessE
      rw [if_pos (by omega)]
      simpa using hlt
    rw [this] at hge
    cases hge

theorem drainGo_sorted : ∀ (fuel : Nat) (streams : List (List Entry)) (h : List Element),
    heapSize streams h ≤ fuel →
    (∀ i, streams.getD i [] ≠ [] → ∃ g ∈ h, g.li = i) →
    ((h.map Element.li).Nodup) →
    (∀ g ∈ h, ∀ f ∈ streams.getD g.li [], CompareKeys g.entry.Key f.Key < 0) →
    (∀ i, (streams.getD i []).Pairwise (fun a b => CompareKeys a.Key b.Key < 0)) →
    (∀ g ∈ h, vkey g.entry.Key) →
    (∀ i, ∀ f ∈ streams.getD i [], vkey f.Key) →
    (drainGo fuel streams h).Pairwise ltE := by
  intro fuel
  induction fuel with
  | zero =>
    intro streams h _ _ _ _ _ _ _
    simp [drainGo]
  | succ fuel ih =>
    intro streams h hfuel hinv3 hinv1 hinv2 hinv4 hinv5h hinv5s
    cases hm : minOf h with
    | none => simp [drainGo, hm]
    | some e =>
      have he : e ∈ h := minOf_mem hm
      have hspec := minOf_spec hm hinv5h
      have hnodup_h : h.Nodup := List.Nodup.of_map _ hinv1
      have hve : vkey e.entry.Key := hinv5h e he
      -- ltE from e to any other current heap element
      have helem : ∀ f ∈ h, f ≠ e → lessE e f = true := by
        intro f hf hfe
        have hli : f.li ≠ e.li := fun hc => hfe (li_inj hinv1 hf he hc)
        have hnt : ¬ (CompareKeys e.entry.Key f.entry.Key = 0 ∧ e.li = f.li) := by
          rintro ⟨_, hc⟩
          exact hli hc.symm
        rcases lessE_total hnt with hl | hl
        · exact hl
        · rw [hspec f hf] at hl
          cases hl
      cases hs : streams.getD e.li [] with
      | nil =>
        have hfuel2 : heapSize streams (h.erase e) ≤ fuel := by
          unfold heapSize at hfuel ⊢
          have h1 := List.length_erase_of_mem he
          have h2 : 0 < h.length := List.length_pos.mpr (List.ne_nil_of_mem he)
          omega
        have hsubh : ∀ f ∈ h.erase e, f ∈ h ∧ f ≠ e := by
          intro f hf
          have := (List.Nodup.mem_erase_iff hnodup_h).mp hf
          exact ⟨this.2, this.1⟩
        have hinv3' : ∀ i, streams.getD i [] ≠ [] → ∃ g ∈ h.erase e, g.li = i := by
          intro i hne
          obtain ⟨g, hg, hgl⟩ := hinv3 i hne
          have hgne : g ≠ e := by
            intro hc; subst hc; rw [hgl] at hs; exact hne hs
          exact ⟨g, (List.mem_erase_of_ne hgne).mpr hg, hgl⟩
        have hinv1' : ((h.erase e).map Element.li).Nodup :=
          List.Nodup.sublist (List.Sublist.map _ (List.erase_sublist e h)) hinv1
        have hinv2' : ∀ g ∈ h.erase e, ∀ f ∈ streams.getD g.li [],
            CompareKeys g.entry.Key f.Key < 0 := fun g hg => hinv2 g (hsubh g hg).1
        have hinv5h' : ∀ g ∈ h.erase e, vkey g.entry.Key := fun g hg =>
          hinv5h g (hsubh g hg).1
        simp only [drainGo, hm, hs]
        refine List.pairwise_cons.mpr ⟨?_, ih streams (h.erase e) hfuel2 hinv3'
          hinv1' hinv2' hinv4 hinv5h' hinv5s⟩
        intro f hf
        have hfperm := drainGo_perm fuel streams (h.erase e) hfuel2 hinv3'
        have hfmem := hfperm.mem_iff.mp hf
        rcases List.mem_append.mp hfmem with hf1 | hf1
        · exact ltE_of_lessE (helem f (hsubh f hf1).1 (hsubh f hf1).2)
        · obtain ⟨i, hilen, hfli, hfent⟩ := (mem_streamElems 0 streams).mp hf1
          have hne : streams.getD i [] ≠ [] := by
            intro hc; rw [hc] at hfent; cases hfent
          obtain ⟨g, hg, hgl⟩ := hinv3 i hne
          have hvf : vkey f.entry.Key := hinv5s i f.entry hfent
          have hvg : vkey g.entry.Key := hinv5h g hg
          have hgf : CompareKeys g.entry.Key f.entry.Key < 0 := by
            apply hinv2 g hg
            rw [hgl]
            exact hfent
          left
          exact ck_lt_of_heap hve hvg hvf hgf (hspec g hg)
      | cons x rest =>
        have hlenli : e.li < streams.length := getD_lt_length (by rw [hs]; simp)
        have hxv : vkey x.Key := hinv5s e.li x (by rw [hs]; exact List.mem_cons_self _ _)
        have hex : CompareKeys e.entry.Key x.Key < 0 := by
          apply hinv2 e he
          rw [hs]
          exact List.mem_cons_self _ _
        have hsubh : ∀ f ∈ h.erase e, f ∈ h ∧ f ≠ e := by
          intro f hf
          have := (List.Nodup.mem_erase_iff hnodup_h).mp hf
          exact ⟨this.2, this.1⟩
        have hlierase : ∀ f ∈ h.erase e, f.li ≠ e.li := by
          intro f hf hc
          exact (hsubh f hf).2 (li_inj hinv1 (hsubh f hf).1 he hc)
        have hfuel2 : heapSize (streams.set e.li rest) (⟨x, e.li⟩ :: h.erase e) ≤ fuel := by
          unfold heapSize at hfuel ⊢
          have h1 := sum_map_set streams e.li hs
          have h2 := List.length_erase_of_mem he
          simp only [List.length_cons]
          have h3 : 0 < h.length := List.length_pos.mpr (List.ne_nil_of_mem he)
          omega
        have hinv3' : ∀ i, (streams.set e.li rest).getD i [] ≠ [] →
            ∃ g ∈ (⟨x, e.li⟩ : Element) :: h.erase e, g.li = i := by
          intro i hne
          by_cases hieq : i = e.li
          · subst hieq
            exact ⟨⟨x, e.li⟩, List.mem_cons_self _ _, rfl⟩
          · rw [getD_set_ne streams e.li i rest hieq] at hne
            obtain ⟨g, hg, hgl⟩ := hinv3 i hne
            have hgne : g ≠ e := by
              intro hc; subst hc; exact hieq hgl.symm
            exact ⟨g, List.mem_cons_of_mem _ ((List.mem_erase_of_ne hgne).mpr hg), hgl⟩
        have hinv1' : (((⟨x, e.li⟩ : Element) :: h.erase e).map Element.li).Nodup := by
          simp only [List.map_cons, List.nodup_cons]
          refine ⟨?_, List.Nodup.sublist (List.Sublist.map _ (List.erase_sublist e h)) hinv1⟩
          intro hc
          obtain ⟨g, hg, hgl⟩ := List.mem_map.mp hc
          exact hlierase g hg hgl
        have hinv2' : ∀ g ∈ (⟨x, e.li⟩ : Element) :: h.erase e,
            ∀ f ∈ (streams.set e.li rest).getD g.li [],
            CompareKeys g.entry.Key f.Key < 0 := by
          intro g hg f hf
          rcases List.mem_cons.mp hg with hg1 | hg1
          · subst hg1
            rw [getD_set_self streams e.li rest hlenli] at hf
            have hpw := hinv4 e.li
            rw [hs] at hpw
            exact (List.pairwise_cons.mp hpw).1 f hf
          · rw [getD_set_ne streams e.li g.li rest (hlierase g hg1)] at hf
            exact hinv2 g (hsubh g hg1).1 f hf
        have hinv4' : ∀ i, ((streams.set e.li rest).getD i []).Pairwise
            (fun a b => CompareKeys a.Key b.Key < 0) := by
          intro i
          by_cases hieq : i = e.li
          · subst hieq
            rw [getD_set_self streams e.li rest hlenli]
            have hpw := hinv4 e.li
            rw [hs] at hpw
            exact (List.pairwise_cons.mp hpw).2
          · rw [getD_set_ne streams e.li i rest hieq]
            exact hinv4 i
        have hinv5h' : ∀ g ∈ (⟨x, e.li⟩ : Element) :: h.erase e, vkey g.entry.Key := by
          intro g hg
          rcases List.mem_cons.mp hg with hg1 | hg1
          · subst hg1; exact hxv
          · exact hinv5h g (hsubh g hg1).1
        have hinv5s' : ∀ i, ∀ f ∈ (streams.set e.li rest).getD i [], vkey f.Key := by
          intro i f hf
          by_cases hieq : i = e.li
          · subst hieq
            rw [getD_set_self streams e.li rest hlenli] at hf
            exact hinv5s e.li f (by rw [hs]; exact List.mem_cons_of_mem _ hf)
          · rw [getD_set_ne streams e.li i rest hieq] at hf
            exact hinv5s i f hf
        simp only [drainGo, hm, hs]
        refine List.pairwise_cons.mpr ⟨?_, ih (streams.set e.li rest)
          ((⟨x, e.li⟩ : Element) :: h.erase e) hfuel2 hinv3' hinv1' hinv2' hinv4'
          hinv5h' hinv5s'⟩
        intro f hf
        have hfperm := drainGo_perm fuel (streams.set e.li rest)
          ((⟨x, e.li⟩ : Element) :: h.erase e) hfuel2 hinv3'
        have hfmem := hfperm.mem_iff.mp hf
        rcases List.mem_append.mp hfmem with hf1 | hf1
        · rcases List.mem_cons.mp hf1 with hf2 | hf2
          · subst hf2
            left
            exact hex
          · exact ltE_of_lessE (helem f (hsubh f hf2).1 (hsubh f hf2).2)
        · obtain ⟨i, hilen, hfli, hfent⟩ := (mem_streamElems 0 _).mp hf1
          have hvf : vkey f.entry.Key := hinv5s' i f.entry hfent
          by_cases hieq : i = e.li
          · subst hieq
            rw [getD_set_self streams e.li rest hlenli] at hfent
            have hpw := hinv4 e.li
            rw [hs] at hpw
            have hxf : CompareKeys x.Key f.entry.Key < 0 :=
              (List.pairwise_cons.mp hpw).1 f.entry hfent
            left
            exact ckv_lt_trans hve hxv hvf hex hxf
          · rw [getD_set_ne streams e.li i rest hieq] at hfent
            have hne : streams.getD i [] ≠ [] := by
              intro hc; rw [hc] at hfent; cases hfent
            obtain ⟨g, hg, hgl⟩ := hinv3 i hne
            have hvg : vkey g.entry.Key := hinv5h g hg
            have hgf : CompareKeys g.entry.Key f.entry.Key < 0 := by
              apply hinv2 g hg
              rw [hgl]
              exact hfent
            left
            exact ck_lt_of_heap hve hvg hvf hgf (hspec g hg)

end Originium

namespace Originium

open List

theorem getD_oob {lists : List (List Entry)} {i : Nat} (h : lists.length ≤ i) :
    lists.getD i [] = [] := by
  rw [List.getD_eq_getElem?_getD, List.getElem?_eq_none (by omega)]
  rfl

theorem initTails_getD (lists : List (List Entry)) (i : Nat) :
    (initTails lists).getD i [] = (lists.getD i []).drop 1 := by
  induction lists generalizing i with
  | nil => simp [initTails, List.getD]
  | cons l rest ih =>
    cases i with
    | zero => simp [initTails, List.getD]
    | succ i =>
      simp only [initTails, List.map_cons, List.getD] at *
      simpa using ih i

theorem initHeads_li_ge : ∀ (j : Nat) (lists : List (List Entry)),
    ∀ g ∈ initHeads j lists, j ≤ g.li := by
  intro j lists
  induction lists generalizing j with
  | nil => intro g hg; simp [initHeads] at hg
  | cons l rest ih =>
    intro g hg
    cases l with
    | nil =>
      simp only [initHeads] at hg
      have := ih (j + 1) g hg
      omega
    | cons x t =>
      simp only [initHeads, List.mem_cons] at hg
      rcases hg with hg | hg
      · subst hg; exact Nat.le_refl _
      · have := ih (j + 1) g hg
        omega

theorem initHeads_li_nodup : ∀ (j : Nat) (lists : List (List Entry)),
    ((initHeads j lists).map Element.li).Nodup := by
  intro j lists
  induction lists generalizing j with
  | nil => simp [initHeads]
  | cons l rest ih =>
    cases l with
    | nil =>
      simp only [initHeads]
      exact ih (j + 1)
    | cons x t =>
      simp only [initHeads, List.map_cons, List.nodup_cons]
      refine ⟨?_, ih (j + 1)⟩
      intro hc
      obtain ⟨g, hg, hgl⟩ := List.mem_map.mp hc
      have := initHeads_li_ge (j + 1) rest g hg
      omega

theorem initHeads_mem : ∀ (j : Nat) (lists : List (List Entry)) (g : Element),
    g ∈ initHeads j lists →
    ∃ i, i < lists.length ∧ g.li = j + i ∧ ∃ t, lists.getD i [] = g.entry :: t := by
  intro j lists
  induction lists generalizing j with
  | nil => intro g hg; simp [initHeads] at hg
  | cons l rest ih =>
    intro g hg
    cases l with
    | nil =>
      simp only [initHeads] at hg
      obtain ⟨i, hi, hli, t, ht⟩ := ih (j + 1) g hg
      exact ⟨i + 1, by simpa using hi, by omega, t, by simpa using ht⟩
    | cons x t =>
      simp only [initHeads, List.mem_cons] at hg
      rcases hg with hg | hg
      · subst hg
        exact ⟨0, by simp, by simp, t, by simp [List.getD]⟩
      · obtain ⟨i, hi, hli, t2, ht⟩ := ih (j + 1) g hg
        exact ⟨i + 1, by simpa using hi, by omega, t2, by simpa using ht⟩

theorem initHeads_cover : ∀ (j i : Nat) (lists : List (List Entry)),
    lists.getD i [] ≠ [] → ∃ g ∈ initHeads j lists, g.li = j + i := by
  intro j i lists
  induction lists generalizing j i with
  | nil => intro hne; simp [List.getD] at hne
  | cons l rest ih =>
    intro hne
    cases i with
    | zero =>
      simp only [List.getD] at hne
      cases l with
      | nil => simp at hne
      | cons x t =>
        exact ⟨⟨x, j⟩, by simp [initHeads], by simp⟩
    | succ i =>
      simp only [List.getD] at hne
      have hne2 : rest.getD i [] ≠ [] := by simpa using hne
      obtain ⟨g, hg, hgl⟩ := ih (j + 1) i hne2
      cases l with
      | nil =>
        refine ⟨g, ?_, by omega⟩
        simpa [initHeads] using hg
      | cons x t =>
        refine ⟨g, ?_, by omega⟩
        simp only [initHeads, List.mem_cons]
        exact Or.inr hg

theorem initHeads_tails_perm : ∀ (j : Nat) (lists : List (List Entry)),
    initHeads j lists ++ streamElems j (initTails lists) ~ streamElems j lists := by
  intro j lists
  induction lists generalizing j with
  | nil => simp [initHeads, initTails, streamElems]
  | cons l rest ih =>
    cases l with
    | nil =>
      simp only [initHeads, initTails, List.map_cons, streamElems, List.drop_nil,
        List.map_nil, List.nil_append]
      exact ih (j + 1)
    | cons x t =>
      simp only [initHeads, initTails, List.map_cons, streamElems, List.drop_succ_cons,
        List.drop_zero, List.cons_append, List.map_cons]
      refine List.Perm.cons _ ?_
      calc initHeads (j + 1) rest ++ (t.map (fun y => (⟨y, j⟩ : Element)) ++
            streamElems (j + 1) (rest.map (fun l => l.drop 1)))
          ~ t.map (fun y => (⟨y, j⟩ : Element)) ++ (initHeads (j + 1) rest ++
            streamElems (j + 1) (rest.map (fun l => l.drop 1))) := by
            rw [← List.append_assoc, ← List.append_assoc]
            exact List.Perm.append_right _ (List.perm_append_comm)
        _ ~ t.map (fun y => (⟨y, j⟩ : Element)) ++ streamElems (j + 1) rest := by
            apply List.Perm.append_left
            exact ih (j + 1)

theorem tails_cover (lists : List (List Entry)) :
    ∀ i, (initTails lists).getD i [] ≠ [] → ∃ g ∈ initHeads 0 lists, g.li = i := by
  intro i hne
  rw [initTails_getD] at hne
  have hne2 : lists.getD i [] ≠ [] := by
    intro hc; rw [hc] at hne; exact hne rfl
  obtain ⟨g, hg, hgl⟩ := initHeads_cover 0 i lists hne2
  exact ⟨g, hg, by omega⟩

theorem drainPops_perm_elems (lists : List (List Entry)) :
    drainPops (initTails lists) (initHeads 0 lists) ~ streamElems 0 lists := by
  unfold drainPops
  calc drainGo (heapSize (initTails lists) (initHeads 0 lists)) (initTails lists)
        (initHeads 0 lists)
      ~ initHeads 0 lists ++ streamElems 0 (initTails lists) :=
        drainGo_perm _ _ _ (Nat.le_refl _) (tails_cover lists)
    _ ~ streamElems 0 lists := initHeads_tails_perm 0 lists

theorem drainPops_entries_perm (lists : List (List Entry)) :
    (drainPops (initTails lists) (initHeads 0 lists)).map Element.entry ~ lists.flatten := by
  have h := (drainPops_perm_elems lists).map Element.entry
  rw [streamElems_entries] at h
  exact h

theorem drainPops_sorted (lists : List (List Entry))
    (hsort : ∀ i, (lists.getD i []).Pairwise (fun a b => CompareKeys a.Key b.Key < 0))
    (hvk : ∀ i, ∀ e ∈ lists.getD i [], vkey e.Key) :
    (drainPops (initTails lists) (initHeads 0 lists)).Pairwise ltE := by
  unfold drainPops
  apply drainGo_sorted _ _ _ (Nat.le_refl _) (tails_cover lists)
    (initHeads_li_nodup 0 lists)
  · intro g hg f hf
    obtain ⟨i, hi, hli, t, ht⟩ := initHeads_mem 0 lists g hg
    rw [initTails_getD, hli, (by omega : 0 + i = i), ht] at hf
    simp only [List.drop_succ_cons, List.drop_zero] at hf
    have hpw := hsort i
    rw [ht] at hpw
    exact (List.pairwise_cons.mp hpw).1 f hf
  · intro i
    rw [initTails_getD]
    exact List.Pairwise.sublist (List.drop_sublist 1 _) (hsort i)
  · intro g hg
    obtain ⟨i, hi, hli, t, ht⟩ := initHeads_mem 0 lists g hg
    apply hvk i
    rw [ht]
    exact List.mem_cons_self _ _
  · intro i f hf
    rw [initTails_getD] at hf
    exact hvk i f (List.mem_of_mem_drop hf)

theorem mem_flatten_of_getD : ∀ (lists : List (List Entry)) (i : Nat),
    ∀ e ∈ lists.getD i [], e ∈ lists.flatten := by
  intro lists
  induction lists with
  | nil => intro i e he; simp [List.getD] at he
  | cons l rest ih =>
    intro i e he
    cases i with
    | zero =>
      simp only [List.getD] at he
      simp only [List.flatten_cons, List.mem_append]
      exact Or.inl (by simpa using he)
    | succ i =>
      simp only [List.getD] at he
      simp only [List.flatten_cons, List.mem_append]
      exact Or.inr (ih i e (by simpa using he))

end Originium

namespace Originium

/-- lookupA is map lookup on the association list modelling the Go map. -/
def lookupA : List (Str × Entry) → Str → Option Entry
  | [], _ => none
  | p :: m, k => if p.1 = k then some p.2 else lookupA m k

theorem lookupA_map_repl : ∀ (t : List (Str × Entry)) (k k' : Str) (v : Entry),
    k' ≠ k →
    lookupA (t.map (fun q => if q.1 = k then (k, v) else q)) k' = lookupA t k' := by
  intro t k k' v hne
  induction t with
  | nil => rfl
  | cons q t ih =>
    by_cases hq : q.1 = k
    · simp only [List.map_cons, if_pos hq, lookupA]
      rw [if_neg (fun h => hne h.symm), if_neg (by rw [hq]; exact fun h => hne h.symm)]
      exact ih
    · simp only [List.map_cons, if_neg hq, lookupA]
      by_cases hq' : q.1 = k'
      · rw [if_pos hq', if_pos hq']
      · rw [if_neg hq', if_neg hq']
        exact ih

theorem lookupA_map_repl_self : ∀ (t : List (Str × Entry)) (k : Str) (v : Entry),
    t.any (fun q => q.1 = k) = true →
    lookupA (t.map (fun q => if q.1 = k then (k, v) else q)) k = some v := by
  intro t k v hany
  induction t with
  | nil => simp at hany
  | cons q t ih =>
    by_cases hq : q.1 = k
    · simp [List.map_cons, if_pos hq, lookupA]
    · simp only [List.any_cons, Bool.or_eq_true, decide_eq_true_eq] at hany
      rcases hany with hany | hany
      · exact absurd hany hq
      · simp only [List.map_cons, if_neg hq, lookupA, if_neg hq]
        exact ih hany

theorem lookupA_append_single : ∀ (t : List (Str × Entry)) (k k' : Str) (v : Entry),
    lookupA (t ++ [(k, v)]) k' =
      match lookupA t k' with
      | some w => some w
      | none => if k = k' then some v else none := by
  intro t k k' v
  induction t with
  | nil => rfl
  | cons q t ih =>
    show (if q.1 = k' then some q.2 else lookupA (t ++ [(k, v)]) k') = _
    by_cases hq : q.1 = k'
    · rw [if_pos hq]
      show _ = (match if q.1 = k' then some q.2 else lookupA t k' with
        | some w => some w
        | none => if k = k' then some v else none)
      rw [if_pos hq]
    · rw [if_neg hq, ih]
      show _ = (match if q.1 = k' then some q.2 else lookupA t k' with
        | some w => some w
        | none => if k = k' then some v else none)
      rw [if_neg hq]

theorem lookupA_eq_none (m : List (Str × Entry)) (k : Str)
    (h : ∀ p ∈ m, p.1 ≠ k) : lookupA m k = none := by
  induction m with
  | nil => rfl
  | cons q t ih =>
    show (if q.1 = k then some q.2 else lookupA t k) = none
    rw [if_neg (h q (List.mem_cons_self _ _))]
    exact ih (fun p hp => h p (List.mem_cons_of_mem _ hp))

theorem lookupA_updA_self (m : List (Str × Entry)) (k : Str) (v : Entry) :
    lookupA (updA m k v) k = some v := by
  unfold updA
  by_cases hany : m.any (fun q => q.1 = k)
  · rw [if_pos hany]
    exact lookupA_map_repl_self m k v hany
  · rw [if_neg hany, lookupA_append_single]
    have hall : ∀ p ∈ m, p.1 ≠ k := by
      intro p hp
      rw [Bool.not_eq_true, List.any_eq_false] at hany
      simpa using hany p hp
    rw [lookupA_eq_none m k hall]
    simp

theorem lookupA_updA_ne (m : List (Str × Entry)) (k k' : Str) (v : Entry)
    (hne : k' ≠ k) : lookupA (updA m k v) k' = lookupA m k' := by
  unfold updA
  by_cases hany : m.any (fun q => q.1 = k)
  · rw [if_pos hany]
    exact lookupA_map_repl m k k' v hne
  · rw [if_neg hany, lookupA_append_single]
    cases h : lookupA m k' with
    | some w => rfl
    | none =>
      show (if k = k' then some v else none) = none
      rw [if_neg (fun h => hne h.symm)]

theorem updA_snd_key (m : List (Str × Entry)) (k : Str) (v : Entry)
    (hm : ∀ p ∈ m, p.2.Key = p.1) (hv : v.Key = k) :
    ∀ p ∈ updA m k v, p.2.Key = p.1 := by
  intro p hp
  unfold updA at hp
  by_cases ht : m.any (fun q => q.1 = k)
  · rw [if_pos ht] at hp
    obtain ⟨q, hq, hqp⟩ := List.mem_map.mp hp
    by_cases hqk : q.1 = k
    · rw [if_pos hqk] at hqp
      rw [← hqp]
      exact hv
    · rw [if_neg hqk] at hqp
      rw [← hqp]
      exact hm q hq
  · rw [if_neg ht] at hp
    rcases List.mem_append.mp hp with hp1 | hp1
    · exact hm p hp1
    · have : p = (k, v) := by simpa using hp1
      rw [this]
      exact hv

theorem updA_keys (m : List (Str × Entry)) (k : Str) (v : Entry) :
    (updA m k v).map Prod.fst =
      if m.any (fun q => q.1 = k) then m.map Prod.fst else m.map Prod.fst ++ [k] := by
  unfold updA
  by_cases ht : m.any (fun q => q.1 = k)
  · rw [if_pos ht, if_pos ht, List.map_map]
    apply List.map_congr_left
    intro q hq
    simp only [Function.comp]
    by_cases hqk : q.1 = k
    · rw [if_pos hqk]
      exact hqk.symm
    · rw [if_neg hqk]
  · rw [if_neg ht, if_neg ht, List.map_append]
    rfl

theorem updA_keys_nodup (m : List (Str × Entry)) (k : Str) (v : Entry)
    (hm : (m.map Prod.fst).Nodup) : ((updA m k v).map Prod.fst).Nodup := by
  rw [updA_keys]
  by_cases ht : m.any (fun q => q.1 = k)
  · rw [if_pos ht]
    exact hm
  · rw [if_neg ht]
    rw [Bool.not_eq_true, List.any_eq_false] at ht
    simp only [List.nodup_append, List.nodup_cons, List.nodup_nil]
    refine ⟨hm, by simp, ?_⟩
    intro a ha hb
    have hak : a = k := by simpa using hb
    obtain ⟨q, hq, hqa⟩ := List.mem_map.mp ha
    have hq1 : q.1 = k := by rw [hqa, hak]
    have hnk : ¬ q.1 = k := by simpa using ht q hq
    exact hnk hq1

theorem foldl_updA_wf : ∀ (pops : List Element) (m : List (Str × Entry)),
    (∀ p ∈ m, p.2.Key = p.1) →
    ∀ p ∈ pops.foldl (fun m e => updA m e.entry.Key e.entry) m, p.2.Key = p.1 := by
  intro pops
  induction pops with
  | nil => intro m hm; simpa using hm
  | cons e rest ih =>
    intro m hm
    simp only [List.foldl_cons]
    exact ih _ (updA_snd_key m e.entry.Key e.entry hm rfl)

theorem foldl_updA_nodup : ∀ (pops : List Element) (m : List (Str × Entry)),
    (m.map Prod.fst).Nodup →
    ((pops.foldl (fun m e => updA m e.entry.Key e.entry) m).map Prod.fst).Nodup := by
  intro pops
  induction pops with
  | nil => intro m hm; simpa using hm
  | cons e rest ih =>
    intro m hm
    simp only [List.foldl_cons]
    exact ih _ (updA_keys_nodup m e.entry.Key e.entry hm)

theorem getLast?_map_entry : ∀ (l : List Element),
    (l.map Element.entry).getLast? = l.getLast?.map Element.entry := by
  intro l
  induction l with
  | nil => rfl
  | cons a t ih =>
    cases t with
    | nil => rfl
    | cons b t2 =>
      simp only [List.map_cons] at *
      rw [List.getLast?_cons_cons, List.getLast?_cons_cons]
      exact ih

theorem foldl_updA_lookup : ∀ (pops : List Element) (m : List (Str × Entry)) (k : Str),
    lookupA (pops.foldl (fun m e => updA m e.entry.Key e.entry) m) k =
      match ((pops.filter (fun e => decide (e.entry.Key = k))).map Element.entry).getLast? with
      | some v => some v
      | none => lookupA m k := by
  intro pops
  induction pops with
  | nil => intro m k; rfl
  | cons e rest ih =>
    intro m k
    simp only [List.foldl_cons]
    rw [ih]
    by_cases he : e.entry.Key = k
    · have hfc : (e :: rest).filter (fun e => decide (e.entry.Key = k)) =
          e :: rest.filter (fun e => decide (e.entry.Key = k)) := by
        simp [List.filter_cons, he]
      rw [hfc, List.map_cons]
      cases hr : (rest.filter (fun e => decide (e.entry.Key = k))).map Element.entry with
      | nil =>
        simp only [List.getLast?_nil, List.getLast?_singleton]
        rw [← he]
        exact lookupA_updA_self m e.entry.Key e.entry
      | cons y t =>
        obtain ⟨w, hw⟩ : ∃ w, (y :: t).getLast? = some w :=
          ⟨(y :: t).getLast (by simp), List.getLast?_eq_getLast _ (by simp)⟩
        rw [List.getLast?_cons_cons, hw]
    · have hfc : (e :: rest).filter (fun e => decide (e.entry.Key = k)) =
          rest.filter (fun e => decide (e.entry.Key = k)) := by
        simp [List.filter_cons, he]
      rw [hfc]
      cases hr : (rest.filter (fun e => decide (e.entry.Key = k))).map Element.entry with
      | nil =>
        simp only [List.getLast?_nil]
        exact lookupA_updA_ne m e.entry.Key k e.entry (fun h => he h.symm)
      | cons y t => rfl

theorem lookupA_filter : ∀ (m : List (Str × Entry)),
    ((m.map Prod.fst).Nodup) → (∀ p ∈ m, p.2.Key = p.1) → ∀ k,
    (m.map Prod.snd).filter (fun e => decide (e.Key = k)) =
      match lookupA m k with | some w => [w] | none => [] := by
  intro m
  induction m with
  | nil => intro _ _ k; rfl
  | cons p t ih =>
    intro hnd hwf k
    simp only [List.map_cons, List.nodup_cons] at hnd
    have hpk : p.2.Key = p.1 := hwf p (List.mem_cons_self _ _)
    have hlk : lookupA (p :: t) k = if p.1 = k then some p.2 else lookupA t k := rfl
    by_cases hp : p.1 = k
    · have hfilter_t : (t.map Prod.snd).filter (fun e => decide (e.Key = k)) = [] := by
        apply List.filter_eq_nil_iff.mpr
        intro v hv
        obtain ⟨q, hq, hqv⟩ := List.mem_map.mp hv
        have hqk : q.2.Key = q.1 := hwf q (List.mem_cons_of_mem _ hq)
        simp only [decide_eq_true_eq]
        intro hc
        rw [← hqv] at hc
        have hmem : p.1 ∈ t.map Prod.fst := by
          rw [hp, ← hc, hqk]
          exact List.mem_map_of_mem Prod.fst hq
        exact hnd.1 hmem
      have hhead : decide (p.2.Key = k) = true := by
        rw [hpk, hp]
        simp
      show List.filter _ (p.2 :: t.map Prod.snd) = _
      rw [List.filter_cons, hhead, if_pos rfl, hfilter_t, hlk, if_pos hp]
    · have hhead : decide (p.2.Key = k) = false := by
        rw [hpk]
        simpa using hp
      show List.filter _ (p.2 :: t.map Prod.snd) = _
      rw [List.filter_cons, hhead, if_neg (by simp), hlk, if_neg hp]
      exact ih hnd.2 (fun q hq => hwf q (List.mem_cons_of_mem _ hq)) k

theorem foldl_updA_append : ∀ (pops : List Element) (m : List (Str × Entry)),
    (∀ e ∈ pops, ∀ p ∈ m, p.1 ≠ e.entry.Key) →
    ((pops.map (fun e => e.entry.Key)).Nodup) →
    pops.foldl (fun m e => updA m e.entry.Key e.entry) m =
      m ++ pops.map (fun e => (e.entry.Key, e.entry)) := by
  intro pops
  induction pops with
  | nil => intro m _ _; simp
  | cons e rest ih =>
    intro m hdisj hnd
    simp only [List.foldl_cons]
    have hany : m.any (fun q => q.1 = e.entry.Key) = false := by
      rw [List.any_eq_false]
      intro q hq
      simpa using hdisj e (List.mem_cons_self _ _) q hq
    have hupd : updA m e.entry.Key e.entry = m ++ [(e.entry.Key, e.entry)] := by
      unfold updA
      rw [if_neg (by simp [hany])]
    rw [hupd]
    simp only [List.map_cons, List.nodup_cons] at hnd
    rw [ih (m ++ [(e.entry.Key, e.entry)]) ?_ hnd.2]
    · simp
    · intro f hf p hp
      rcases List.mem_append.mp hp with hp1 | hp1
      · exact hdisj f (List.mem_cons_of_mem _ hf) p hp1
      · have hpe : p = (e.entry.Key, e.entry) := by simpa using hp1
        rw [hpe]
        intro hc
        have hc' : e.entry.Key = f.entry.Key := hc
        exact hnd.1 (by rw [hc']; exact List.mem_map_of_mem _ hf)

end Originium

namespace Originium

open List

instance : IsTotal Entry plainLe := ⟨fun a b => strCmp_total a.Key b.Key⟩

instance : IsTrans Entry plainLe := ⟨fun _ _ _ => strCmp_le_trans⟩

theorem plainLe_antisymm_key {a b : Entry} (hab : plainLe a b) (hba : plainLe b a) :
    a.Key = b.Key := by
  unfold plainLe at hab hba
  have h := strCmp_antisymm a.Key b.Key
  have : strCmp a.Key b.Key = 0 := by omega
  exact strCmp_eq_zero_iff.mp this

theorem sorted_perm_eq : ∀ (l1 l2 : List Entry), l1 ~ l2 →
    l1.Pairwise plainLe → l2.Pairwise plainLe →
    ((l1.map Entry.Key).Nodup) → l1 = l2 := by
  intro l1
  induction l1 with
  | nil =>
    intro l2 hp _ _ _
    exact (hp.nil_eq).symm.symm ▸ (List.Perm.nil_eq hp).symm
  | cons a t1 ih =>
    intro l2 hp hs1 hs2 hnd
    cases l2 with
    | nil => exact absurd hp.symm.nil_eq (by simp)
    | cons b t2 =>
      have hab : a = b := by
        by_contra hne
        have hain : a ∈ b :: t2 := hp.mem_iff.mp (List.mem_cons_self _ _)
        have hbin : b ∈ a :: t1 := hp.symm.mem_iff.mp (List.mem_cons_self _ _)
        have hat2 : a ∈ t2 := by
          rcases List.mem_cons.mp hain with h | h
          · exact absurd h hne
          · exact h
        have hbt1 : b ∈ t1 := by
          rcases List.mem_cons.mp hbin with h | h
          · exact absurd h.symm hne
          · exact h
        have h1 : plainLe a b := (List.pairwise_cons.mp hs1).1 b hbt1
        have h2 : plainLe b a := (List.pairwise_cons.mp hs2).1 a hat2
        have hkey : a.Key = b.Key := plainLe_antisymm_key h1 h2
        simp only [List.map_cons, List.nodup_cons] at hnd
        exact hnd.1 (hkey ▸ List.mem_map_of_mem Entry.Key hbt1)
      subst hab
      have htail : t1 ~ t2 := hp.cons_inv
      simp only [List.map_cons, List.nodup_cons] at hnd
      rw [ih t2 htail (List.pairwise_cons.mp hs1).2 (List.pairwise_cons.mp hs2).2 hnd.2]

theorem pairwise_key_inj : ∀ (l : List Entry),
    l.Pairwise (fun a b => CompareKeys a.Key b.Key < 0) →
    ∀ a ∈ l, ∀ b ∈ l, a.Key = b.Key → a = b := by
  intro l
  induction l with
  | nil => intro _ a ha; simp at ha
  | cons x t ih =>
    intro hpw a ha b hb hk
    have hpc := List.pairwise_cons.mp hpw
    rcases List.mem_cons.mp ha with ha1 | ha1 <;> rcases List.mem_cons.mp hb with hb1 | hb1
    · rw [ha1, hb1]
    · subst ha1
      have := hpc.1 b hb1
      rw [hk, ck_self] at this
      omega
    · subst hb1
      have := hpc.1 a ha1
      rw [hk, ck_self] at this
      omega
    · exact ih hpc.2 a ha1 b hb1 hk

theorem getLast_of_max : ∀ (l : List Element) (g : Element),
    l.Pairwise (fun a b => a.li < b.li) → g ∈ l → (∀ f ∈ l, f.li ≤ g.li) →
    l.getLast? = some g := by
  intro l
  induction l with
  | nil => intro g _ hg; simp at hg
  | cons a t ih =>
    intro g hpw hg hle
    cases t with
    | nil =>
      have : g = a := by simpa using hg
      rw [this]
      rfl
    | cons b t2 =>
      have hpc := List.pairwise_cons.mp hpw
      have hgt : g ∈ b :: t2 := by
        rcases List.mem_cons.mp hg with hg1 | hg1
        · exfalso
          have hab : a.li < b.li := hpc.1 b (List.mem_cons_self _ _)
          have hba : b.li ≤ g.li := hle b (List.mem_cons_of_mem _ (List.mem_cons_self _ _))
          rw [hg1] at hba
          omega
        · exact hg1
      rw [List.getLast?_cons_cons]
      exact ih g hpc.2 hgt (fun f hf => hle f (List.mem_cons_of_mem _ hf))

end Originium

namespace Originium

open List

instance (k : Str) : Decidable (vkey k) := by
  unfold vkey
  infer_instance

/-- C2: k-way merge correctness of kway.Merge (src/pkg/kway/merge.go).
(a) Union: for streams whose versioned keys are globally distinct and that
contain no tombstones, Merge returns exactly the sorted union of all input
entries (sorted by the plain bytewise key order its final sort uses).
(b) Newest wins: for sorted streams of versioned keys with no tombstones,
if entry w occurs in stream j and no stream with a larger index contains
an entry with the same versioned key, then the output contains exactly one
entry with that versioned key, namely w — the occurrence from the
largest-indexed stream wins, because the heap pops equal keys in ascending
stream order and the latest-map write of the last pop survives. -/
theorem C2_merge_spec :
    (∀ lists : List (List Entry),
      ((lists.flatten.map Entry.Key).Nodup) →
      (∀ e ∈ lists.flatten, e.Tombstone = false) →
      Merge lists = List.insertionSort plainLe lists.flatten) ∧
    (∀ (lists : List (List Entry)) (j : Nat) (w : Entry),
      (∀ i, i < lists.length →
        (lists.getD i []).Pairwise (fun a b => CompareKeys a.Key b.Key < 0)) →
      (∀ i, i < lists.length → ∀ e ∈ lists.getD i [], vkey e.Key) →
      (∀ e ∈ lists.flatten, e.Tombstone = false) →
      j < lists.length →
      w ∈ lists.getD j [] →
      (∀ i, i < lists.length → j < i → ∀ e ∈ lists.getD i [], e.Key ≠ w.Key) →
      (Merge lists).filter (fun e => decide (e.Key = w.Key)) = [w]) := by
  constructor
  · intro lists hnd htomb
    have hperm : (drainPops (initTails lists) (initHeads 0 lists)).map Element.entry ~
        lists.flatten := drainPops_entries_perm lists
    have hkeys : ((drainPops (initTails lists) (initHeads 0 lists)).map
        (fun e => e.entry.Key)).Nodup := by
      have hmm : (drainPops (initTails lists) (initHeads 0 lists)).map
          (fun e => e.entry.Key) =
          ((drainPops (initTails lists) (initHeads 0 lists)).map Element.entry).map
            Entry.Key := by
        rw [List.map_map]
        rfl
      rw [hmm]
      exact ((hperm.map Entry.Key).nodup_iff).mpr hnd
    have hfold := foldl_updA_append (drainPops (initTails lists) (initHeads 0 lists)) []
      (by intro e he p hp; simp at hp) hkeys
    show List.insertionSort plainLe
      (((((drainPops (initTails lists) (initHeads 0 lists)).foldl
        (fun m e => updA m e.entry.Key e.entry) [])).map Prod.snd).filter
        (fun e => !e.Tombstone)) = List.insertionSort plainLe lists.flatten
    rw [hfold, List.nil_append]
    have hsnd : ((drainPops (initTails lists) (initHeads 0 lists)).map
        (fun e => (e.entry.Key, e.entry))).map Prod.snd =
        (drainPops (initTails lists) (initHeads 0 lists)).map Element.entry := by
      rw [List.map_map]
      rfl
    rw [hsnd]
    have hfl : ((drainPops (initTails lists) (initHeads 0 lists)).map
        Element.entry).filter (fun e => !e.Tombstone) =
        (drainPops (initTails lists) (initHeads 0 lists)).map Element.entry := by
      apply List.filter_eq_self.mpr
      intro e he
      have : e ∈ lists.flatten := hperm.mem_iff.mp he
      simp [htomb e this]
    rw [hfl]
    apply sorted_perm_eq
    · exact (List.perm_insertionSort plainLe _).trans
        (hperm.trans (List.perm_insertionSort plainLe _).symm)
    · exact List.sorted_insertionSort plainLe _
    · exact List.sorted_insertionSort plainLe _
    · have hmm2 : ((List.insertionSort plainLe ((drainPops (initTails lists)
          (initHeads 0 lists)).map Element.entry)).map Entry.Key).Nodup ↔
          (((drainPops (initTails lists) (initHeads 0 lists)).map Element.entry).map
            Entry.Key).Nodup :=
        ((List.perm_insertionSort plainLe _).map Entry.Key).nodup_iff
      apply hmm2.mpr
      have hmm3 : ((drainPops (initTails lists) (initHeads 0 lists)).map
          Element.entry).map Entry.Key = (drainPops (initTails lists)
          (initHeads 0 lists)).map (fun e => e.entry.Key) := by
        rw [List.map_map]
        rfl
      rw [hmm3]
      exact hkeys
  · intro lists j w hsortB hvkB htomb hj hw hnol
    have hsort' : ∀ i, (lists.getD i []).Pairwise
        (fun a b => CompareKeys a.Key b.Key < 0) := by
      intro i
      by_cases hi : i < lists.length
      · exact hsortB i hi
      · rw [getD_oob (by omega)]
        exact List.Pairwise.nil
    have hvk' : ∀ i, ∀ e ∈ lists.getD i [], vkey e.Key := by
      intro i e he
      by_cases hi : i < lists.length
      · exact hvkB i hi e he
      · rw [getD_oob (by omega)] at he
        cases he
    have hsorted := drainPops_sorted lists hsort' hvk'
    have hpermE := drainPops_perm_elems lists
    have hwel : (⟨w, j⟩ : Element) ∈ drainPops (initTails lists) (initHeads 0 lists) := by
      apply hpermE.mem_iff.mpr
      apply (mem_streamElems 0 lists).mpr
      exact ⟨j, hj, by simp, by simpa using hw⟩
    have hflpw : ((drainPops (initTails lists) (initHeads 0 lists)).filter
        (fun e => decide (e.entry.Key = w.Key))).Pairwise ltE :=
      hsorted.filter _
    have hflkeys : ∀ f ∈ (drainPops (initTails lists) (initHeads 0 lists)).filter
        (fun e => decide (e.entry.Key = w.Key)), f.entry.Key = w.Key := by
      intro f hf
      have := (List.mem_filter.mp hf).2
      simpa using this
    have hfl_li : ((drainPops (initTails lists) (initHeads 0 lists)).filter
        (fun e => decide (e.entry.Key = w.Key))).Pairwise (fun a b => a.li < b.li) := by
      apply List.Pairwise.imp_of_mem ?_ hflpw
      intro a b ha hb hab
      rcases hab with h | h
      · rw [hflkeys a ha, hflkeys b hb, ck_self] at h
        omega
      · exact h.2
    have hfl_le : ∀ f ∈ (drainPops (initTails lists) (initHeads 0 lists)).filter
        (fun e => decide (e.entry.Key = w.Key)), f.li ≤ j := by
      intro f hf
      have hfp : f ∈ drainPops (initTails lists) (initHeads 0 lists) :=
        (List.mem_filter.mp hf).1
      obtain ⟨i, hi, hli, hent⟩ := (mem_streamElems 0 lists).mp (hpermE.mem_iff.mp hfp)
      by_contra hgt
      push_neg at hgt
      have hkey : f.entry.Key = w.Key := hflkeys f hf
      exact hnol i hi (by omega) f.entry hent hkey
    have hflmem : (⟨w, j⟩ : Element) ∈ (drainPops (initTails lists)
        (initHeads 0 lists)).filter (fun e => decide (e.entry.Key = w.Key)) :=
      List.mem_filter.mpr ⟨hwel, by simp⟩
    have hlast : ((drainPops (initTails lists) (initHeads 0 lists)).filter
        (fun e => decide (e.entry.Key = w.Key))).getLast? = some ⟨w, j⟩ :=
      getLast_of_max _ _ hfl_li hflmem hfl_le
    have hlook : lookupA ((drainPops (initTails lists) (initHeads 0 lists)).foldl
        (fun m e => updA m e.entry.Key e.entry) []) w.Key = some w := by
      rw [foldl_updA_lookup, getLast?_map_entry, hlast]
      rfl
    have hwfL := foldl_updA_wf (drainPops (initTails lists) (initHeads 0 lists)) []
      (by intro p hp; simp at hp)
    have hndL := foldl_updA_nodup (drainPops (initTails lists) (initHeads 0 lists)) []
      (by simp)
    have hlatest : ((((drainPops (initTails lists) (initHeads 0 lists)).foldl
        (fun m e => updA m e.entry.Key e.entry) []).map Prod.snd).filter
        (fun e => decide (e.Key = w.Key))) = [w] := by
      rw [lookupA_filter _ hndL hwfL w.Key, hlook]
    have hw_flat : w ∈ lists.flatten := mem_flatten_of_getD lists j w hw
    have hwt : w.Tombstone = false := htomb w hw_flat
    show (List.insertionSort plainLe ((((drainPops (initTails lists)
        (initHeads 0 lists)).foldl (fun m e => updA m e.entry.Key e.entry) []).map
        Prod.snd).filter (fun e => !e.Tombstone))).filter
        (fun e => decide (e.Key = w.Key)) = [w]
    have hperm2 := (List.perm_insertionSort plainLe
      ((((drainPops (initTails lists) (initHeads 0 lists)).foldl
        (fun m e => updA m e.entry.Key e.entry) []).map Prod.snd).filter
        (fun e => !e.Tombstone))).filter (fun e => decide (e.Key = w.Key))
    have hcomm : (((((drainPops (initTails lists) (initHeads 0 lists)).foldl
        (fun m e => updA m e.entry.Key e.entry) []).map Prod.snd).filter
        (fun e => !e.Tombstone)).filter (fun e => decide (e.Key = w.Key))) =
        (((((drainPops (initTails lists) (initHeads 0 lists)).foldl
        (fun m e => updA m e.entry.Key e.entry) []).map Prod.snd).filter
        (fun e => decide (e.Key = w.Key))).filter (fun e => !e.Tombstone)) :=
      List.filter_comm _ _ _
    rw [hcomm, hlatest] at hperm2
    have hfinal : (List.filter (fun e => !e.Tombstone) [w]) = [w] := by
      simp [hwt]
    rw [hfinal] at hperm2
    exact List.perm_singleton.mp hperm2

/-- Witness for C2 at concrete inputs: the merge of the singleton streams
a at 1 and b at 1 is their plain-sorted union, and merging two streams that
both hold key a at 1 keeps exactly the entry of the higher-indexed stream. -/
theorem C2_merge_spec_witness :
    Merge [[⟨[97, 64, 49], [49], false, 0⟩], [⟨[98, 64, 49], [50], false, 0⟩]] =
      List.insertionSort plainLe
        ([[⟨[97, 64, 49], [49], false, 0⟩], [⟨[98, 64, 49], [50], false, 0⟩]] :
          List (List Entry)).flatten ∧
    (Merge [[⟨[97, 64, 49], [49], false, 0⟩], [⟨[97, 64, 49], [50], false, 0⟩]]).filter
      (fun e => decide (e.Key = (⟨[97, 64, 49], [50], false, 0⟩ : Entry).Key)) =
      [⟨[97, 64, 49], [50], false, 0⟩] := by
  constructor
  · exact C2_merge_spec.1 _ (by decide) (by decide)
  · exact C2_merge_spec.2 [[⟨[97, 64, 49], [49], false, 0⟩], [⟨[97, 64, 49], [50], false, 0⟩]]
      1 ⟨[97, 64, 49], [50], false, 0⟩ (by decide) (by decide) (by decide) (by decide)
      (by decide) (by decide)

end Originium

namespace Originium

theorem vkey_parseKeyGo {k : Str} (h : vkey k) : ParseKeyGo k = some (userPart k) := by
  unfold vkey at h
  unfold ParseKeyGo userPart
  cases hl : lastIndexAt k with
  | none => exact absurd hl h
  | some i => rfl

theorem assoc_key_inj {m : List (Str × Entry)} (hnd : (m.map Prod.fst).Nodup)
    {p q : Str × Entry} (hp : p ∈ m) (hq : q ∈ m) (hk : p.1 = q.1) : p = q := by
  induction m with
  | nil => cases hp
  | cons r t ih =>
    simp only [List.map_cons, List.nodup_cons] at hnd
    rcases List.mem_cons.mp hp with hp1 | hp1 <;> rcases List.mem_cons.mp hq with hq1 | hq1
    · rw [hp1, hq1]
    · exfalso
      apply hnd.1
      have : r.1 = q.1 := by rw [← hp1]; exact hk
      rw [this]
      exact List.mem_map_of_mem Prod.fst hq1
    · exfalso
      apply hnd.1
      have : r.1 = p.1 := by rw [← hq1]; exact hk.symm
      rw [this]
      exact List.mem_map_of_mem Prod.fst hp1
    · exact ih hnd.2 hp1 hq1

end Originium

namespace Originium

theorem updA_mem_cases2 (m : List (Str × Entry)) (k : Str) (v : Entry) :
    ∀ p ∈ updA m k v, (p ∈ m ∧ p.1 ≠ k) ∨ p = (k, v) := by
  intro p hp
  unfold updA at hp
  by_cases hany : m.any (fun q => q.1 = k)
  · rw [if_pos hany] at hp
    obtain ⟨q, hq, hqp⟩ := List.mem_map.mp hp
    by_cases hqk : q.1 = k
    · rw [if_pos hqk] at hqp
      exact Or.inr hqp.symm
    · rw [if_neg hqk] at hqp
      exact Or.inl ⟨hqp ▸ hq, hqp ▸ hqk⟩
  · rw [if_neg hany] at hp
    rcases List.mem_append.mp hp with hp1 | hp1
    · refine Or.inl ⟨hp1, ?_⟩
      rw [Bool.not_eq_true, List.any_eq_false] at hany
      simpa using hany p hp1
    · exact Or.inr (by simpa using hp1)

theorem updA_mem_of_ne (m : List (Str × Entry)) (k : Str) (v : Entry)
    (p : Str × Entry) (hp : p ∈ m) (hne : p.1 ≠ k) : p ∈ updA m k v := by
  unfold updA
  by_cases hany : m.any (fun q => q.1 = k)
  · rw [if_pos hany]
    have : p = (fun q => if q.1 = k then (k, v) else q) p := by
      simp only [if_neg hne]
    rw [this]
    exact List.mem_map_of_mem _ hp
  · rw [if_neg hany]
    exact List.mem_append.mpr (Or.inl hp)

theorem updA_mem_self (m : List (Str × Entry)) (k : Str) (v : Entry) :
    (k, v) ∈ updA m k v := by
  unfold updA
  by_cases hany : m.any (fun q => q.1 = k)
  · rw [if_pos hany]
    obtain ⟨q, hq, hqk⟩ : ∃ q ∈ m, q.1 = k := by
      rw [List.any_eq_true] at hany
      obtain ⟨q, hq, hqk⟩ := hany
      exact ⟨q, hq, by simpa using hqk⟩
    apply List.mem_map.mpr
    refine ⟨q, hq, ?_⟩
    simp only [if_pos hqk]
  · rw [if_neg hany]
    exact List.mem_append.mpr (Or.inr (List.mem_cons_self _ _))

theorem lookupA_mem : ∀ (m : List (Str × Entry)) (k : Str) (v : Entry),
    lookupA m k = some v → (k, v) ∈ m := by
  intro m k v h
  induction m with
  | nil => cases h
  | cons q t ih =>
    by_cases hq : q.1 = k
    · have : lookupA (q :: t) k = some q.2 := by
        show (if q.1 = k then some q.2 else lookupA t k) = some q.2
        rw [if_pos hq]
      rw [this] at h
      have hv : v = q.2 := by
        injection h with h2
        exact h2.symm
      have : q = (k, v) := by
        rw [hv, ← hq]
      rw [← this]
      exact List.mem_cons_self _ _
    · have : lookupA (q :: t) k = lookupA t k := by
        show (if q.1 = k then some q.2 else lookupA t k) = lookupA t k
        rw [if_neg hq]
      rw [this] at h
      exact List.mem_cons_of_mem _ (ih h)

theorem lookupA_none_key : ∀ (m : List (Str × Entry)) (k : Str),
    lookupA m k = none → ∀ p ∈ m, p.1 ≠ k := by
  intro m k h p hp
  induction m with
  | nil => cases hp
  | cons q t ih =>
    have hq : q.1 ≠ k := by
      intro hc
      have : lookupA (q :: t) k = some q.2 := by
        show (if q.1 = k then some q.2 else lookupA t k) = some q.2
        rw [if_pos hc]
      rw [this] at h
      cases h
    have ht : lookupA t k = none := by
      have : lookupA (q :: t) k = lookupA t k := by
        show (if q.1 = k then some q.2 else lookupA t k) = lookupA t k
        rw [if_neg hq]
      rw [← this]
      exact h
    rcases List.mem_cons.mp hp with hp1 | hp1
    · rw [hp1]
      exact hq
    · exact ih ht hp1

end Originium

namespace Originium

/-- ckLe is the comparator order used by discardStaleEntries' final sort:
types.CompareKeys at most zero. -/
def ckLe (a b : Entry) : Prop := CompareKeys a.Key b.Key ≤ 0

instance : DecidableRel ckLe := fun a b => by
  unfold ckLe
  infer_instance

/-- dseLoop models the entry loop of levelManager.discardStaleEntries
(src/level.go lines 543-560): entries with timestamp above the horizon go
straight to res, entries at or below it feed the per-user-key latest map
(kept only if strictly newer than the recorded one).  ParseKey panics on a
key without '@' (none). -/
def dseLoop : List Entry → Nat → List Entry → List (Str × Entry) →
    Option (List Entry × List (Str × Entry))
  | [], _, res, latest => some (res, latest)
  | e :: rest, low, res, latest =>
    match ParseKeyGo e.Key with
    | none => none
    | some key =>
      if ParseTs e.Key > low then dseLoop rest low (res ++ [e]) latest
      else
        match lookupA latest key with
        | some maxEntry =>
          if ParseTs e.Key > ParseTs maxEntry.Key then
            dseLoop rest low res (updA latest key e)
          else dseLoop rest low res latest
        | none => dseLoop rest low res (updA latest key e)

/-- discardStaleEntries models levelManager.discardStaleEntries
(src/level.go lines 535-571), with the horizon low =
oracle.discardAtOrBelow() passed as a parameter: when low is zero the
input is returned unchanged; otherwise the loop above runs and res plus
the latest-map values are sorted with types.CompareKeys (the Go map's
iteration order before the sort is modelled by the association list's
insertion order; slices.SortFunc is modelled by insertion sort). -/
def discardStaleEntries (low : Nat) (entries : List Entry) : Option (List Entry) :=
  if low = 0 then some entries
  else
    match dseLoop entries low [] [] with
    | none => none
    | some (res, latest) =>
      some (List.insertionSort ckLe (res ++ latest.map Prod.snd))

theorem dseLoop_spec : ∀ (rest : List Entry) (low : Nat) (res : List Entry)
    (latest : List (Str × Entry)),
    (∀ e ∈ rest, vkey e.Key) →
    (∀ p ∈ latest, p.1 = userPart p.2.Key ∧ ParseTs p.2.Key ≤ low) →
    ((latest.map Prod.fst).Nodup) →
    ∃ latest2,
      dseLoop rest low res latest =
        some (res ++ rest.filter (fun e => decide (low < ParseTs e.Key)), latest2) ∧
      (∀ p ∈ latest2, p.1 = userPart p.2.Key ∧ ParseTs p.2.Key ≤ low) ∧
      ((latest2.map Prod.fst).Nodup) ∧
      (∀ p ∈ latest2, p ∈ latest ∨ p.2 ∈ rest) ∧
      (∀ p ∈ latest, ∃ q ∈ latest2, q.1 = p.1 ∧ ParseTs p.2.Key ≤ ParseTs q.2.Key) ∧
      (∀ f ∈ rest, ParseTs f.Key ≤ low →
        ∃ q ∈ latest2, q.1 = userPart f.Key ∧ ParseTs f.Key ≤ ParseTs q.2.Key) := by
  intro rest
  induction rest with
  | nil =>
    intro low res latest _ hI1 hnd
    refine ⟨latest, ?_, hI1, hnd, ?_, ?_, ?_⟩
    · simp [dseLoop]
    · intro p hp
      exact Or.inl hp
    · intro p hp
      exact ⟨p, hp, rfl, Nat.le_refl _⟩
    · intro f hf
      cases hf
  | cons e rest ih =>
    intro low res latest hvk hI1 hnd
    have hve : vkey e.Key := hvk e (List.mem_cons_self _ _)
    have hvk' : ∀ f ∈ rest, vkey f.Key := fun f hf => hvk f (List.mem_cons_of_mem _ hf)
    have hpk := vkey_parseKeyGo hve
    by_cases hts : ParseTs e.Key > low
    · obtain ⟨latest2, heq, h1, h2, h3, h4, h5⟩ := ih low (res ++ [e]) latest hvk' hI1 hnd
      refine ⟨latest2, ?_, h1, h2, ?_, h4, ?_⟩
      · simp only [dseLoop, hpk, if_pos hts, heq]
        rw [List.filter_cons, if_pos (by simpa using hts)]
        rw [List.append_assoc]
        rfl
      · intro p hp
        rcases h3 p hp with h | h
        · exact Or.inl h
        · exact Or.inr (List.mem_cons_of_mem _ h)
      · intro f hf hfts
        rcases List.mem_cons.mp hf with hf1 | hf1
        · exfalso
          rw [hf1] at hfts
          omega
        · exact h5 f hf1 hfts
    · have hets : ParseTs e.Key ≤ low := by omega
      cases hlk : lookupA latest (userPart e.Key) with
      | none =>
        have hnotin : ∀ p ∈ latest, p.1 ≠ userPart e.Key := lookupA_none_key _ _ hlk
        have hI1' : ∀ p ∈ updA latest (userPart e.Key) e,
            p.1 = userPart p.2.Key ∧ ParseTs p.2.Key ≤ low := by
          intro p hp
          rcases updA_mem_cases2 _ _ _ p hp with ⟨hp1, _⟩ | hp1
          · exact hI1 p hp1
          · rw [hp1]
            exact ⟨rfl, hets⟩
        obtain ⟨latest2, heq, h1, h2, h3, h4, h5⟩ := ih low res
          (updA latest (userPart e.Key) e) hvk' hI1' (updA_keys_nodup _ _ _ hnd)
        refine ⟨latest2, ?_, h1, h2, ?_, ?_, ?_⟩
        · simp only [dseLoop, hpk, if_neg hts, hlk, heq]
          rw [List.filter_cons, if_neg (by simpa using hts)]
        · intro p hp
          rcases h3 p hp with h | h
          · rcases updA_mem_cases2 _ _ _ p h with ⟨hp1, _⟩ | hp1
            · exact Or.inl hp1
            · refine Or.inr ?_
              rw [hp1]
              exact List.mem_cons_self _ _
          · exact Or.inr (List.mem_cons_of_mem _ h)
        · intro p hp
          exact h4 p (updA_mem_of_ne _ _ _ p hp (hnotin p hp))
        · intro f hf hfts
          rcases List.mem_cons.mp hf with hf1 | hf1
          · obtain ⟨q, hq, hq1, hq2⟩ := h4 (userPart e.Key, e) (updA_mem_self _ _ _)
            subst hf1
            exact ⟨q, hq, hq1, hq2⟩
          · exact h5 f hf1 hfts
      | some maxEntry =>
        have hmem : (userPart e.Key, maxEntry) ∈ latest := lookupA_mem _ _ _ hlk
        by_cases hup : ParseTs e.Key > ParseTs maxEntry.Key
        · have hI1' : ∀ p ∈ updA latest (userPart e.Key) e,
              p.1 = userPart p.2.Key ∧ ParseTs p.2.Key ≤ low := by
            intro p hp
            rcases updA_mem_cases2 _ _ _ p hp with ⟨hp1, _⟩ | hp1
            · exact hI1 p hp1
            · rw [hp1]
              exact ⟨rfl, hets⟩
          obtain ⟨latest2, heq, h1, h2, h3, h4, h5⟩ := ih low res
            (updA latest (userPart e.Key) e) hvk' hI1' (updA_keys_nodup _ _ _ hnd)
          refine ⟨latest2, ?_, h1, h2, ?_, ?_, ?_⟩
          · simp only [dseLoop, hpk, if_neg hts, hlk, if_pos hup, heq]
            rw [List.filter_cons, if_neg (by simpa using hts)]
          · intro p hp
            rcases h3 p hp with h | h
            · rcases updA_mem_cases2 _ _ _ p h with ⟨hp1, _⟩ | hp1
              · exact Or.inl hp1
              · refine Or.inr ?_
                rw [hp1]
                exact List.mem_cons_self _ _
            · exact Or.inr (List.mem_cons_of_mem _ h)
          · intro p hp
            by_cases hpk2 : p.1 = userPart e.Key
            · have hpeq : p = (userPart e.Key, maxEntry) := assoc_key_inj hnd hp hmem hpk2
              obtain ⟨q, hq, hq1, hq2⟩ := h4 (userPart e.Key, e) (updA_mem_self _ _ _)
              refine ⟨q, hq, ?_, ?_⟩
              · rw [hq1, hpeq]
              · rw [hpeq]
                show ParseTs maxEntry.Key ≤ ParseTs q.2.Key
                have hq2b : ParseTs e.Key ≤ ParseTs q.2.Key := hq2
                omega
            · exact h4 p (updA_mem_of_ne _ _ _ p hp hpk2)
          · intro f hf hfts
            rcases List.mem_cons.mp hf with hf1 | hf1
            · obtain ⟨q, hq, hq1, hq2⟩ := h4 (userPart e.Key, e) (updA_mem_self _ _ _)
              subst hf1
              exact ⟨q, hq, hq1, hq2⟩
            · exact h5 f hf1 hfts
        · obtain ⟨latest2, heq, h1, h2, h3, h4, h5⟩ := ih low res latest hvk' hI1 hnd
          refine ⟨latest2, ?_, h1, h2, ?_, h4, ?_⟩
          · simp only [dseLoop, hpk, if_neg hts, hlk, if_neg hup, heq]
            rw [List.filter_cons, if_neg (by simpa using hts)]
          · intro p hp
            rcases h3 p hp with h | h
            · exact Or.inl h
            · exact Or.inr (List.mem_cons_of_mem _ h)
          · intro f hf hfts
            rcases List.mem_cons.mp hf with hf1 | hf1
            · obtain ⟨q, hq, hq1, hq2⟩ := h4 (userPart e.Key, maxEntry) hmem
              subst hf1
              refine ⟨q, hq, hq1, ?_⟩
              have hq2b : ParseTs maxEntry.Key ≤ ParseTs q.2.Key := hq2
              omega
            · exact h5 f hf1 hfts

end Originium

namespace Originium

open List

/-- C6: for every merged entry list whose keys are versioned and every
horizon low = oracle.discardAtOrBelow(): with low = 0 the input is returned
unchanged; with low > 0 the discard keeps every entry whose key timestamp
exceeds low, returns only input entries, and for each user key keeps
exactly one entry among those with timestamp at most low, namely one
carrying the largest such timestamp (conjuncts: high entries kept; output
is a subset of the input; a kept low entry dominates every low entry of
its user key; at most one kept low entry per user key; every user key with
a low entry keeps a dominating low entry). -/
theorem C6_discard_stale (low : Nat) (entries : List Entry)
    (hv : ∀ e ∈ entries, vkey e.Key) :
    (discardStaleEntries 0 entries = some entries) ∧
    (0 < low →
      ∃ out, discardStaleEntries low entries = some out ∧
        (∀ e ∈ entries, low < ParseTs e.Key → e ∈ out) ∧
        (∀ e ∈ out, e ∈ entries) ∧
        (∀ e ∈ out, ParseTs e.Key ≤ low →
          ∀ f ∈ entries, userPart f.Key = userPart e.Key → ParseTs f.Key ≤ low →
            ParseTs f.Key ≤ ParseTs e.Key) ∧
        (∀ e ∈ out, ∀ f ∈ out, ParseTs e.Key ≤ low → ParseTs f.Key ≤ low →
          userPart e.Key = userPart f.Key → e = f) ∧
        (∀ f ∈ entries, ParseTs f.Key ≤ low →
          ∃ e ∈ out, userPart e.Key = userPart f.Key ∧ ParseTs f.Key ≤ ParseTs e.Key ∧
            ParseTs e.Key ≤ low)) := by
  constructor
  · simp [discardStaleEntries]
  · intro hlow
    obtain ⟨latest2, heq, h1, h2, h3, h4, h5⟩ := dseLoop_spec entries low [] [] hv
      (by intro p hp; cases hp) (by simp)
    refine ⟨List.insertionSort ckLe
      ((entries.filter (fun e => decide (low < ParseTs e.Key))) ++ latest2.map Prod.snd),
      ?_, ?_, ?_, ?_, ?_, ?_⟩
    · unfold discardStaleEntries
      rw [if_neg (by omega), heq, List.nil_append]
    all_goals {
      have hperm : List.insertionSort ckLe
          ((entries.filter (fun e => decide (low < ParseTs e.Key))) ++ latest2.map Prod.snd) ~
          ((entries.filter (fun e => decide (low < ParseTs e.Key))) ++ latest2.map Prod.snd) :=
        List.perm_insertionSort ckLe _
      have hsplit : ∀ e ∈ List.insertionSort ckLe
          ((entries.filter (fun e => decide (low < ParseTs e.Key))) ++ latest2.map Prod.snd),
          ParseTs e.Key ≤ low → ∃ q ∈ latest2, q.2 = e := by
        intro e he hle
        rcases List.mem_append.mp (hperm.mem_iff.mp he) with h | h
        · have := (List.mem_filter.mp h).2
          simp only [decide_eq_true_eq] at this
          omega
        · obtain ⟨q, hq, hqe⟩ := List.mem_map.mp h
          exact ⟨q, hq, hqe⟩
      first
      | -- high entries kept
        (intro e he hhigh
         apply hperm.mem_iff.mpr
         apply List.mem_append.mpr
         exact Or.inl (List.mem_filter.mpr ⟨he, by simpa using hhigh⟩))
      | -- subset of input
        (intro e he
         rcases List.mem_append.mp (hperm.mem_iff.mp he) with h | h
         · exact List.mem_of_mem_filter h
         · obtain ⟨q, hq, hqe⟩ := List.mem_map.mp h
           rcases h3 q hq with h' | h'
           · cases h'
           · rw [← hqe]
             exact h')
      | -- kept low entry dominates its user key's low entries
        (intro e he hle f hf huser hfle
         obtain ⟨q, hq, hqe⟩ := hsplit e he hle
         obtain ⟨q', hq', hq'1, hq'2⟩ := h5 f hf hfle
         have hqu : q.1 = userPart e.Key := by
           rw [(h1 q hq).1, hqe]
         have : q' = q := assoc_key_inj h2 hq' hq (by rw [hq'1, huser, hqu])
         rw [← hqe]
         rw [this] at hq'2
         exact hq'2)
      | -- at most one low entry per user key
        (intro e he f hf hle hfle huser
         obtain ⟨q, hq, hqe⟩ := hsplit e he hle
         obtain ⟨q', hq', hq'e⟩ := hsplit f hf hfle
         have : q = q' := by
           apply assoc_key_inj h2 hq hq'
           rw [(h1 q hq).1, (h1 q' hq').1, hqe, hq'e]
           exact huser
         rw [← hqe, ← hq'e, this])
      | -- coverage of low user keys
        (intro f hf hfle
         obtain ⟨q, hq, hq1, hq2⟩ := h5 f hf hfle
         refine ⟨q.2, ?_, ?_, hq2, (h1 q hq).2⟩
         · apply hperm.mem_iff.mpr
           apply List.mem_append.mpr
           exact Or.inr (List.mem_map_of_mem Prod.snd hq)
         · rw [← (h1 q hq).1, hq1])
    }

/-- Witness for C6 at a concrete input: with horizon 0 the single entry
list for key a at timestamp 1 is returned unchanged, and with horizon 2
the discard succeeds. -/
theorem C6_discard_stale_witness :
    discardStaleEntries 0 [(⟨KeyWithTs [97] 1, [49], false, 0⟩ : Entry)] =
      some [⟨KeyWithTs [97] 1, [49], false, 0⟩] ∧
    (discardStaleEntries 2 [(⟨KeyWithTs [97] 1, [49], false, 0⟩ : Entry)]).isSome = true := by
  constructor
  · exact (C6_discard_stale 2 [⟨KeyWithTs [97] 1, [49], false, 0⟩] (by decide)).1
  · obtain ⟨out, hout, hrest⟩ :=
      (C6_discard_stale 2 [⟨KeyWithTs [97] 1, [49], false, 0⟩] (by decide)).2 (by decide)
    rw [hout]
    rfl

end Originium

namespace Originium

/-! SSTable data-block codec and Build (src/table/data.go, src/table/sstable.go). -/

/-- LCP models utils.LCP (src/unnamed/part_004): length of the longest
common prefix of two strings. -/
def LCP : Str → Str → Nat
  | a :: as, b :: bs => if a = b then LCP as bs + 1 else 0
  | _, _ => 0

theorem LCP_le_left : ∀ (a b : Str), LCP a b ≤ a.length := by
  intro a
  induction a with
  | nil => intro b; cases b <;> simp [LCP]
  | cons x as ih =>
    intro b
    cases b with
    | nil => simp [LCP]
    | cons y bs =>
      simp only [LCP, List.length_cons]
      by_cases h : x = y
      · rw [if_pos h]
        have := ih bs
        omega
      · rw [if_neg h]
        omega

theorem LCP_le_right : ∀ (a b : Str), LCP a b ≤ b.length := by
  intro a
  induction a with
  | nil => intro b; cases b <;> simp [LCP]
  | cons x as ih =>
    intro b
    cases b with
    | nil => simp [LCP]
    | cons y bs =>
      simp only [LCP, List.length_cons]
      by_cases h : x = y
      · rw [if_pos h]
        have := ih bs
        omega
      · rw [if_neg h]
        omega

theorem LCP_take : ∀ (a b : Str), a.take (LCP a b) = b.take (LCP a b) := by
  intro a
  induction a with
  | nil => intro b; cases b <;> simp [LCP]
  | cons x as ih =>
    intro b
    cases b with
    | nil => simp [LCP]
    | cons y bs =>
      simp only [LCP]
      by_cases h : x = y
      · rw [if_pos h]
        simp only [List.take_succ_cons, h]
        rw [ih bs]
      · rw [if_neg h]
        simp

/-- u16le encodes a uint16 value as 2 little-endian bytes. -/
def u16le (n : Nat) : Str := [n % 256, n / 256 % 256]

/-- readU16 models binary.Read of a little-endian uint16 from a stream. -/
def readU16 : Str → Option (Nat × Str)
  | b0 :: b1 :: rest => some (b0 + b1 * 256, rest)
  | _ => none

theorem readU16_u16le {n : Nat} (h : n < 2 ^ 16) (rest : Str) :
    readU16 (u16le n ++ rest) = some (n, rest) := by
  simp only [u16le, List.cons_append, List.nil_append, readU16, Option.some.injEq,
    Prod.mk.injEq]
  refine ⟨by omega, trivial⟩

/-- readBytesN models reading exactly n raw bytes from a stream
(r.Read into a make(-[]byte, n) buffer). -/
def readBytesN : Nat → Str → Option (Str × Str)
  | 0, bs => some ([], bs)
  | _ + 1, [] => none
  | n + 1, b :: bs =>
    match readBytesN n bs with
    | some (xs, r) => some (b :: xs, r)
    | none => none

theorem readBytesN_exact : ∀ (xs rest : Str), readBytesN xs.length (xs ++ rest) = some (xs, rest) := by
  intro xs rest
  induction xs with
  | nil => rfl
  | cons b bs ih =>
    show (match readBytesN bs.length (bs ++ rest) with
      | some (xs, r) => some (b :: xs, r)
      | none => none) = some (b :: bs, rest)
    rw [ih]

/-- toUint64 models the Go cast uint64(v) of an int64 value
(two's complement). -/
def toUint64 (v : Int) : Nat := (v % (2 ^ 64 : Int)).toNat

/-- toInt64 models the Go cast int64(n) of a uint64 value. -/
def toInt64 (n : Nat) : Int := if n < 2 ^ 63 then (n : Int) else (n : Int) - 2 ^ 64

theorem toUint64_lt (v : Int) : toUint64 v < 2 ^ 64 := by
  unfold toUint64
  omega

theorem toInt64_toUint64 {v : Int} (h1 : -(2 ^ 63) ≤ v) (h2 : v < 2 ^ 63) :
    toInt64 (toUint64 v) = v := by
  unfold toInt64 toUint64
  split_ifs with h
  · omega
  · omega

/-- entrySize models `len(entry.Key) + len(entry.Value) + 1` of Build. -/
def entrySize (e : Entry) : Nat := e.Key.length + e.Value.length + 1

/-- encodeEntry models one iteration of Data.Encode's loop: lcp against
the previous key, suffix length, suffix bytes, value length, value bytes,
tombstone byte, version as little-endian uint64. -/
def encodeEntry (prev : Str) (e : Entry) : Str :=
  u16le (LCP e.Key prev) ++ u16le (e.Key.drop (LCP e.Key prev)).length ++
  (e.Key.drop (LCP e.Key prev)) ++ u16le e.Value.length ++ e.Value ++
  [if e.Tombstone then 1 else 0] ++ u64le (toUint64 e.Version)

/-- encodeFrom models Data.Encode's loop with prevKey threading. -/
def encodeFrom (prev : Str) : List Entry → Str
  | [] => []
  | e :: es => encodeEntry prev e ++ encodeFrom e.Key es

/-- dataEncode models Data.Encode; the third-party s2 compression of
utils.Compress is outside the repository and modelled as the identity
(utils.Decompress is its declared inverse). -/
def dataEncode (entries : List Entry) : Str := encodeFrom [] entries

/-- readU8 models binary.Read of a single byte from a stream. -/
def readU8 : Str → Option (Nat × Str)
  | b :: rest => some (b, rest)
  | [] => none

/-- parseEntry models one iteration of Data.Decode's loop: the reads
in encode order, the Go slice prevKey[:lcp] (panic when lcp exceeds the
previous key, modelled as none), and the entry reconstruction. -/
def parseEntry (prev : Str) (bytes : Str) : Option (Entry × Str) :=
  (readU16 bytes).bind fun a =>
  (readU16 a.2).bind fun b =>
  (readBytesN b.1 b.2).bind fun c =>
  (readU16 c.2).bind fun d =>
  (readBytesN d.1 d.2).bind fun v =>
  (readU8 v.2).bind fun t =>
  (readU64 t.2).bind fun w =>
  if a.1 ≤ prev.length then
    some (⟨prev.take a.1 ++ c.1, v.1, decide (t.1 = 1), toInt64 w.1⟩, w.2)
  else none

/-- decodeLoop models Data.Decode's `for reader.Len() > 0` loop; the fuel
bounds the number of iterations (one per decoded entry). -/
def decodeLoop : Nat → Str → Str → List Entry → Option (List Entry)
  | 0, _, bytes, acc => if bytes = [] then some acc else none
  | fuel + 1, prev, bytes, acc =>
    if bytes = [] then some acc
    else
      match parseEntry prev bytes with
      | none => none
      | some (e, rest) => decodeLoop fuel e.Key rest (acc ++ [e])

/-- dataDecode models Data.Decode (decompression is the identity, see
dataEncode); the byte length bounds the number of loop iterations. -/
def dataDecode (bytes : Str) : Option (List Entry) :=
  decodeLoop bytes.length [] bytes []

theorem readU8_cons (b : Nat) (rest : Str) : readU8 (b :: rest) = some (b, rest) := rfl

theorem parseEntry_encodeEntry (prev : Str) (e : Entry) (rest : Str)
    (h1 : e.Key.length < 2 ^ 16) (h2 : e.Value.length < 2 ^ 16)
    (h3 : -(2 ^ 63) ≤ e.Version) (h4 : e.Version < 2 ^ 63) :
    parseEntry prev (encodeEntry prev e ++ rest) = some (e, rest) := by
  have hlcpL : LCP e.Key prev ≤ e.Key.length := LCP_le_left _ _
  have hlcpR : LCP e.Key prev ≤ prev.length := LCP_le_right _ _
  have hslt : (e.Key.drop (LCP e.Key prev)).length < 2 ^ 16 := by
    rw [List.length_drop]
    omega
  have hkey : prev.take (LCP e.Key prev) ++ e.Key.drop (LCP e.Key prev) = e.Key := by
    rw [← LCP_take e.Key prev]
    exact List.take_append_drop _ _
  have htomb : (decide ((if e.Tombstone then (1 : Nat) else 0) = 1)) = e.Tombstone := by
    cases e.Tombstone <;> simp
  have hver : toInt64 (toUint64 e.Version) = e.Version := toInt64_toUint64 h3 h4
  simp only [encodeEntry, parseEntry, List.append_assoc, List.singleton_append,
    List.cons_append,
    readU16_u16le (by omega : LCP e.Key prev < 2 ^ 16),
    readU16_u16le hslt, readBytesN_exact, readU16_u16le h2, readU8_cons,
    readU64_u64le (toUint64_lt e.Version), Option.some_bind]
  simp only [List.nil_append, Option.some_bind, readU64_u64le (toUint64_lt e.Version)]
  rw [if_pos hlcpR]
  rw [hkey, htomb, hver]

theorem encodeEntry_ne_nil (prev : Str) (e : Entry) : encodeEntry prev e ≠ [] := by
  simp [encodeEntry, u16le]

theorem encodeFrom_length_ge : ∀ (es : List Entry) (prev : Str),
    es.length ≤ (encodeFrom prev es).length := by
  intro es
  induction es with
  | nil => intro prev; simp [encodeFrom]
  | cons e rest ih =>
    intro prev
    simp only [encodeFrom, List.length_append, List.length_cons]
    have h1 := ih e.Key
    have h2 : 1 ≤ (encodeEntry prev e).length := by
      cases he : encodeEntry prev e with
      | nil => exact absurd he (encodeEntry_ne_nil prev e)
      | cons b bs => simp
    omega

theorem decodeLoop_encodeFrom : ∀ (es : List Entry) (prev : Str) (acc : List Entry)
    (fuel : Nat), es.length ≤ fuel →
    (∀ e ∈ es, e.Key.length < 2 ^ 16 ∧ e.Value.length < 2 ^ 16 ∧
      -(2 ^ 63) ≤ e.Version ∧ e.Version < 2 ^ 63) →
    decodeLoop fuel prev (encodeFrom prev es) acc = some (acc ++ es) := by
  intro es
  induction es with
  | nil =>
    intro prev acc fuel _ _
    cases fuel <;> simp [encodeFrom, decodeLoop]
  | cons e rest ih =>
    intro prev acc fuel hfuel hwf
    cases fuel with
    | zero => simp at hfuel
    | succ fuel =>
      obtain ⟨h1, h2, h3, h4⟩ := hwf e (List.mem_cons_self _ _)
      have hne : encodeEntry prev e ++ encodeFrom e.Key rest ≠ [] := by
        intro hc
        exact encodeEntry_ne_nil prev e (List.append_eq_nil.mp hc).1
      simp only [encodeFrom, decodeLoop, if_neg hne,
        parseEntry_encodeEntry prev e _ h1 h2 h3 h4]
      rw [ih e.Key (acc ++ [e]) fuel (by simpa using hfuel)
        (fun f hf => hwf f (List.mem_cons_of_mem _ hf))]
      simp

theorem dataDecode_dataEncode (es : List Entry)
    (hwf : ∀ e ∈ es, e.Key.length < 2 ^ 16 ∧ e.Value.length < 2 ^ 16 ∧
      -(2 ^ 63) ≤ e.Version ∧ e.Version < 2 ^ 63) :
    dataDecode (dataEncode es) = some es := by
  unfold dataDecode dataEncode
  have hfuel : es.length ≤ (encodeFrom [] es).length := encodeFrom_length_ge es []
  have := decodeLoop_encodeFrom es [] [] (encodeFrom [] es).length hfuel hwf
  simpa using this

end Originium

namespace Originium

/-- entryWF: the size bounds under which the uint16/uint64 casts of the
data-block codec are lossless. -/
def entryWF (e : Entry) : Prop :=
  e.Key.length < 2 ^ 16 ∧ e.Value.length < 2 ^ 16 ∧
  -(2 ^ 63) ≤ e.Version ∧ e.Version < 2 ^ 63

instance (e : Entry) : Decidable (entryWF e) := by
  unfold entryWF
  infer_instance

/-- packLoop models the data-block packing loop of Build
(src/table/sstable.go lines 42-56): flush the current block when its size
already exceeds dataBlockSize, then add the entry to the current block. -/
def packLoop : List Entry → Nat → Nat → List Entry → List (List Entry) → List (List Entry)
  | [], _, _, data, blocks => if data.length > 0 then blocks ++ [data] else blocks
  | e :: rest, size, currSize, data, blocks =>
    if currSize > size then
      packLoop rest size (entrySize e) [e] (blocks ++ [data])
    else
      packLoop rest size (currSize + entrySize e) (data ++ [e]) blocks

/-- packBlocks is Build's block packing from the initial empty state. -/
def packBlocks (entries : List Entry) (size : Nat) : List (List Entry) :=
  packLoop entries size 0 [] []

/-- IndexEntryT models table.IndexEntry: start key, end key and the data
handle of one data block. -/
structure IndexEntryT where
  StartKey : Str
  EndKey : Str
  DataHandle : BlockHandle
  deriving DecidableEq, Repr

/-- Index models table.Index: the whole-data-region handle and one entry
per data block. -/
structure Index where
  DataBlock : BlockHandle
  Entries : List IndexEntryT
  deriving DecidableEq, Repr

/-- buildBytes is the concatenation of the encoded data blocks, in order
(the data region Build writes first). -/
def buildBytes : List (List Entry) → Str
  | [] => []
  | b :: rest => dataEncode b ++ buildBytes rest

/-- buildIndexEntries models Build's index loop: one IndexEntry per block
with the running byte offset and the encoded length; StartKey/EndKey are
the block's first and last entry keys. -/
def buildIndexEntries : Nat → List (List Entry) → List IndexEntryT
  | _, [] => []
  | off, b :: rest =>
    ⟨(b.getD 0 ⟨[], [], false, 0⟩).Key, (b.getD (b.length - 1) ⟨[], [], false, 0⟩).Key,
      ⟨off, (dataEncode b).length⟩⟩ :: buildIndexEntries (off + (dataEncode b).length) rest

/-- indexEncode models Index.Encode (src/unnamed/part_016): the data-region
handle then, per entry, length-prefixed start and end keys and the handle;
compression is the identity as in dataEncode. -/
def indexEncode (i : Index) : Str :=
  u64le i.DataBlock.Offset ++ u64le i.DataBlock.Length ++
  (i.Entries.map (fun e => u16le e.StartKey.length ++ e.StartKey ++
    u16le e.EndKey.length ++ e.EndKey ++
    u64le e.DataHandle.Offset ++ u64le e.DataHandle.Length)).flatten

/-- metaEncode models Meta.Encode (src/unnamed/part_017): CreatedUnix as a
little-endian int64 then Level as a little-endian uint64. -/
def metaEncode (now : Int) (level : Nat) : Str :=
  u64le (toUint64 now) ++ u64le level

/-- Build models table.Build (src/table/sstable.go lines 36-141): pack the
entries into blocks, write the encoded blocks, the meta block (CreatedUnix
= the now parameter), the index block and the footer, and return the index
block and the file bytes. -/
def Build (entries : List Entry) (dataBlockSize level : Nat) (now : Int) : Index × Str :=
  let blocks := packBlocks entries dataBlockSize
  let dataBytes := buildBytes blocks
  let ies := buildIndexEntries 0 blocks
  let index : Index := ⟨⟨0, dataBytes.length⟩, ies⟩
  let metaBytes := metaEncode now level
  let indexBytes := indexEncode index
  let footerBytes := Footer.Encode ⟨⟨dataBytes.length, metaBytes.length⟩,
    ⟨dataBytes.length + metaBytes.length, indexBytes.length⟩, magicConst⟩
  (index, dataBytes ++ metaBytes ++ indexBytes ++ footerBytes)

/-- decodeBlocks decodes, via the index entries' handles, each data block
slice of the file and concatenates the results (none on any decode error). -/
def decodeBlocks (file : Str) : List IndexEntryT → Option (List Entry)
  | [] => some []
  | h :: rest =>
    match dataDecode ((file.drop h.DataHandle.Offset).take h.DataHandle.Length),
        decodeBlocks file rest with
    | some es, some tail => some (es ++ tail)
    | _, _ => none

theorem packLoop_flatten : ∀ (es : List Entry) (size currSize : Nat)
    (data : List Entry) (blocks : List (List Entry)),
    (packLoop es size currSize data blocks).flatten = blocks.flatten ++ data ++ es := by
  intro es
  induction es with
  | nil =>
    intro size currSize data blocks
    by_cases hd : data.length > 0
    · simp [packLoop, hd, List.flatten_append]
    · have : data = [] := by
        cases data with
        | nil => rfl
        | cons x xs => simp at hd
      simp [packLoop, hd, this]
  | cons e rest ih =>
    intro size currSize data blocks
    by_cases hc : currSize > size
    · rw [packLoop, if_pos hc, ih]
      simp [List.flatten_append]
    · rw [packLoop, if_neg hc, ih]
      simp

theorem decodeBlocks_build : ∀ (blocks : List (List Entry)) (pre post : Str),
    (∀ e ∈ blocks.flatten, entryWF e) →
    decodeBlocks (pre ++ buildBytes blocks ++ post) (buildIndexEntries pre.length blocks) =
      some blocks.flatten := by
  intro blocks
  induction blocks with
  | nil =>
    intro pre post _
    simp [decodeBlocks, buildIndexEntries]
  | cons b rest ih =>
    intro pre post hwf
    have hwfb : ∀ e ∈ b, entryWF e := by
      intro e he
      apply hwf
      simp only [List.flatten_cons, List.mem_append]
      exact Or.inl he
    have hwfr : ∀ e ∈ rest.flatten, entryWF e := by
      intro e he
      apply hwf
      simp only [List.flatten_cons, List.mem_append]
      exact Or.inr he
    have hslice : ((pre ++ buildBytes (b :: rest) ++ post).drop pre.length).take
        (dataEncode b).length = dataEncode b := by
      have h1 : pre ++ buildBytes (b :: rest) ++ post =
          pre ++ (dataEncode b ++ (buildBytes rest ++ post)) := by
        simp [buildBytes, List.append_assoc]
      rw [h1, List.drop_left, List.take_left]
    have hdec : dataDecode (dataEncode b) = some b :=
      dataDecode_dataEncode b (fun e he => hwfb e he)
    have hrec : decodeBlocks (pre ++ buildBytes (b :: rest) ++ post)
        (buildIndexEntries (pre.length + (dataEncode b).length) rest) =
        some rest.flatten := by
      have h2 : pre ++ buildBytes (b :: rest) ++ post =
          (pre ++ dataEncode b) ++ buildBytes rest ++ post := by
        simp [buildBytes, List.append_assoc]
      have h3 : pre.length + (dataEncode b).length = (pre ++ dataEncode b).length := by
        simp
      rw [h2, h3]
      exact ih (pre ++ dataEncode b) post hwfr
    show (match dataDecode (((pre ++ buildBytes (b :: rest) ++ post).drop pre.length).take
        (dataEncode b).length),
        decodeBlocks (pre ++ buildBytes (b :: rest) ++ post)
          (buildIndexEntries (pre.length + (dataEncode b).length) rest) with
      | some es, some tail => some (es ++ tail)
      | _, _ => none) = some (b :: rest).flatten
    rw [hslice, hdec, hrec]
    rfl

/-- C7: building an SSTable from any entry list whose keys, values and
versions fit the codec's uint16/uint64 fields, with any data-block size
threshold, packs every entry into exactly one data block (the blocks
flatten back to the input, no entry is split), and decoding the data-block
slices of the returned file located via the returned index's handles
yields exactly the input entries. -/
theorem C7_sstable_roundtrip (entries : List Entry) (dataBlockSize level : Nat) (now : Int)
    (hwf : ∀ e ∈ entries, entryWF e) :
    ((packBlocks entries dataBlockSize).flatten = entries) ∧
    (decodeBlocks (Build entries dataBlockSize level now).2
      (Build entries dataBlockSize level now).1.Entries = some entries) := by
  have hflat : (packBlocks entries dataBlockSize).flatten = entries := by
    unfold packBlocks
    rw [packLoop_flatten]
    simp
  refine ⟨hflat, ?_⟩
  have hwf2 : ∀ e ∈ (packBlocks entries dataBlockSize).flatten, entryWF e := by
    rw [hflat]
    exact hwf
  have h := decodeBlocks_build (packBlocks entries dataBlockSize) []
    (metaEncode now level ++
      indexEncode ⟨⟨0, (buildBytes (packBlocks entries dataBlockSize)).length⟩,
        buildIndexEntries 0 (packBlocks entries dataBlockSize)⟩ ++
      Footer.Encode ⟨⟨(buildBytes (packBlocks entries dataBlockSize)).length,
          (metaEncode now level).length⟩,
        ⟨(buildBytes (packBlocks entries dataBlockSize)).length +
          (metaEncode now level).length,
          (indexEncode ⟨⟨0, (buildBytes (packBlocks entries dataBlockSize)).length⟩,
            buildIndexEntries 0 (packBlocks entries dataBlockSize)⟩).length⟩,
        magicConst⟩) hwf2
  rw [hflat] at h
  show decodeBlocks (buildBytes (packBlocks entries dataBlockSize) ++
      metaEncode now level ++
      indexEncode ⟨⟨0, (buildBytes (packBlocks entries dataBlockSize)).length⟩,
        buildIndexEntries 0 (packBlocks entries dataBlockSize)⟩ ++
      Footer.Encode ⟨⟨(buildBytes (packBlocks entries dataBlockSize)).length,
          (metaEncode now level).length⟩,
        ⟨(buildBytes (packBlocks entries dataBlockSize)).length +
          (metaEncode now level).length,
          (indexEncode ⟨⟨0, (buildBytes (packBlocks entries dataBlockSize)).length⟩,
            buildIndexEntries 0 (packBlocks entries dataBlockSize)⟩).length⟩,
        magicConst⟩)
      (buildIndexEntries 0 (packBlocks entries dataBlockSize)) = some entries
  rw [← h]
  congr 1
  simp [List.append_assoc]

/-- Witness for C7: a two-entry list for keys a at 2 and a at 1 with block
threshold 1 round-trips through Build and block decoding. -/
theorem C7_sstable_roundtrip_witness :
    ((packBlocks [⟨KeyWithTs [97] 2, [50], false, 2⟩,
        ⟨KeyWithTs [97] 1, [49], false, 1⟩] 1).flatten =
      [⟨KeyWithTs [97] 2, [50], false, 2⟩, ⟨KeyWithTs [97] 1, [49], false, 1⟩]) ∧
    (decodeBlocks (Build [⟨KeyWithTs [97] 2, [50], false, 2⟩,
        ⟨KeyWithTs [97] 1, [49], false, 1⟩] 1 0 7).2
      (Build [⟨KeyWithTs [97] 2, [50], false, 2⟩,
        ⟨KeyWithTs [97] 1, [49], false, 1⟩] 1 0 7).1.Entries =
      some [⟨KeyWithTs [97] 2, [50], false, 2⟩, ⟨KeyWithTs [97] 1, [49], false, 1⟩]) :=
  C7_sstable_roundtrip _ 1 0 7 (by decide)

end Originium

namespace Originium

/-! Transactional Get (src/txn.go, src/unnamed/part_007 DB.search). -/

/-- tryIsSameKey models types.IsSameKey (src/types/types.go):
ParseKey(key1) == ParseKey(key2), where types.ParseKey panics (none) on a
key without '@'. -/
def tryIsSameKey (k1 k2 : Str) : Option Bool :=
  match ParseKeyGo k1, ParseKeyGo k2 with
  | some a, some b => some (decide (a = b))
  | _, _ => none

/-- goValue models types.Value: (nil, false) for a tombstone, otherwise
(entry.Value, true); the pair is modelled as an Option. -/
def goValue (e : Entry) : Option Str :=
  if e.Tombstone then none else some e.Value

/-- DBView abstracts the three lower-bound tiers DB.search consults:
the memtable, the immutable memtables (back to front) and the sstable
manager, each as a lower-bound function. -/
structure DBView where
  memLB : Str → Option Entry
  immLBs : List (Str → Option Entry)
  sstLB : Str → Option Entry

/-- searchTier models one tier check of DB.search (src/unnamed/part_007
lines 167-186): a lower-bound hit is accepted iff IsSameKey(key, hit.Key);
outer none is the IsSameKey panic, inner some r means "return r from
search", inner none means "fall through to the next tier". -/
def searchTier (key : Str) (lb : Str → Option Entry) : Option (Option (Option Str)) :=
  match lb key with
  | none => some none
  | some e =>
    match tryIsSameKey key e.Key with
    | none => none
    | some true => some (some (goValue e))
    | some false => some none

/-- searchTiers runs the tier checks in DB.search's order, returning
(nil, false) — none — when every tier falls through. -/
def searchTiers (key : Str) : List (Str → Option Entry) → Option (Option Str)
  | [] => some none
  | lb :: rest =>
    match searchTier key lb with
    | none => none
    | some (some r) => some r
    | some none => searchTiers key rest

/-- dbSearch models DB.search: memtable first, then the immutables back to
front, then the sstables (the sequential tier structure of the Go function
flattened into a list). -/
def dbSearch (d : DBView) (key : Str) : Option (Option Str) :=
  searchTiers key (d.memLB :: (d.immLBs ++ [d.sstLB]))

/-- GetErr models the error results of Txn.Get. -/
inductive GetErr where
  | emptyKey
  | discardedTxn
  | keyNotFound
  deriving DecidableEq, Repr

/-- TxnS models the Txn fields Get touches. -/
structure TxnS where
  readOnly : Bool
  discarded : Bool
  readTs : Nat
  readsFp : List Nat
  pendingWrites : List (Str × Entry)

/-- Modelled from the spec: Txn.Get's body is a TODO stub in src/txn.go
(lines 96-99, `return nil`), so this definition follows spec §5 "Get(k)
rejects empty keys and discarded transactions. For writers, first consult
pending_writes: if present, return its value (or KeyNotFound if
tombstoned) without recording a read-fp. Otherwise record hash(k) in
reads_fp and look up k at snapshot read_ts via DB: the DB constructs the
versioned key k@read_ts and calls search_lower_bound".  The DB lookup
itself (dbSearch) is translated from the DB.search source; utils.Hash is
not in the sources and is a parameter. -/
def txnGet (hash : Str → Nat) (d : DBView) (t : TxnS) (k : Str) :
    Option (Except GetErr (Option Str) × TxnS) :=
  if k = [] then some (.error .emptyKey, t)
  else if t.discarded then some (.error .discardedTxn, t)
  else
    match (if t.readOnly then none else lookupA t.pendingWrites k) with
    | some e =>
      if e.Tombstone then some (.error .keyNotFound, t)
      else some (.ok (some e.Value), t)
    | none =>
      match dbSearch d (KeyWithTs k t.readTs) with
      | none => none
      | some r => some (.ok r, { t with readsFp := t.readsFp ++ [hash k] })

theorem parseKeyGo_keyWithTs (k : Str) (ts : Nat) :
    ParseKeyGo (KeyWithTs k ts) = some k := by
  have hv : vkey (KeyWithTs k ts) := by
    unfold vkey
    rw [lastIndexAt_keyWithTs]
    simp
  rw [vkey_parseKeyGo hv, userPart_keyWithTs]

/-- C1: transactional Get on a writer transaction (spec-modelled body over
the sourced DB.search): empty keys and discarded transactions are
rejected; a pending-writes hit returns its value (KeyNotFound when
tombstoned) with the transaction state — in particular reads_fp —
unchanged; on a miss hash(k) is appended to reads_fp and the result of the
lower-bound search for the versioned key k@read_ts is returned; and a
tier's lower-bound hit is accepted exactly when its user part equals k. -/
theorem C1_txn_get (hash : Str → Nat) (d : DBView) (t : TxnS) (k : Str)
    (hw : t.readOnly = false) :
    (txnGet hash d t [] = some (.error .emptyKey, t)) ∧
    (t.discarded = true → k ≠ [] →
      txnGet hash d t k = some (.error .discardedTxn, t)) ∧
    (∀ e, t.discarded = false → k ≠ [] → lookupA t.pendingWrites k = some e →
      txnGet hash d t k =
        (if e.Tombstone then some (.error .keyNotFound, t)
         else some (.ok (some e.Value), t))) ∧
    (∀ r, t.discarded = false → k ≠ [] → lookupA t.pendingWrites k = none →
      dbSearch d (KeyWithTs k t.readTs) = some r →
      txnGet hash d t k = some (.ok r, { t with readsFp := t.readsFp ++ [hash k] })) ∧
    (∀ (lb : Str → Option Entry) (e : Entry), lb (KeyWithTs k t.readTs) = some e →
      vkey e.Key →
      searchTier (KeyWithTs k t.readTs) lb =
        (if userPart e.Key = k then some (some (goValue e)) else some none)) := by
  refine ⟨?_, ?_, ?_, ?_, ?_⟩
  · simp [txnGet]
  · intro hd hk
    simp [txnGet, hk, hd]
  · intro e hd hk hpend
    simp only [txnGet, if_neg hk, hd, if_neg (by simp : ¬ False), hw]
    simp [hpend]
  · intro r hd hk hpend hsearch
    simp only [txnGet, if_neg hk, hd, hw]
    simp [hpend, hsearch]
  · intro lb e hlb hve
    simp only [searchTier, hlb, tryIsSameKey, parseKeyGo_keyWithTs, vkey_parseKeyGo hve]
    by_cases h : userPart e.Key = k
    · simp [h]
    · have hne : ¬ k = userPart e.Key := fun hc => h hc.symm
      simp [h, hne]

/-- Witness for C1 at a concrete writer transaction and empty DB view. -/
theorem C1_txn_get_witness :
    (txnGet (fun _ => 7) ⟨fun _ => none, [], fun _ => none⟩
      ⟨false, false, 5, [], []⟩ [] =
      some (.error .emptyKey, ⟨false, false, 5, [], []⟩)) ∧
    (txnGet (fun _ => 7) ⟨fun _ => none, [], fun _ => none⟩
      ⟨false, false, 5, [], []⟩ [97] =
      some (.ok none, ⟨false, false, 5, [7], []⟩)) := by
  constructor
  · exact (C1_txn_get (fun _ => 7) ⟨fun _ => none, [], fun _ => none⟩
      ⟨false, false, 5, [], []⟩ [97] rfl).1
  · exact (C1_txn_get (fun _ => 7) ⟨fun _ => none, [], fun _ => none⟩
      ⟨false, false, 5, [], []⟩ [97] rfl).2.2.2.1 none rfl (by simp) rfl rfl

end Originium
